import Mathlib

/-!
# slice_map: a dense-array backed map from integer identities to elements

A shallow embedding of `src/slice_map.go` and proofs about it.

Modelling conventions

* An element (`LMapObj`) is an `Obj`: the integer returned by `LMapId()` together with a
  tag telling apart two elements that share an identity.  An interface value that may be
  `nil` is an `Option Obj`, `none` being `nil`.
* `objSlice` is the list of its `len(objSlice)` slots.
* `idxMap` (a Go `map[int]int`) is an association list; `mapGet`, `mapSet` and `mapDelete`
  are the comma-ok lookup, the assignment `m[k] = v` and `delete(m, k)`.
* Go `int` is modelled by `Int`.  The only arithmetic is `maxIdx ± 1` and
  `len(objSlice) - maxIdx`, on values that stay between `-1` and `len(objSlice) + 1`
  whenever `0 ≤ maxIdx ≤ len(objSlice)`, so no wrap-around is involved.
* An operation returns `Option`: `none` is a run-time panic (index out of range, slice
  bounds out of range, method call on a `nil` interface), `some` is normal completion.
* The float32 test of `Del` is modelled exactly, with round-to-nearest-even conversions and
  quotient (`shrinkCond`).
* `FastIter` takes a visit function that acts on a state of its own; `Iter` takes a visit
  function that may also call `Del`, keeps the slots read by the `range` loop next to the
  container, and bounds the passes of its inner loop by a fuel argument.
-/

namespace SliceMap

/-- An element stored in the map: `id` is what `LMapId()` returns. -/
structure Obj where
  id : Int
  tag : Nat
deriving DecidableEq, Repr

/-- The constant `_BASE_NO_SHRINK_SIZE`. -/
def BASE_NO_SHRINK_SIZE : Int := 1024

/-! ## The index map `map[int]int` -/

/-- The lookup `v, present := m[k]`: `none` when the key is not present. -/
def mapGet : List (Int × Int) → Int → Option Int
  | [], _ => none
  | (k, v) :: rest, key => if k = key then some v else mapGet rest key

/-- The statement `delete(m, key)`. -/
def mapDelete : List (Int × Int) → Int → List (Int × Int)
  | [], _ => []
  | (k, v) :: rest, key => if k = key then mapDelete rest key else (k, v) :: mapDelete rest key

/-- The assignment `m[key] = v`. -/
def mapSet (m : List (Int × Int)) (key v : Int) : List (Int × Int) :=
  (key, v) :: mapDelete m key

/-- The keys of the map, each listed once. -/
def mapKeys : List (Int × Int) → List Int
  | [] => []
  | (k, _) :: rest => k :: (mapKeys rest).filter (fun x => decide (x ≠ k))

/-- The value of `len(m)`: the number of keys present. -/
def mapLen (m : List (Int × Int)) : Nat := (mapKeys m).length

/-! ## Slice indexing -/

/-- The expression `s[i]`; `none` is the index-out-of-range panic. -/
def sliceGet (s : List (Option Obj)) (i : Int) : Option (Option Obj) :=
  if 0 ≤ i then s[i.toNat]? else none

/-- The assignment `s[i] = v`; `none` is the index-out-of-range panic. -/
def sliceSet (s : List (Option Obj)) (i : Int) (v : Option Obj) : Option (List (Option Obj)) :=
  if 0 ≤ i ∧ i < s.length then some (s.set i.toNat v) else none

/-! ## float32 arithmetic of the shrink test

`Del` evaluates `float32(fvalue)/float32(lmap.maxIdx) > 0.1`.  A finite positive float32 is
`mant * 2 ^ exp` with `mant < 2 ^ 24`; conversion and division round to the nearest such
value, ties to the even significand.  The test is only reached with
`1024 < maxIdx` and `0 < fvalue`, both Go `int`s, so every value involved lies between
`2 ^ (-63)` and `2 ^ 63`, inside the normal range of float32. -/

/-- Number of binary digits of `n`, by halving at most `fuel` times. -/
def bitLenAux : Nat → Nat → Nat
  | 0, _ => 0
  | fuel + 1, n => if n = 0 then 0 else bitLenAux fuel (n / 2) + 1

/-- Number of binary digits of `n` (`0` for `0`). -/
def bitLen (n : Nat) : Nat := bitLenAux n n

/-- The integer nearest to `p / q`, a tie going to the even one. -/
def roundHalfEven (p q : Nat) : Nat :=
  let f := p / q
  let r := p % q
  if 2 * r < q then f
  else if q < 2 * r then f + 1
  else if f % 2 = 0 then f else f + 1

/-- A positive float32 value `mant * 2 ^ exp`. -/
structure F32 where
  mant : Nat
  exp : Int
deriving DecidableEq, Repr

/-- The float32 nearest to the positive rational `p / q`. -/
def F32.round (p q : Nat) : F32 :=
  let e0 : Int := (bitLen p : Int) - (bitLen q : Int)
  let ge : Bool := if 0 ≤ e0 then decide (q * 2 ^ e0.toNat ≤ p) else decide (q ≤ p * 2 ^ (-e0).toNat)
  -- `2 ^ e ≤ p / q < 2 ^ (e + 1)`
  let e : Int := if ge then e0 else e0 - 1
  let sh : Int := 23 - e
  let m : Nat :=
    if 0 ≤ sh then roundHalfEven (p * 2 ^ sh.toNat) q else roundHalfEven p (q * 2 ^ (-sh).toNat)
  ⟨m, e - 23⟩

/-- The conversion `float32(n)` of a positive `int`. -/
def F32.ofInt (n : Int) : F32 := F32.round n.toNat 1

/-- The float32 quotient `a / b`. -/
def F32.div (a b : F32) : F32 :=
  let k : Int := min a.exp b.exp
  F32.round (a.mant * 2 ^ (a.exp - k).toNat) (b.mant * 2 ^ (b.exp - k).toNat)

/-- The comparison `a > b` of two float32 values. -/
def F32.gt (a b : F32) : Bool :=
  let k : Int := min a.exp b.exp
  decide (b.mant * 2 ^ (b.exp - k).toNat < a.mant * 2 ^ (a.exp - k).toNat)

/-- The constant `0.1` converted to float32. -/
def F32.oneTenth : F32 := F32.round 1 10

/-- The condition guarding the call of `shrink` at the end of `Del`:
`maxIdx > _BASE_NO_SHRINK_SIZE && fvalue > 0 && float32(fvalue)/float32(maxIdx) > 0.1`. -/
def shrinkCond (maxIdx fvalue : Int) : Bool :=
  decide (maxIdx > BASE_NO_SHRINK_SIZE) && (decide (fvalue > 0) &&
    F32.gt (F32.div (F32.ofInt fvalue) (F32.ofInt maxIdx)) F32.oneTenth)

/-! ## The container -/

/-- The struct `LMap`. -/
structure LMap where
  objSlice : List (Option Obj)
  idxMap : List (Int × Int)
  maxIdx : Int
deriving DecidableEq, Repr

/-- The constructor `NewLMap()`. -/
def NewLMap : LMap := { objSlice := [], idxMap := [], maxIdx := 0 }

namespace LMap

/-- The method `Len()`. -/
def Len (lmap : LMap) : Int := lmap.maxIdx

/-- The method `Get(id)`: `some none` is the result `nil`. -/
def Get (lmap : LMap) (id : Int) : Option (Option Obj) :=
  match mapGet lmap.idxMap id with
  | some idx => sliceGet lmap.objSlice idx
  | none => some none

/-- The method `shrink()`. -/
def shrink (lmap : LMap) : Option LMap :=
  if lmap.maxIdx < lmap.objSlice.length then
    if 0 ≤ lmap.maxIdx then
      some { lmap with objSlice := lmap.objSlice.take lmap.maxIdx.toNat }
    else none
  else some lmap

/-- The exported method `Shrink()`. -/
def Shrink (lmap : LMap) : Option LMap := lmap.shrink

/-- The first part of `Del(id)` for an id found at `curIdx`: the entry is removed from the
map and the slice is compacted (lines 44-59). -/
def delAt (lmap : LMap) (id curIdx : Int) : Option LMap :=
  let idxMap1 := mapDelete lmap.idxMap id
  if curIdx = lmap.maxIdx - 1 then
    match sliceSet lmap.objSlice curIdx none with
    | none => none
    | some s => some { objSlice := s, idxMap := idxMap1, maxIdx := lmap.maxIdx - 1 }
  else
    let maxIdx1 := lmap.maxIdx - 1
    match sliceGet lmap.objSlice maxIdx1 with
    | none => none
    | some obj =>
      match sliceSet lmap.objSlice curIdx obj with
      | none => none
      | some s1 =>
        match obj with
        | none => none
        | some o =>
          match sliceSet s1 maxIdx1 none with
          | none => none
          | some s2 =>
            some { objSlice := s2, idxMap := mapSet idxMap1 o.id curIdx, maxIdx := maxIdx1 }

/-- The second part of `Del(id)`: the shrink policy (lines 65-72). -/
def delShrink (lmap : LMap) : Option LMap :=
  let fvalue : Int := (lmap.objSlice.length : Int) - lmap.maxIdx
  if shrinkCond lmap.maxIdx fvalue then lmap.shrink else some lmap

/-- The method `Del(id)`. -/
def Del (lmap : LMap) (id : Int) : Option LMap :=
  match mapGet lmap.idxMap id with
  | some curIdx =>
    match delAt lmap id curIdx with
    | none => none
    | some lmap1 => delShrink lmap1
  | none => some lmap

/-- The method `Add(obj)`; `obj = none` is a `nil` argument, on which `obj.LMapId()`
panics. -/
def Add (lmap : LMap) (obj : Option Obj) : Option LMap :=
  match obj with
  | none => none
  | some o =>
    let id := o.id
    match mapGet lmap.idxMap id with
    | some idx =>
      match sliceSet lmap.objSlice idx obj with
      | none => none
      | some s => some { lmap with objSlice := s }
    | none =>
      let idxMap1 := mapSet lmap.idxMap id lmap.maxIdx
      if lmap.maxIdx < lmap.objSlice.length then
        match sliceSet lmap.objSlice lmap.maxIdx obj with
        | none => none
        | some s => some { objSlice := s, idxMap := idxMap1, maxIdx := lmap.maxIdx + 1 }
      else
        some { objSlice := lmap.objSlice ++ [obj], idxMap := idxMap1, maxIdx := lmap.maxIdx + 1 }

/-- The loop of `FastIter` over the slots of `objSlice`, for a visit function `f` that does
not touch the container: `f` acts on a state `σ` of its own, threaded through the calls. -/
def fastIterLoop {σ : Type} (f : Obj → σ → σ) : List (Option Obj) → σ → σ
  | [], s => s
  | none :: _, s => s
  | some c :: rest, s => fastIterLoop f rest (f c s)

/-- The method `FastIter(f)` for a visit function that does not touch the container. -/
def FastIter {σ : Type} (lmap : LMap) (f : Obj → σ → σ) (s : σ) : σ :=
  fastIterLoop f lmap.objSlice s

/-- The elements passed to the visit function by `FastIter`, in the order of the calls. -/
def fastIterVisits (lmap : LMap) : List Obj :=
  lmap.FastIter (fun c acc => acc ++ [c]) []

end LMap

/-! ## Sequences of operations -/

/-- A call of one of the mutating methods; `add` carries a non-nil element. -/
inductive Op where
  | add (e : Obj)
  | del (id : Int)
  | shrink
deriving DecidableEq, Repr

/-- One call applied to a container. -/
def step (lmap : LMap) : Op → Option LMap
  | Op.add e => lmap.Add (some e)
  | Op.del id => lmap.Del id
  | Op.shrink => lmap.Shrink

/-- A sequence of calls, applied first to last. -/
def run : LMap → List Op → Option LMap
  | lmap, [] => some lmap
  | lmap, op :: rest =>
    match step lmap op with
    | none => none
    | some lmap1 => run lmap1 rest

/-- A well-formed container: one obtained from `NewLMap()` by `Add`, `Del` and `Shrink`. -/
def Reachable (lmap : LMap) : Prop := ∃ ops : List Op, run NewLMap ops = some lmap

/-! ## The map model of a sequence of calls -/

/-- The map-model reading of `Get(id)`, scanning the calls from the most recent one
backwards: the element of the first `Add` with identity `id` that is met, and `nil` when a
`Del(id)` is met before any such `Add` or when neither is met. -/
def lastAdded : List Op → Int → Option Obj
  | [], _ => none
  | Op.add e :: earlier, id => if e.id = id then some e else lastAdded earlier id
  | Op.del d :: earlier, id => if d = id then none else lastAdded earlier id
  | Op.shrink :: earlier, id => lastAdded earlier id

/-- The map-model value of `Get(id)` after the calls `ops` (given first to last): the
element passed to the most recent `Add` with identity `id` if no `Del(id)` came after that
`Add`, and `nil` otherwise. -/
def specGet (ops : List Op) (id : Int) : Option Obj := lastAdded ops.reverse id

/-- The identities passed to `Add` by the calls `ops`. -/
def addedIds : List Op → List Int
  | [] => []
  | Op.add e :: rest => e.id :: addedIds rest
  | Op.del _ :: rest => addedIds rest
  | Op.shrink :: rest => addedIds rest

/-- The map-model value of `Len()` after the calls `ops`: the number of distinct identities
that have been added and not deleted since their last `Add`. -/
def specLen (ops : List Op) : Nat :=
  ((addedIds ops).dedup.filter (fun id => (specGet ops id).isSome)).length

/-! ## The representation invariant and auxiliary notions -/

/-- The set of keys present in the map. -/
def keySet (m : List (Int × Int)) : Finset Int := (mapKeys m).toFinset

/-- The representation invariant of the container: the live count is at most the physical
length; every slot below the live count is non-empty and every slot from the live count on
is empty; the index map has exactly live-count many entries; every entry of the index map
points below the live count, at an element of that identity. -/
structure Inv (lmap : LMap) : Prop where
  le_len : lmap.maxIdx ≤ lmap.objSlice.length
  live : ∀ i : Int, 0 ≤ i → i < lmap.maxIdx → ∃ e, sliceGet lmap.objSlice i = some (some e)
  free : ∀ i : Int, lmap.maxIdx ≤ i → i < lmap.objSlice.length →
    sliceGet lmap.objSlice i = some none
  card : (mapLen lmap.idxMap : Int) = lmap.maxIdx
  pos : ∀ id p : Int, mapGet lmap.idxMap id = some p →
    0 ≤ p ∧ p < lmap.maxIdx ∧ ∃ e, sliceGet lmap.objSlice p = some (some e) ∧ e.id = id

/-- The elements of the slots before the first empty one. -/
def leadingObjs : List (Option Obj) → List Obj
  | [] => []
  | none :: _ => []
  | some c :: rest => c :: leadingObjs rest

/-! ## Sample containers -/

/-- The container after `Add` of elements with identities 1, 2 and 3. -/
def sample : LMap :=
  { objSlice := [some ⟨1, 0⟩, some ⟨2, 0⟩, some ⟨3, 0⟩],
    idxMap := [(3, 2), (2, 1), (1, 0)],
    maxIdx := 3 }

/-- The container after `Add` of elements with identities 1, 2 and 3 and `Del(1)`: the
element 3 has moved to the front and the last slot is free. -/
def sampleFree : LMap :=
  { objSlice := [some ⟨3, 0⟩, some ⟨2, 0⟩, none],
    idxMap := [(3, 0), (2, 1)],
    maxIdx := 2 }

/-- The physical length of the store after `Del` of a present identity, from the physical
length and the live count before: the test of line 69 is made on the live count less one. -/
def lenAfterDel (len maxIdx : Int) : Int :=
  if shrinkCond (maxIdx - 1) (len - (maxIdx - 1)) = true then maxIdx - 1 else len

/-- The physical length of the store and the live count after `k` calls of `Del`, each on a
present identity, from the physical length and the live count before. -/
def lenAfterDels : Nat → Int → Int → Int × Int
  | 0, len, maxIdx => (len, maxIdx)
  | k + 1, len, maxIdx => lenAfterDels k (lenAfterDel len maxIdx) (maxIdx - 1)

/-- The calls `Add` of elements with the identities `0, ..., n - 1`, in increasing order,
followed by the calls `Del` of the identities `0, ..., k - 1`, in increasing order. -/
def addDelOps (n k : Nat) : List Op :=
  (List.range n).map (fun (i : Nat) => Op.add ⟨(i : Int), 0⟩) ++
    (List.range k).map (fun (i : Nat) => Op.del (i : Int))

/-- The rational value `mant * 2 ^ exp` of a float32. -/
def F32.val (a : F32) : ℚ := (a.mant : ℚ) * (2 : ℚ) ^ a.exp

/-- The binary exponent computed by `F32.round`: the `e` with `2 ^ e ≤ p / q < 2 ^ (e + 1)`. -/
def roundExp (p q : Nat) : Int :=
  if (if 0 ≤ (bitLen p : Int) - (bitLen q : Int)
      then decide (q * 2 ^ ((bitLen p : Int) - (bitLen q : Int)).toNat ≤ p)
      else decide (q ≤ p * 2 ^ (-((bitLen p : Int) - (bitLen q : Int))).toNat)) = true
  then (bitLen p : Int) - (bitLen q : Int)
  else (bitLen p : Int) - (bitLen q : Int) - 1

/-! ## Iter

`Iter` ranges over `lmap.objSlice` while the visit function may call `Del`.  The `range`
clause evaluates the slice once: the loop runs over the length the slice had on entry and
reads slot `k` of that slice value when iteration `k` starts.  That slice value shares its
array with `lmap.objSlice`, so the assignments done by `Del` show in it, whereas the
reslicing done by `shrink` only shortens `lmap.objSlice`.  The slots the loop reads are kept
as `view`, next to the container. -/

/-- A visit function whose only effect on the container is a series of `Del` calls: from the
element it is given, its own state and the container as it finds it, it yields its new state
and the identities it passes to `Del`, in the order of the calls. -/
abbrev Visit (σ : Type) := Obj → σ → LMap → σ × List Int

/-- The method `Del(id)` called while `Iter` runs: `view` holds the slots of the slice value
the `range` loop was started on.  The assignments of lines 44-59 reach those slots, the
reslicing of `shrink` does not. -/
def delView (lmap : LMap) (view : List (Option Obj)) (id : Int) :
    Option (LMap × List (Option Obj)) :=
  match mapGet lmap.idxMap id with
  | some curIdx =>
    match lmap.delAt id curIdx with
    | none => none
    | some lmap1 =>
      match lmap1.delShrink with
      | none => none
      | some lmap2 => some (lmap2, lmap1.objSlice ++ view.drop lmap1.objSlice.length)
  | none => some (lmap, view)

/-- The `Del` calls of one call of the visit function, first to last. -/
def delsView : LMap → List (Option Obj) → List Int → Option (LMap × List (Option Obj))
  | lmap, view, [] => some (lmap, view)
  | lmap, view, id :: rest =>
    match delView lmap view id with
    | none => none
    | some r => delsView r.1 r.2 rest

/-- The state of a run of `Iter`: the container, the slots seen by the `range` loop, the
state of the visit function, and the elements passed to the visit function so far. -/
structure IterState (σ : Type) where
  lmap : LMap
  view : List (Option Obj)
  user : σ
  trace : List Obj
deriving DecidableEq, Repr

/-- How a run of `Iter` ends: normally, by a panic, or with the step budget of the model
used up. -/
inductive IterResult (σ : Type) where
  | finished (st : IterState σ)
  | panicked
  | outOfFuel
deriving DecidableEq, Repr

/-- One call `f(c)` of the visit function. -/
def callVisit {σ : Type} (f : Visit σ) (st : IterState σ) (c : Obj) : Option (IterState σ) :=
  match delsView st.lmap st.view (f c st.user st.lmap).2 with
  | none => none
  | some r =>
    some { lmap := r.1, view := r.2, user := (f c st.user st.lmap).1, trace := st.trace ++ [c] }

/-- The inner loop `for newC != nil && newC.LMapId() != c.LMapId()` of `Iter` (lines
137-145) at index `i`, entered with the current values of `c` and `newC`; each pass uses one
unit of `fuel`. -/
def iterInner {σ : Type} (f : Visit σ) (i : Nat) :
    Nat → Obj → Option Obj → IterState σ → IterResult σ
  | _, _, none, st => IterResult.finished st
  | fuel, c, some nc, st =>
    if nc.id ≠ c.id then
      match fuel with
      | 0 => IterResult.outOfFuel
      | fuel1 + 1 =>
        match callVisit f st nc with
        | none => IterResult.panicked
        | some st1 =>
          if (i : Int) < st1.lmap.objSlice.length then
            match sliceGet st1.lmap.objSlice i with
            | none => IterResult.panicked
            | some newC1 => iterInner f i fuel1 nc newC1 st1
          else iterInner f i fuel1 nc (some nc) st1
    else IterResult.finished st

/-- The body of the `range` loop of `Iter` after the test `c == nil`: lines 131-146, at
index `i`. -/
def iterBody {σ : Type} (f : Visit σ) (fuel i : Nat) (c : Obj) (st : IterState σ) :
    IterResult σ :=
  match callVisit f st c with
  | none => IterResult.panicked
  | some st1 =>
    if (i : Int) < st1.lmap.objSlice.length then
      match sliceGet st1.lmap.objSlice i with
      | none => IterResult.panicked
      | some newC => iterInner f i fuel c newC st1
    else IterResult.finished st1

/-- The `range` loop of `Iter` with `n` iterations left, the next one at index `i`; `fuel`
is the number of passes allowed to each run of the inner loop. -/
def iterOuter {σ : Type} (f : Visit σ) (fuel : Nat) : Nat → Nat → IterState σ → IterResult σ
  | 0, _, st => IterResult.finished st
  | n + 1, i, st =>
    match st.view[i]? with
    | none => IterResult.panicked
    | some none => IterResult.finished st
    | some (some c) =>
      match iterBody f fuel i c st with
      | IterResult.finished st1 => iterOuter f fuel n (i + 1) st1
      | IterResult.panicked => IterResult.panicked
      | IterResult.outOfFuel => IterResult.outOfFuel

/-- The method `Iter(f)` for a visit function that only calls `Del`, started with the state
`s` of the visit function. -/
def LMap.Iter {σ : Type} (lmap : LMap) (f : Visit σ) (s : σ) (fuel : Nat) : IterResult σ :=
  iterOuter f fuel lmap.objSlice.length 0
    { lmap := lmap, view := lmap.objSlice, user := s, trace := [] }

/-- The slots seen by the `range` loop of `Iter` are those of the store, followed by empty
ones where the store has been truncated since the loop started. -/
def ViewOk (lmap : LMap) (view : List (Option Obj)) : Prop :=
  ∃ j : Nat, view = lmap.objSlice ++ List.replicate j none

/-- The facts relating a container `lmap1` to the container `lmap` it comes from by `Del`
calls: the live count has not grown, and is the same only if nothing changed; no identity
sits at a higher position; every element found by `Get` was found before. -/
structure DelRel (lmap lmap1 : LMap) : Prop where
  maxIdx_le : lmap1.maxIdx ≤ lmap.maxIdx
  same : lmap1.maxIdx = lmap.maxIdx → lmap1 = lmap
  pos_le : ∀ key q1 : Int, mapGet lmap1.idxMap key = some q1 →
    ∃ q, mapGet lmap.idxMap key = some q ∧ q1 ≤ q
  get_sub : ∀ (key : Int) (e : Obj), lmap1.Get key = some (some e) →
    lmap.Get key = some (some e)

/-- The facts kept by a run of `Iter` started on the container `lmap0`, whatever the index
reached: the container is well-formed and comes from `lmap0` by `Del` calls, the slots seen
by the `range` loop are those of the store, every element passed to the visit function was
in `lmap0`, and no identity was passed twice. -/
structure IterOk {σ : Type} (lmap0 : LMap) (st : IterState σ) : Prop where
  reach : Reachable st.lmap
  view : ViewOk st.lmap st.view
  viewLen : st.view.length = lmap0.objSlice.length
  rel : DelRel lmap0 st.lmap
  traceLive : ∀ x ∈ st.trace, lmap0.Get x.id = some (some x)
  nodup : (st.trace.map Obj.id).Nodup

/-- Every element passed to the visit function so far that is still in the container sits
below position `k`. -/
def Passed {σ : Type} (st : IterState σ) (k : Int) : Prop :=
  ∀ x ∈ st.trace, ∀ p : Int, mapGet st.lmap.idxMap x.id = some p → p < k

/-- The state in which the body of the loop of `Iter` is left at index `i`: if slot `i` of
the store holds an element, it has the identity of the element visited last. -/
def ExitAt {σ : Type} (st : IterState σ) (i : Int) : Prop :=
  ∀ x, sliceGet st.lmap.objSlice i = some (some x) →
    ∃ y, st.trace.getLast? = some y ∧ y.id = x.id

/-- A visit function that leaves the container alone: it only updates its own state. -/
def pureVisit {σ : Type} (g : Obj → σ → σ) : Visit σ := fun c u _ => (g c u, [])

/-- A visit function whose only effect on the container is to `Del` the identity of the
element it is given. -/
def drainVisit {σ : Type} (g : Obj → σ → σ) : Visit σ := fun c u _ => (g c u, [c.id])

/-- A visit function that calls `Del(1)` when it is given the element of identity 2, and
does nothing otherwise. -/
def skipVisit : Visit Unit := fun c u _ => (u, if c.id = 2 then [1] else [])

/-- The facts kept by a run of `Iter` with `drainVisit` started on `lmap0`: an element of
`lmap0` is still in the container or has been visited; the element visited last is no
longer in the container; the store has not become empty. -/
def DrainInv {σ : Type} (lmap0 : LMap) (st : IterState σ) : Prop :=
  (∀ (key : Int) (e : Obj), lmap0.Get key = some (some e) →
    st.lmap.Get key = some (some e) ∨ e ∈ st.trace) ∧
  (∀ y, st.trace.getLast? = some y → mapGet st.lmap.idxMap y.id = none) ∧
  (0 < lmap0.objSlice.length → 0 < st.lmap.objSlice.length)

/-! ## Facts about the index map -/

theorem mapGet_mapDelete_self (m : List (Int × Int)) (k : Int) :
    mapGet (mapDelete m k) k = none := by
  induction m with
  | nil => rfl
  | cons kv rest ih =>
    obtain ⟨a, b⟩ := kv
    by_cases h : a = k
    · simp [mapDelete, h, ih]
    · simp [mapDelete, mapGet, h, ih]

theorem mapGet_mapDelete_ne (m : List (Int × Int)) {k key : Int} (h : key ≠ k) :
    mapGet (mapDelete m k) key = mapGet m key := by
  induction m with
  | nil => rfl
  | cons kv rest ih =>
    obtain ⟨a, b⟩ := kv
    by_cases h1 : a = k
    · have h2 : ¬ a = key := fun h3 => h (h3 ▸ h1)
      rw [mapDelete, if_pos h1, mapGet, if_neg h2, ih]
    · by_cases h2 : a = key
      · rw [mapDelete, if_neg h1, mapGet, if_pos h2, mapGet, if_pos h2]
      · rw [mapDelete, if_neg h1, mapGet, if_neg h2, mapGet, if_neg h2, ih]

theorem mapGet_mapSet_self (m : List (Int × Int)) (k v : Int) :
    mapGet (mapSet m k v) k = some v := by
  simp [mapSet, mapGet]

theorem mapGet_mapSet_ne (m : List (Int × Int)) {k key : Int} (v : Int) (h : key ≠ k) :
    mapGet (mapSet m k v) key = mapGet m key := by
  simp [mapSet, mapGet, Ne.symm h, mapGet_mapDelete_ne m h]

theorem mem_mapKeys (m : List (Int × Int)) (key : Int) :
    key ∈ mapKeys m ↔ mapGet m key ≠ none := by
  induction m with
  | nil => simp [mapKeys, mapGet]
  | cons kv rest ih =>
    obtain ⟨a, b⟩ := kv
    by_cases h : a = key
    · simp [mapKeys, mapGet, h]
    · have h2 : key ≠ a := fun h3 => h h3.symm
      simp [mapKeys, mapGet, h, h2, ih]

theorem nodup_mapKeys (m : List (Int × Int)) : (mapKeys m).Nodup := by
  induction m with
  | nil => simp [mapKeys]
  | cons kv rest ih =>
    obtain ⟨a, b⟩ := kv
    simp only [mapKeys, List.nodup_cons]
    exact ⟨by simp, ih.filter _⟩

theorem mem_keySet (m : List (Int × Int)) (key : Int) :
    key ∈ keySet m ↔ mapGet m key ≠ none := by
  simp [keySet, mem_mapKeys]

theorem card_keySet (m : List (Int × Int)) : (keySet m).card = mapLen m :=
  List.toFinset_card_of_nodup (nodup_mapKeys m)

theorem keySet_mapDelete (m : List (Int × Int)) (k : Int) :
    keySet (mapDelete m k) = (keySet m).erase k := by
  ext key
  rw [Finset.mem_erase, mem_keySet, mem_keySet]
  by_cases h : key = k
  · subst h; simp [mapGet_mapDelete_self]
  · simp [mapGet_mapDelete_ne m h, h]

theorem keySet_mapSet (m : List (Int × Int)) (k v : Int) :
    keySet (mapSet m k v) = insert k (keySet m) := by
  ext key
  rw [Finset.mem_insert, mem_keySet, mem_keySet]
  by_cases h : key = k
  · subst h; simp [mapGet_mapSet_self]
  · simp [mapGet_mapSet_ne m v h, h]

theorem mapLen_mapDelete (m : List (Int × Int)) {k : Int} (h : mapGet m k ≠ none) :
    mapLen (mapDelete m k) + 1 = mapLen m := by
  rw [← card_keySet, ← card_keySet, keySet_mapDelete]
  exact Finset.card_erase_add_one ((mem_keySet m k).2 h)

theorem mapLen_mapSet_new (m : List (Int × Int)) {k : Int} (v : Int) (h : mapGet m k = none) :
    mapLen (mapSet m k v) = mapLen m + 1 := by
  rw [← card_keySet, ← card_keySet, keySet_mapSet]
  exact Finset.card_insert_of_not_mem (fun h1 => (mem_keySet m k).1 h1 h)

theorem mapLen_mapSet_old (m : List (Int × Int)) {k : Int} (v : Int) (h : mapGet m k ≠ none) :
    mapLen (mapSet m k v) = mapLen m := by
  rw [← card_keySet, ← card_keySet, keySet_mapSet]
  rw [Finset.insert_eq_of_mem ((mem_keySet m k).2 h)]

/-! ## Facts about slice indexing -/

theorem sliceGet_of_nat (s : List (Option Obj)) (i : Nat) : sliceGet s (i : Int) = s[i]? := by
  simp [sliceGet]

theorem sliceGet_eq_some {s : List (Option Obj)} {i : Int} {v : Option Obj}
    (h : sliceGet s i = some v) : 0 ≤ i ∧ i < s.length := by
  unfold sliceGet at h
  by_cases h0 : 0 ≤ i
  · rw [if_pos h0] at h
    have := (List.getElem?_eq_some.1 h).1
    omega
  · rw [if_neg h0] at h; cases h

theorem sliceGet_isSome {s : List (Option Obj)} {i : Int} (h0 : 0 ≤ i) (h1 : i < s.length) :
    ∃ v, sliceGet s i = some v := by
  have h2 : i.toNat < s.length := by omega
  exact ⟨s[i.toNat], by simp [sliceGet, h0, List.getElem?_eq_getElem h2]⟩

theorem sliceSet_eq {s : List (Option Obj)} {i : Int} (h0 : 0 ≤ i) (h1 : i < s.length)
    (v : Option Obj) : sliceSet s i v = some (s.set i.toNat v) := by
  simp [sliceSet, h0, h1]

theorem sliceGet_set_self {s : List (Option Obj)} {i : Int} (h0 : 0 ≤ i) (h1 : i < s.length)
    (v : Option Obj) : sliceGet (s.set i.toNat v) i = some v := by
  have h2 : i.toNat < s.length := by omega
  simp [sliceGet, h0, h2]

theorem sliceGet_set_ne (s : List (Option Obj)) {i j : Int} (h0 : 0 ≤ i) (h : i ≠ j)
    (v : Option Obj) : sliceGet (s.set i.toNat v) j = sliceGet s j := by
  unfold sliceGet
  by_cases hj : 0 ≤ j
  · have h2 : i.toNat ≠ j.toNat := by omega
    simp [hj, List.getElem?_set_ne h2]
  · simp [hj]

theorem sliceGet_append_left (s t : List (Option Obj)) {i : Int} (h1 : i < s.length) :
    sliceGet (s ++ t) i = sliceGet s i := by
  unfold sliceGet
  by_cases h0 : 0 ≤ i
  · have h2 : i.toNat < s.length := by omega
    simp [h0, List.getElem?_append_left h2]
  · simp [h0]

theorem sliceGet_append_length (s : List (Option Obj)) (v : Option Obj) :
    sliceGet (s ++ [v]) (s.length : Int) = some v := by
  simp [sliceGet]

theorem sliceGet_take (s : List (Option Obj)) {n : Nat} {i : Int} (h : i < n) :
    sliceGet (s.take n) i = sliceGet s i := by
  unfold sliceGet
  by_cases h0 : 0 ≤ i
  · have h2 : i.toNat < n := by omega
    simp [h0, List.getElem?_take, h2]
  · simp [h0]

/-! ## Preservation of the representation invariant -/

theorem Inv.nonneg {lmap : LMap} (h : Inv lmap) : 0 ≤ lmap.maxIdx := by
  have := h.card
  omega

/-- Two identities of the index map never share a position. -/
theorem Inv.pos_inj {lmap : LMap} (h : Inv lmap) {id1 id2 p : Int}
    (h1 : mapGet lmap.idxMap id1 = some p) (h2 : mapGet lmap.idxMap id2 = some p) :
    id1 = id2 := by
  obtain ⟨_, _, e1, he1, hid1⟩ := h.pos id1 p h1
  obtain ⟨_, _, e2, he2, hid2⟩ := h.pos id2 p h2
  rw [he1] at he2
  have : e1 = e2 := by simpa using he2
  rw [← hid1, ← hid2, this]

/-- Every live slot is the position recorded in the index map for the identity of its
element: the index map has as many entries as there are live slots and sends different
identities to different live slots, so it reaches all of them. -/
theorem Inv.owner {lmap : LMap} (h : Inv lmap) {p : Int} {e : Obj}
    (hp : sliceGet lmap.objSlice p = some (some e)) (hlt : p < lmap.maxIdx) :
    mapGet lmap.idxMap e.id = some p := by
  let g : Int → Int := fun id => (mapGet lmap.idxMap id).getD 0
  have hg : ∀ id ∈ keySet lmap.idxMap, mapGet lmap.idxMap id = some (g id) := by
    intro id hid
    have h1 := (mem_keySet _ _).1 hid
    cases h2 : mapGet lmap.idxMap id with
    | none => exact absurd h2 h1
    | some q => simp [g, h2]
  have hsub : (keySet lmap.idxMap).image g ⊆ Finset.Ico 0 lmap.maxIdx := by
    intro q hq
    obtain ⟨id, hid, rfl⟩ := Finset.mem_image.1 hq
    obtain ⟨h0, h1, _⟩ := h.pos id (g id) (hg id hid)
    exact Finset.mem_Ico.2 ⟨h0, h1⟩
  have hinj : Set.InjOn g (keySet lmap.idxMap) := by
    intro a ha b hb hab
    have h1 := hg a ha
    have h2 := hg b hb
    rw [← hab] at h2
    exact h.pos_inj h1 h2
  have hcard : (Finset.Ico 0 lmap.maxIdx).card ≤ ((keySet lmap.idxMap).image g).card := by
    rw [Finset.card_image_of_injOn hinj, card_keySet, Int.card_Ico]
    have := h.card
    omega
  have heq := Finset.eq_of_subset_of_card_le hsub hcard
  have hp0 := (sliceGet_eq_some hp).1
  have hmem : p ∈ (keySet lmap.idxMap).image g := by
    rw [heq]; exact Finset.mem_Ico.2 ⟨hp0, hlt⟩
  obtain ⟨id, hid, hgid⟩ := Finset.mem_image.1 hmem
  have h1 := hg id hid
  rw [hgid] at h1
  obtain ⟨_, _, e1, he1, hid1⟩ := h.pos id p h1
  rw [hp] at he1
  have : e = e1 := by simpa using he1
  rw [this, hid1]; exact h1

theorem inv_NewLMap : Inv NewLMap := by
  refine ⟨by simp [NewLMap], ?_, ?_, by simp [NewLMap, mapLen, mapKeys], ?_⟩
  · intro i h0 h1; simp [NewLMap] at h1; omega
  · intro i h0 h1; simp [NewLMap] at h0 h1; omega
  · intro id p h; simp [NewLMap, mapGet] at h

/-- Under the invariant `Get` never panics, and returns `nil` exactly for the identities
that are not in the index map. -/
theorem Inv.get_present {lmap : LMap} (h : Inv lmap) {id p : Int}
    (hp : mapGet lmap.idxMap id = some p) :
    ∃ e, lmap.Get id = some (some e) ∧ e.id = id ∧ sliceGet lmap.objSlice p = some (some e) := by
  obtain ⟨_, _, e, he, hid⟩ := h.pos id p hp
  exact ⟨e, by simp [LMap.Get, hp, he], hid, he⟩

theorem get_absent {lmap : LMap} {id : Int} (hp : mapGet lmap.idxMap id = none) :
    lmap.Get id = some none := by
  simp [LMap.Get, hp]

/-- What `Add` does to a container that satisfies the invariant. -/
theorem add_spec {lmap : LMap} (h : Inv lmap) (e : Obj) :
    ∃ lmap1, lmap.Add (some e) = some lmap1 ∧ Inv lmap1 ∧
      (∀ id, lmap1.Get id = if id = e.id then some (some e) else lmap.Get id) ∧
      (∀ id, mapGet lmap1.idxMap id ≠ none ↔ (id = e.id ∨ mapGet lmap.idxMap id ≠ none)) ∧
      lmap1.maxIdx = (if mapGet lmap.idxMap e.id = none then lmap.maxIdx + 1 else lmap.maxIdx) := by
  have hnn := h.nonneg
  cases hget : mapGet lmap.idxMap e.id with
  | some idx =>
    obtain ⟨h0, h1, e0, he0, hid0⟩ := h.pos e.id idx hget
    have hlen : idx < lmap.objSlice.length := lt_of_lt_of_le h1 h.le_len
    refine ⟨{ lmap with objSlice := lmap.objSlice.set idx.toNat (some e) }, ?_, ?_, ?_, ?_, ?_⟩
    · simp [LMap.Add, hget, sliceSet_eq h0 hlen]
    · refine ⟨by simpa using h.le_len, ?_, ?_, h.card, ?_⟩
      · intro i hi0 hi1
        by_cases hi : idx = i
        · subst hi; exact ⟨e, sliceGet_set_self h0 hlen _⟩
        · simpa [sliceGet_set_ne _ h0 hi] using h.live i hi0 hi1
      · intro i hi0 hi1
        have hi : idx ≠ i := by simp at hi0; omega
        simpa [sliceGet_set_ne _ h0 hi] using h.free i hi0 (by simpa using hi1)
      · intro id p hp
        obtain ⟨hp0, hp1, e1, he1, hid1⟩ := h.pos id p hp
        refine ⟨hp0, hp1, ?_⟩
        by_cases hi : idx = p
        · subst hi
          have : id = e.id := h.pos_inj hp hget
          exact ⟨e, sliceGet_set_self h0 hlen _, this.symm⟩
        · exact ⟨e1, by simpa [sliceGet_set_ne _ h0 hi] using he1, hid1⟩
    · intro id
      by_cases hid : id = e.id
      · subst hid; simp [LMap.Get, hget, sliceGet_set_self h0 hlen]
      · rw [if_neg hid]
        cases hp : mapGet lmap.idxMap id with
        | none => simp [LMap.Get, hp]
        | some p =>
          have hi : idx ≠ p := fun hi => hid (h.pos_inj (hi ▸ hp) hget)
          simp [LMap.Get, hp, sliceGet_set_ne _ h0 hi]
    · intro id
      by_cases hid : id = e.id
      · subst hid; simp [hget]
      · simp [hid]
    · simp
  | none =>
    have hget1 : ∀ id, mapGet (mapSet lmap.idxMap e.id lmap.maxIdx) id =
        if id = e.id then some lmap.maxIdx else mapGet lmap.idxMap id := by
      intro id
      by_cases hid : id = e.id
      · subst hid; simp [mapGet_mapSet_self]
      · simp [mapGet_mapSet_ne _ _ hid, hid]
    have hcard : (mapLen (mapSet lmap.idxMap e.id lmap.maxIdx) : Int) = lmap.maxIdx + 1 := by
      rw [mapLen_mapSet_new _ _ hget]; have := h.card; omega
    -- the properties of the new slice shared by the two ways of writing the slot
    have key : ∀ s : List (Option Obj), lmap.maxIdx < s.length →
        sliceGet s lmap.maxIdx = some (some e) →
        (∀ i : Int, i < lmap.maxIdx → sliceGet s i = sliceGet lmap.objSlice i) →
        (∀ i : Int, lmap.maxIdx + 1 ≤ i → i < s.length → sliceGet s i = some none) →
        lmap.Add (some e) =
          some { objSlice := s, idxMap := mapSet lmap.idxMap e.id lmap.maxIdx,
                 maxIdx := lmap.maxIdx + 1 } →
        ∃ lmap1, lmap.Add (some e) = some lmap1 ∧ Inv lmap1 ∧
          (∀ id, lmap1.Get id = if id = e.id then some (some e) else lmap.Get id) ∧
          (∀ id, mapGet lmap1.idxMap id ≠ none ↔ (id = e.id ∨ mapGet lmap.idxMap id ≠ none)) ∧
          lmap1.maxIdx = (if (none : Option Int) = none then lmap.maxIdx + 1 else lmap.maxIdx) := by
      intro s hs1 hs2 hs3 hs4 hadd
      refine ⟨_, hadd, ?_, ?_, ?_, by simp⟩
      · refine ⟨by simp only; omega, ?_, ?_, hcard, ?_⟩
        · intro i hi0 hi1
          by_cases hi : i = lmap.maxIdx
          · subst hi; exact ⟨e, hs2⟩
          · have hi2 : i < lmap.maxIdx := by simp only at hi1; omega
            rw [hs3 i hi2]; exact h.live i hi0 hi2
        · intro i hi0 hi1; exact hs4 i hi0 hi1
        · intro id p hp
          simp only [hget1] at hp
          by_cases hid : id = e.id
          · rw [if_pos hid] at hp
            have : lmap.maxIdx = p := by simpa using hp
            subst this
            exact ⟨hnn, by simp only; omega, e, hs2, hid.symm⟩
          · rw [if_neg hid] at hp
            obtain ⟨hp0, hp1, e1, he1, hid1⟩ := h.pos id p hp
            exact ⟨hp0, by simp only; omega, e1, by rw [hs3 p hp1]; exact he1, hid1⟩
      · intro id
        by_cases hid : id = e.id
        · subst hid; simp [LMap.Get, mapGet_mapSet_self, hs2]
        · rw [if_neg hid]
          cases hp : mapGet lmap.idxMap id with
          | none => simp [LMap.Get, mapGet_mapSet_ne _ _ hid, hp]
          | some p =>
            obtain ⟨_, hp1, _⟩ := h.pos id p hp
            simp [LMap.Get, mapGet_mapSet_ne _ _ hid, hp, hs3 p hp1]
      · intro id
        simp only [hget1]
        by_cases hid : id = e.id
        · simp [hid]
        · simp [hid]
    by_cases hlt : lmap.maxIdx < lmap.objSlice.length
    · refine key (lmap.objSlice.set lmap.maxIdx.toNat (some e)) (by simpa using hlt)
        (sliceGet_set_self hnn hlt _) ?_ ?_ ?_
      · intro i hi; exact sliceGet_set_ne _ hnn (by omega) _
      · intro i hi0 hi1
        rw [sliceGet_set_ne _ hnn (by omega)]
        exact h.free i (by omega) (by simpa using hi1)
      · simp [LMap.Add, hget, hlt, sliceSet_eq hnn hlt]
    · have heq : lmap.maxIdx = lmap.objSlice.length := le_antisymm h.le_len (not_lt.1 hlt)
      refine key (lmap.objSlice ++ [some e]) (by simp; omega) ?_ ?_ ?_ ?_
      · rw [heq]; exact sliceGet_append_length _ _
      · intro i hi; exact sliceGet_append_left _ _ (by omega)
      · intro i hi0 hi1; simp at hi1; omega
      · simp [LMap.Add, hget, hlt]

/-- Truncating the store at the live count keeps the invariant and every `Get`. -/
theorem inv_take {lmap : LMap} (h : Inv lmap) :
    Inv { lmap with objSlice := lmap.objSlice.take lmap.maxIdx.toNat } ∧
    ∀ id, LMap.Get { lmap with objSlice := lmap.objSlice.take lmap.maxIdx.toNat } id =
      lmap.Get id := by
  have hnn := h.nonneg
  have hle := h.le_len
  have hlen : ((lmap.objSlice.take lmap.maxIdx.toNat).length : Int) = lmap.maxIdx := by
    rw [List.length_take]; omega
  refine ⟨⟨by simp only; omega, ?_, ?_, h.card, ?_⟩, ?_⟩
  · intro i hi0 hi1
    simp only at hi1 ⊢
    rw [sliceGet_take _ (by omega)]; exact h.live i hi0 hi1
  · intro i hi0 hi1
    simp only at hi0 hi1
    omega
  · intro id p hp
    obtain ⟨hp0, hp1, e, he, hid⟩ := h.pos id p hp
    exact ⟨hp0, hp1, e, by simp only; rw [sliceGet_take _ (by omega)]; exact he, hid⟩
  · intro id
    cases hp : mapGet lmap.idxMap id with
    | none => simp [LMap.Get, hp]
    | some p =>
      obtain ⟨hp0, hp1, _⟩ := h.pos id p hp
      simp only [LMap.Get, hp]
      rw [sliceGet_take _ (by omega)]

/-- Under the invariant `shrink` truncates the store at the live count. -/
theorem shrink_eq {lmap : LMap} (h : Inv lmap) :
    lmap.shrink = some { lmap with objSlice := lmap.objSlice.take lmap.maxIdx.toNat } := by
  have hnn := h.nonneg
  have hle := h.le_len
  unfold LMap.shrink
  by_cases hlt : lmap.maxIdx < lmap.objSlice.length
  · rw [if_pos hlt, if_pos hnn]
  · rw [if_neg hlt]
    have : lmap.objSlice.length ≤ lmap.maxIdx.toNat := by omega
    rw [List.take_of_length_le this]

/-- What `shrink` does to a container that satisfies the invariant. -/
theorem shrink_spec {lmap : LMap} (h : Inv lmap) :
    ∃ lmap1, lmap.shrink = some lmap1 ∧ Inv lmap1 ∧ (∀ id, lmap1.Get id = lmap.Get id) ∧
      lmap1.idxMap = lmap.idxMap ∧ lmap1.maxIdx = lmap.maxIdx ∧
      (lmap1.objSlice.length : Int) = lmap.maxIdx := by
  refine ⟨_, shrink_eq h, (inv_take h).1, (inv_take h).2, rfl, rfl, ?_⟩
  have hnn := h.nonneg
  have hle := h.le_len
  simp only [List.length_take]; omega

/-- What the shrink policy at the end of `Del` does to a container that satisfies the
invariant. -/
theorem delShrink_spec {lmap : LMap} (h : Inv lmap) :
    ∃ lmap1, lmap.delShrink = some lmap1 ∧ Inv lmap1 ∧ (∀ id, lmap1.Get id = lmap.Get id) ∧
      lmap1.idxMap = lmap.idxMap ∧ lmap1.maxIdx = lmap.maxIdx := by
  unfold LMap.delShrink
  by_cases hc : shrinkCond lmap.maxIdx ((lmap.objSlice.length : Int) - lmap.maxIdx) = true
  · obtain ⟨m1, h1, h2, h3, h4, h5, _⟩ := shrink_spec h
    exact ⟨m1, by simp [hc, h1], h2, h3, h4, h5⟩
  · exact ⟨lmap, by simp [hc], h, fun _ => rfl, rfl, rfl⟩

/-- What the removal step of `Del` does, under the invariant, for an identity found at
position `p`. -/
theorem delAt_spec {lmap : LMap} (h : Inv lmap) {id p : Int}
    (hget : mapGet lmap.idxMap id = some p) :
    ∃ lmap1, lmap.delAt id p = some lmap1 ∧ Inv lmap1 ∧
      (∀ key, lmap1.Get key = if key = id then some none else lmap.Get key) ∧
      (∀ key, mapGet lmap1.idxMap key ≠ none ↔ (key ≠ id ∧ mapGet lmap.idxMap key ≠ none)) ∧
      lmap1.maxIdx = lmap.maxIdx - 1 ∧ lmap1.objSlice.length = lmap.objSlice.length := by
  obtain ⟨hp0, hp1, e0, he0, hid0⟩ := h.pos id p hget
  have hle := h.le_len
  have hplen : p < lmap.objSlice.length := by omega
  have hcard : (mapLen (mapDelete lmap.idxMap id) : Int) = lmap.maxIdx - 1 := by
    have h1 := @mapLen_mapDelete lmap.idxMap id (by simp [hget])
    have h2 := h.card
    omega
  by_cases htail : p = lmap.maxIdx - 1
  · -- the deleted element is the last live one
    refine ⟨{ objSlice := lmap.objSlice.set p.toNat none, idxMap := mapDelete lmap.idxMap id,
              maxIdx := lmap.maxIdx - 1 }, ?_, ?_, ?_, ?_, rfl, by simp⟩
    · simp [LMap.delAt, htail, sliceSet_eq (htail ▸ hp0) (htail ▸ hplen)]
    · refine ⟨by simp only [List.length_set]; omega, ?_, ?_, hcard, ?_⟩
      · intro i hi0 hi1
        simp only at hi1 ⊢
        rw [sliceGet_set_ne _ hp0 (by omega)]
        exact h.live i hi0 (by omega)
      · intro i hi0 hi1
        simp only [List.length_set] at hi0 hi1 ⊢
        by_cases hi : p = i
        · subst hi; exact sliceGet_set_self hp0 hplen _
        · rw [sliceGet_set_ne _ hp0 hi]
          exact h.free i (by omega) hi1
      · intro key q hq
        have hk : key ≠ id := by
          intro hk; rw [hk, mapGet_mapDelete_self] at hq; cases hq
        simp only at hq ⊢
        rw [mapGet_mapDelete_ne _ hk] at hq
        obtain ⟨hq0, hq1, e1, he1, hid1⟩ := h.pos key q hq
        have hqp : p ≠ q := fun hqp => hk (h.pos_inj (hqp ▸ hq) hget)
        exact ⟨hq0, by omega, e1, by rw [sliceGet_set_ne _ hp0 hqp]; exact he1, hid1⟩
    · intro key
      by_cases hk : key = id
      · subst hk; simp [LMap.Get, mapGet_mapDelete_self]
      · rw [if_neg hk]
        simp only [LMap.Get, mapGet_mapDelete_ne _ hk]
        cases hq : mapGet lmap.idxMap key with
        | none => rfl
        | some q =>
          have hqp : p ≠ q := fun hqp => hk (h.pos_inj (hqp ▸ hq) hget)
          simp only [sliceGet_set_ne _ hp0 hqp]
    · intro key
      by_cases hk : key = id
      · subst hk; simp [mapGet_mapDelete_self]
      · simp [mapGet_mapDelete_ne _ hk, hk]
  · -- the last live element is moved into the freed position
    have ht0 : 0 ≤ lmap.maxIdx - 1 := by omega
    have htlen : lmap.maxIdx - 1 < lmap.objSlice.length := by omega
    obtain ⟨o, ho⟩ := h.live (lmap.maxIdx - 1) ht0 (by omega)
    have hown : mapGet lmap.idxMap o.id = some (lmap.maxIdx - 1) := h.owner ho (by omega)
    have hoid : o.id ≠ id := by
      intro heq; rw [heq, hget] at hown
      exact htail (by simpa using hown)
    have hpt : p ≠ lmap.maxIdx - 1 := htail
    have hs2 : ∀ i : Int, sliceGet ((lmap.objSlice.set p.toNat (some o)).set
        (lmap.maxIdx - 1).toNat none) i =
        if i = lmap.maxIdx - 1 then some none else if i = p then some (some o)
        else sliceGet lmap.objSlice i := by
      intro i
      by_cases hi1 : i = lmap.maxIdx - 1
      · rw [if_pos hi1, hi1]
        exact sliceGet_set_self ht0 (by simpa using htlen) _
      · rw [if_neg hi1, sliceGet_set_ne _ ht0 (Ne.symm hi1)]
        by_cases hi2 : i = p
        · rw [if_pos hi2, hi2]; exact sliceGet_set_self hp0 hplen _
        · rw [if_neg hi2, sliceGet_set_ne _ hp0 (Ne.symm hi2)]
    have hmap : ∀ key, mapGet (mapSet (mapDelete lmap.idxMap id) o.id p) key =
        if key = o.id then some p else if key = id then none else mapGet lmap.idxMap key := by
      intro key
      by_cases hk1 : key = o.id
      · rw [if_pos hk1, hk1, mapGet_mapSet_self]
      · rw [if_neg hk1, mapGet_mapSet_ne _ _ hk1]
        by_cases hk2 : key = id
        · rw [if_pos hk2, hk2, mapGet_mapDelete_self]
        · rw [if_neg hk2, mapGet_mapDelete_ne _ hk2]
    refine ⟨{ objSlice := (lmap.objSlice.set p.toNat (some o)).set (lmap.maxIdx - 1).toNat none,
              idxMap := mapSet (mapDelete lmap.idxMap id) o.id p,
              maxIdx := lmap.maxIdx - 1 }, ?_, ?_, ?_, ?_, rfl, by simp⟩
    · have hl1 : lmap.maxIdx - 1 < ((lmap.objSlice.set p.toNat (some o)).length : Int) := by
        simpa using htlen
      simp [LMap.delAt, htail, ho, sliceSet_eq hp0 hplen, sliceSet_eq ht0 hl1]
    · refine ⟨by simp only [List.length_set]; omega, ?_, ?_, ?_, ?_⟩
      · intro i hi0 hi1
        simp only at hi1 ⊢
        rw [hs2, if_neg (by omega)]
        by_cases hi2 : i = p
        · rw [if_pos hi2]; exact ⟨o, rfl⟩
        · rw [if_neg hi2]; exact h.live i hi0 (by omega)
      · intro i hi0 hi1
        simp only [List.length_set] at hi0 hi1 ⊢
        rw [hs2]
        by_cases hi2 : i = lmap.maxIdx - 1
        · rw [if_pos hi2]
        · rw [if_neg hi2, if_neg (by omega)]
          exact h.free i (by omega) hi1
      · simp only
        rw [mapLen_mapSet_old _ _ (by rw [mapGet_mapDelete_ne _ hoid, hown]; simp)]
        exact hcard
      · intro key q hq
        simp only at hq ⊢
        rw [hmap] at hq
        rw [hs2]
        by_cases hk1 : key = o.id
        · rw [if_pos hk1] at hq
          have hqp : p = q := by simpa using hq
          subst hqp
          rw [if_neg hpt, if_pos rfl]
          exact ⟨hp0, by omega, o, rfl, hk1.symm⟩
        · rw [if_neg hk1] at hq
          by_cases hk2 : key = id
          · rw [if_pos hk2] at hq; cases hq
          · rw [if_neg hk2] at hq
            obtain ⟨hq0, hq1, e1, he1, hid1⟩ := h.pos key q hq
            have hqp : q ≠ p := fun hqp => hk2 (h.pos_inj (hqp ▸ hq) hget)
            have hqt : q ≠ lmap.maxIdx - 1 := fun hqt => hk1 (h.pos_inj (hqt ▸ hq) hown)
            rw [if_neg hqt, if_neg hqp]
            exact ⟨hq0, by omega, e1, he1, hid1⟩
    · intro key
      simp only [LMap.Get, hmap]
      by_cases hk2 : key = id
      · rw [if_pos hk2, if_neg (by rw [hk2]; exact Ne.symm hoid), if_pos hk2]
      · rw [if_neg hk2, if_neg hk2]
        by_cases hk1 : key = o.id
        · rw [if_pos hk1, hk1, hown]
          simp only [hs2, if_neg hpt, if_true, ho]
        · rw [if_neg hk1]
          cases hq : mapGet lmap.idxMap key with
          | none => rfl
          | some q =>
            have hqp : q ≠ p := fun hqp => hk2 (h.pos_inj (hqp ▸ hq) hget)
            have hqt : q ≠ lmap.maxIdx - 1 := fun hqt => hk1 (h.pos_inj (hqt ▸ hq) hown)
            simp only [hs2, if_neg hqt, if_neg hqp]
    · intro key
      simp only [hmap]
      by_cases hk2 : key = id
      · simp [hk2, Ne.symm hoid]
      · by_cases hk1 : key = o.id
        · simp [hk1, hoid, hown]
        · simp [hk1, hk2]

/-- What `Del` does to a container that satisfies the invariant. -/
theorem del_spec {lmap : LMap} (h : Inv lmap) (id : Int) :
    ∃ lmap1, lmap.Del id = some lmap1 ∧ Inv lmap1 ∧
      (∀ key, lmap1.Get key = if key = id then some none else lmap.Get key) ∧
      (∀ key, mapGet lmap1.idxMap key ≠ none ↔ (key ≠ id ∧ mapGet lmap.idxMap key ≠ none)) ∧
      lmap1.maxIdx = (if mapGet lmap.idxMap id = none then lmap.maxIdx else lmap.maxIdx - 1) := by
  cases hget : mapGet lmap.idxMap id with
  | none =>
    refine ⟨lmap, by simp [LMap.Del, hget], h, ?_, ?_, by simp⟩
    · intro key
      by_cases hk : key = id
      · rw [if_pos hk, hk]; exact get_absent hget
      · rw [if_neg hk]
    · intro key
      by_cases hk : key = id
      · simp [hk, hget]
      · simp [hk]
  | some p =>
    obtain ⟨m1, h1, h2, h3, h4, h5, _⟩ := delAt_spec h hget
    obtain ⟨m2, g1, g2, g3, g4, g5⟩ := delShrink_spec h2
    refine ⟨m2, by simp [LMap.Del, hget, h1, g1], g2, ?_, ?_, by simp [g5, h5]⟩
    · intro key; rw [g3, h3]
    · intro key; rw [g4, h4]

/-! ## Sequences of calls -/

theorem run_append (lmap : LMap) (ops : List Op) (op : Op) :
    run lmap (ops ++ [op]) =
      match run lmap ops with
      | none => none
      | some lmap1 => step lmap1 op := by
  induction ops generalizing lmap with
  | nil =>
    simp only [List.nil_append, run]
    cases step lmap op <;> rfl
  | cons o rest ih =>
    simp only [List.cons_append, run]
    cases step lmap o with
    | none => rfl
    | some m1 => exact ih m1

theorem specGet_append (ops : List Op) (op : Op) (id : Int) :
    specGet (ops ++ [op]) id = lastAdded (op :: ops.reverse) id := by
  simp [specGet]

/-- One call on a container that satisfies the invariant, read in the map model. -/
theorem step_spec {lmap : LMap} (h : Inv lmap) (op : Op) :
    ∃ lmap1, step lmap op = some lmap1 ∧ Inv lmap1 ∧
      ∀ (ops : List Op) (id : Int), lmap.Get id = some (lastAdded ops id) →
        lmap1.Get id = some (lastAdded (op :: ops) id) := by
  cases op with
  | add e =>
    obtain ⟨m1, h1, h2, h3, _⟩ := add_spec h e
    refine ⟨m1, h1, h2, ?_⟩
    intro ops id hid
    rw [h3, lastAdded]
    by_cases hk : id = e.id
    · rw [if_pos hk, if_pos hk.symm]
    · rw [if_neg hk, if_neg (Ne.symm hk), hid]
  | del d =>
    obtain ⟨m1, h1, h2, h3, _⟩ := del_spec h d
    refine ⟨m1, h1, h2, ?_⟩
    intro ops id hid
    rw [h3, lastAdded]
    by_cases hk : id = d
    · rw [if_pos hk, if_pos hk.symm]
    · rw [if_neg hk, if_neg (Ne.symm hk), hid]
  | shrink =>
    obtain ⟨m1, h1, h2, h3, _⟩ := shrink_spec h
    refine ⟨m1, h1, h2, ?_⟩
    intro ops id hid
    rw [h3, lastAdded, hid]

/-- Every sequence of calls runs to completion from `NewLMap()`, keeps the invariant, and
leaves a container whose `Get` is the one of the map model. -/
theorem run_spec (ops : List Op) :
    ∃ lmap, run NewLMap ops = some lmap ∧ Inv lmap ∧
      ∀ id, lmap.Get id = some (specGet ops id) := by
  induction ops using List.reverseRecOn with
  | nil => exact ⟨NewLMap, rfl, inv_NewLMap, fun id => rfl⟩
  | append_singleton ops op ih =>
    obtain ⟨m, h1, h2, h3⟩ := ih
    obtain ⟨m1, g1, g2, g3⟩ := step_spec h2 op
    refine ⟨m1, by rw [run_append, h1]; exact g1, g2, ?_⟩
    intro id
    rw [specGet_append]
    exact g3 ops.reverse id (h3 id)

theorem Reachable.inv {lmap : LMap} (h : Reachable lmap) : Inv lmap := by
  obtain ⟨ops, hops⟩ := h
  obtain ⟨m, h1, h2, _⟩ := run_spec ops
  rw [hops] at h1
  cases h1
  exact h2

/-- Under the invariant the identities in the index map are those on which `Get` returns
an element. -/
theorem Inv.present_iff {lmap : LMap} (h : Inv lmap) (id : Int) :
    mapGet lmap.idxMap id ≠ none ↔ lmap.Get id ≠ some none := by
  cases hp : mapGet lmap.idxMap id with
  | none => simp [get_absent hp]
  | some p =>
    obtain ⟨e, he, _⟩ := h.get_present hp
    simp [he]

theorem lastAdded_mem {l : List Op} {id : Int} (h : lastAdded l id ≠ none) :
    id ∈ addedIds l := by
  induction l with
  | nil => exact absurd rfl h
  | cons op rest ih =>
    cases op with
    | add e =>
      by_cases hk : e.id = id
      · simp [addedIds, hk]
      · rw [lastAdded, if_neg hk] at h
        simp [addedIds, ih h]
    | del d =>
      by_cases hk : d = id
      · rw [lastAdded, if_pos hk] at h; exact absurd rfl h
      · rw [lastAdded, if_neg hk] at h
        simpa [addedIds] using ih h
    | shrink =>
      rw [lastAdded] at h
      simpa [addedIds] using ih h

theorem addedIds_append (l1 l2 : List Op) : addedIds (l1 ++ l2) = addedIds l1 ++ addedIds l2 := by
  induction l1 with
  | nil => rfl
  | cons op rest ih => cases op <;> simp [addedIds, ih]

theorem mem_addedIds_reverse (l : List Op) (id : Int) :
    id ∈ addedIds l.reverse ↔ id ∈ addedIds l := by
  induction l with
  | nil => simp
  | cons op rest ih =>
    rw [List.reverse_cons, addedIds_append, List.mem_append, ih]
    cases op <;> simp [addedIds, or_comm]

/-- Under the invariant `Len()` is the map-model count whenever `Get` is the map-model
lookup. -/
theorem len_eq_specLen {lmap : LMap} (h : Inv lmap) (ops : List Op)
    (hget : ∀ id, lmap.Get id = some (specGet ops id)) : lmap.Len = (specLen ops : Int) := by
  have hset : keySet lmap.idxMap =
      ((addedIds ops).dedup.filter (fun id => (specGet ops id).isSome)).toFinset := by
    ext id
    rw [mem_keySet, h.present_iff, hget]
    simp only [List.mem_toFinset, List.mem_filter, List.mem_dedup]
    constructor
    · intro h1
      have h2 : specGet ops id ≠ none := fun h2 => h1 (by rw [h2])
      refine ⟨(mem_addedIds_reverse ops id).1 (lastAdded_mem h2), ?_⟩
      exact Option.isSome_iff_ne_none.2 h2
    · rintro ⟨_, h1⟩ h2
      have h3 : specGet ops id = none := by simpa using h2
      rw [h3] at h1; cases h1
  have hnd : ((addedIds ops).dedup.filter (fun id => (specGet ops id).isSome)).Nodup :=
    (List.nodup_dedup _).filter _
  have hc := card_keySet lmap.idxMap
  rw [hset, List.toFinset_card_of_nodup hnd] at hc
  have := h.card
  unfold LMap.Len specLen
  omega

/-! ## FastIter -/

theorem fastIterLoop_eq_foldl {σ : Type} (f : Obj → σ → σ) (l : List (Option Obj)) (s : σ) :
    LMap.fastIterLoop f l s = (leadingObjs l).foldl (fun acc c => f c acc) s := by
  induction l generalizing s with
  | nil => rfl
  | cons x rest ih =>
    cases x with
    | none => rfl
    | some c => simp only [LMap.fastIterLoop, leadingObjs, List.foldl_cons, ih]

theorem foldl_snoc (l acc : List Obj) :
    l.foldl (fun (a : List Obj) c => a ++ [c]) acc = acc ++ l := by
  induction l generalizing acc with
  | nil => simp
  | cons x rest ih => simp [ih]

theorem fastIterVisits_eq (lmap : LMap) : lmap.fastIterVisits = leadingObjs lmap.objSlice := by
  unfold LMap.fastIterVisits LMap.FastIter
  rw [fastIterLoop_eq_foldl, foldl_snoc]; rfl

theorem leadingObjs_getElem {l : List (Option Obj)} {i : Nat} {e : Obj}
    (h : (leadingObjs l)[i]? = some e) : l[i]? = some (some e) := by
  induction l generalizing i with
  | nil => simp [leadingObjs] at h
  | cons x rest ih =>
    cases x with
    | none => simp [leadingObjs] at h
    | some c =>
      cases i with
      | zero => simpa [leadingObjs] using h
      | succ j =>
        simp only [leadingObjs, List.getElem?_cons_succ] at h ⊢
        exact ih h

theorem leadingObjs_length (l : List (Option Obj)) (n : Nat) (hn : n ≤ l.length)
    (hlive : ∀ i : Nat, i < n → ∃ e, l[i]? = some (some e))
    (hfree : ∀ i : Nat, n ≤ i → i < l.length → l[i]? = some none) :
    (leadingObjs l).length = n := by
  induction l generalizing n with
  | nil =>
    have h0 : n = 0 := by simpa using hn
    subst h0; rfl
  | cons x rest ih =>
    cases n with
    | zero =>
      have h0 := hfree 0 (le_refl 0) (by simp)
      simp only [List.getElem?_cons_zero, Option.some.injEq] at h0
      subst h0; rfl
    | succ k =>
      obtain ⟨e, he⟩ := hlive 0 (Nat.succ_pos k)
      simp only [List.getElem?_cons_zero, Option.some.injEq] at he
      subst he
      simp only [leadingObjs, List.length_cons, Nat.succ.injEq, add_left_inj]
      refine ih k (by simpa using hn) ?_ ?_
      · intro i hi
        simpa using hlive (i + 1) (by omega)
      · intro i hi1 hi2
        simpa using hfree (i + 1) (by omega) (by simp; omega)

/-- Under the invariant `FastIter` visits as many elements as `Len()` tells. -/
theorem Inv.visits_length {lmap : LMap} (h : Inv lmap) :
    (lmap.fastIterVisits.length : Int) = lmap.maxIdx := by
  have hnn := h.nonneg
  have hle := h.le_len
  rw [fastIterVisits_eq, leadingObjs_length lmap.objSlice lmap.maxIdx.toNat (by omega)]
  · omega
  · intro i hi
    have := h.live i (by omega) (by omega)
    simpa [sliceGet_of_nat] using this
  · intro i hi1 hi2
    have := h.free i (by omega) (by omega)
    simpa [sliceGet_of_nat] using this

theorem visits_slot {lmap : LMap} {i : Nat} {e : Obj}
    (h : lmap.fastIterVisits[i]? = some e) : sliceGet lmap.objSlice i = some (some e) := by
  rw [fastIterVisits_eq] at h
  rw [sliceGet_of_nat]; exact leadingObjs_getElem h

/-- Under the invariant `FastIter` visits no element twice. -/
theorem Inv.visits_nodup {lmap : LMap} (h : Inv lmap) : lmap.fastIterVisits.Nodup := by
  rw [List.nodup_iff_injective_get]
  intro a b hab
  have hlen := h.visits_length
  have ha : lmap.fastIterVisits[a.1]? = some (lmap.fastIterVisits.get a) := by
    simp [List.getElem?_eq_getElem a.2]
  have hb : lmap.fastIterVisits[b.1]? = some (lmap.fastIterVisits.get b) := by
    simp [List.getElem?_eq_getElem b.2]
  have h1 := h.owner (visits_slot ha) (by have := a.2; omega)
  have h2 := h.owner (visits_slot hb) (by have := b.2; omega)
  rw [hab, h2] at h1
  have : (b.1 : Int) = a.1 := by simpa using h1
  exact Fin.ext (by omega)

/-- Under the invariant the elements visited by `FastIter` are those `Get` returns for the
identities of the index map. -/
theorem Inv.mem_visits {lmap : LMap} (h : Inv lmap) (e : Obj) :
    e ∈ lmap.fastIterVisits ↔
      ∃ id, mapGet lmap.idxMap id ≠ none ∧ lmap.Get id = some (some e) := by
  have hlen := h.visits_length
  constructor
  · intro he
    obtain ⟨i, hi, hie⟩ := List.getElem_of_mem he
    have h1 : lmap.fastIterVisits[i]? = some e := by
      rw [List.getElem?_eq_getElem hi, hie]
    have h2 := visits_slot h1
    have h3 := h.owner h2 (by omega)
    exact ⟨e.id, by simp [h3], by simp [LMap.Get, h3, h2]⟩
  · rintro ⟨id, hid, hget⟩
    cases hp : mapGet lmap.idxMap id with
    | none => exact absurd hp hid
    | some p =>
      obtain ⟨hp0, hp1, e1, he1, _⟩ := h.pos id p hp
      have hslot : sliceGet lmap.objSlice p = some (some e) := by
        simpa [LMap.Get, hp] using hget
      have hlt : p.toNat < lmap.fastIterVisits.length := by omega
      have h1 : lmap.fastIterVisits[p.toNat]? = some (lmap.fastIterVisits[p.toNat]) :=
        List.getElem?_eq_getElem hlt
      have h2 := visits_slot h1
      rw [Int.toNat_of_nonneg hp0, hslot] at h2
      have h3 : e = lmap.fastIterVisits[p.toNat] := by simpa using h2
      rw [h3]; exact List.getElem_mem hlt

/-- Adding elements of pairwise distinct identities to `NewLMap()` stores them in the order
of the calls, with no slot left over. -/
theorem run_adds (es : List Obj) (hnd : (es.map Obj.id).Nodup) :
    ∃ lmap, run NewLMap (es.map Op.add) = some lmap ∧ lmap.objSlice = es.map some ∧
      lmap.maxIdx = es.length ∧ ∀ id, id ∉ es.map Obj.id → mapGet lmap.idxMap id = none := by
  induction es using List.reverseRecOn with
  | nil => exact ⟨NewLMap, rfl, rfl, rfl, fun _ _ => rfl⟩
  | append_singleton es e ih =>
    rw [List.map_append, List.map_singleton, List.nodup_append] at hnd
    obtain ⟨hnd1, _, hdisj⟩ := hnd
    have hnew : e.id ∉ es.map Obj.id := fun hmem => hdisj hmem (by simp)
    obtain ⟨m, h1, h2, h3, h4⟩ := ih hnd1
    have hlt : ¬ m.maxIdx < m.objSlice.length := by rw [h2, h3]; simp
    refine ⟨{ objSlice := m.objSlice ++ [some e], idxMap := mapSet m.idxMap e.id m.maxIdx,
              maxIdx := m.maxIdx + 1 }, ?_, ?_, ?_, ?_⟩
    · rw [List.map_append, List.map_singleton, run_append, h1]
      simp [step, LMap.Add, h4 e.id hnew, hlt]
    · simp [h2]
    · simp [h3]
    · intro id hid
      have hid1 : id ≠ e.id := by
        intro heq; apply hid; simp [heq]
      have hid2 : id ∉ es.map Obj.id := by
        intro hmem; apply hid; rw [List.map_append]; exact List.mem_append_left _ hmem
      simp only
      rw [mapGet_mapSet_ne _ _ hid1]; exact h4 id hid2

theorem leadingObjs_map_some (es : List Obj) : leadingObjs (es.map some) = es := by
  induction es with
  | nil => rfl
  | cons e rest ih => simp [leadingObjs, ih]

theorem sample_reachable : Reachable sample :=
  ⟨[Op.add ⟨1, 0⟩, Op.add ⟨2, 0⟩, Op.add ⟨3, 0⟩], by decide⟩

theorem sampleFree_reachable : Reachable sampleFree :=
  ⟨[Op.add ⟨1, 0⟩, Op.add ⟨2, 0⟩, Op.add ⟨3, 0⟩, Op.del 1], by decide⟩

/-! ## The layout after `Del` -/

/-- The slots and the index map after the removal step of `Del`, under the invariant, for
an identity found at position `p`: the slot of the last live element is emptied, and unless
`p` is that slot, the last live element now sits at `p`. -/
theorem delAt_layout {lmap : LMap} (h : Inv lmap) {id p : Int}
    (hget : mapGet lmap.idxMap id = some p) :
    ∃ lmap1, lmap.delAt id p = some lmap1 ∧
      lmap1.maxIdx = lmap.maxIdx - 1 ∧ lmap1.objSlice.length = lmap.objSlice.length ∧
      (∀ i : Int, sliceGet lmap1.objSlice i =
        if i = lmap.maxIdx - 1 then some none
        else if i = p then sliceGet lmap.objSlice (lmap.maxIdx - 1)
        else sliceGet lmap.objSlice i) ∧
      mapGet lmap1.idxMap id = none ∧
      (∀ key, key ≠ id → mapGet lmap1.idxMap key =
        if mapGet lmap.idxMap key = some (lmap.maxIdx - 1) then some p
        else mapGet lmap.idxMap key) := by
  obtain ⟨hp0, hp1, e0, he0, hid0⟩ := h.pos id p hget
  have hle := h.le_len
  have hplen : p < lmap.objSlice.length := by omega
  by_cases htail : p = lmap.maxIdx - 1
  · refine ⟨{ objSlice := lmap.objSlice.set p.toNat none, idxMap := mapDelete lmap.idxMap id,
              maxIdx := lmap.maxIdx - 1 }, ?_, rfl, by simp, ?_, ?_, ?_⟩
    · simp [LMap.delAt, htail, sliceSet_eq (htail ▸ hp0) (htail ▸ hplen)]
    · intro i
      simp only
      by_cases hi : i = lmap.maxIdx - 1
      · rw [if_pos hi, hi, ← htail]; exact sliceGet_set_self hp0 hplen _
      · rw [if_neg hi, if_neg (by omega), sliceGet_set_ne _ hp0 (by omega)]
    · exact mapGet_mapDelete_self _ _
    · intro key hk
      simp only
      rw [mapGet_mapDelete_ne _ hk]
      by_cases hq : mapGet lmap.idxMap key = some (lmap.maxIdx - 1)
      · rw [if_pos hq, hq, htail]
      · rw [if_neg hq]
  · have ht0 : 0 ≤ lmap.maxIdx - 1 := by omega
    have htlen : lmap.maxIdx - 1 < lmap.objSlice.length := by omega
    obtain ⟨o, ho⟩ := h.live (lmap.maxIdx - 1) ht0 (by omega)
    have hown : mapGet lmap.idxMap o.id = some (lmap.maxIdx - 1) := h.owner ho (by omega)
    have hoid : o.id ≠ id := by
      intro heq; rw [heq, hget] at hown
      exact htail (by simpa using hown)
    refine ⟨{ objSlice := (lmap.objSlice.set p.toNat (some o)).set (lmap.maxIdx - 1).toNat none,
              idxMap := mapSet (mapDelete lmap.idxMap id) o.id p,
              maxIdx := lmap.maxIdx - 1 }, ?_, rfl, by simp, ?_, ?_, ?_⟩
    · have hl1 : lmap.maxIdx - 1 < ((lmap.objSlice.set p.toNat (some o)).length : Int) := by
        simpa using htlen
      simp [LMap.delAt, htail, ho, sliceSet_eq hp0 hplen, sliceSet_eq ht0 hl1]
    · intro i
      simp only
      by_cases hi1 : i = lmap.maxIdx - 1
      · rw [if_pos hi1, hi1]
        exact sliceGet_set_self ht0 (by simpa using htlen) _
      · rw [if_neg hi1, sliceGet_set_ne _ ht0 (Ne.symm hi1)]
        by_cases hi2 : i = p
        · rw [if_pos hi2, hi2, ho]; exact sliceGet_set_self hp0 hplen _
        · rw [if_neg hi2, sliceGet_set_ne _ hp0 (Ne.symm hi2)]
    · simp only
      rw [mapGet_mapSet_ne _ _ (Ne.symm hoid), mapGet_mapDelete_self]
    · intro key hk
      simp only
      by_cases hk1 : key = o.id
      · rw [hk1, mapGet_mapSet_self, if_pos hown]
      · rw [mapGet_mapSet_ne _ _ hk1, mapGet_mapDelete_ne _ hk]
        have hq : mapGet lmap.idxMap key ≠ some (lmap.maxIdx - 1) :=
          fun hq => hk1 (h.pos_inj hq hown)
        rw [if_neg hq]

/-- The shrink policy at the end of `Del`, under the invariant: it leaves the container as
it is or truncates the store at the live count, as the test of line 69 tells. -/
theorem delShrink_eq {lmap : LMap} (h : Inv lmap) :
    lmap.delShrink = some
      (if shrinkCond lmap.maxIdx ((lmap.objSlice.length : Int) - lmap.maxIdx) = true then
        { lmap with objSlice := lmap.objSlice.take lmap.maxIdx.toNat }
      else lmap) := by
  unfold LMap.delShrink
  by_cases hc : shrinkCond lmap.maxIdx ((lmap.objSlice.length : Int) - lmap.maxIdx) = true
  · simp only [hc, if_true]; exact shrink_eq h
  · simp only [hc]; rfl

/-- What `Del` of a present identity does to the positions, under the invariant. -/
theorem del_layout {lmap : LMap} (h : Inv lmap) {id p : Int}
    (hget : mapGet lmap.idxMap id = some p) :
    ∃ lmap1, lmap.Del id = some lmap1 ∧ Inv lmap1 ∧
      lmap1.maxIdx = lmap.maxIdx - 1 ∧
      (lmap1.objSlice.length : Int) = lenAfterDel lmap.objSlice.length lmap.maxIdx ∧
      (∀ i : Int, i < lmap.maxIdx - 1 → sliceGet lmap1.objSlice i =
        if i = p then sliceGet lmap.objSlice (lmap.maxIdx - 1)
        else sliceGet lmap.objSlice i) ∧
      mapGet lmap1.idxMap id = none ∧
      (∀ key, key ≠ id → mapGet lmap1.idxMap key =
        if mapGet lmap.idxMap key = some (lmap.maxIdx - 1) then some p
        else mapGet lmap.idxMap key) := by
  obtain ⟨m1, h1, h2, h3, h4, h5, h6⟩ := delAt_layout h hget
  obtain ⟨m1', g1, g2, _⟩ := delAt_spec h hget
  rw [h1] at g1
  cases g1
  have hnn := g2.nonneg
  have hle := g2.le_len
  have hd := delShrink_eq g2
  refine ⟨_, by simp only [LMap.Del, hget, h1]; exact hd, ?_, ?_, ?_, ?_, ?_, ?_⟩
  · split
    · exact (inv_take g2).1
    · exact g2
  · split <;> exact h2
  · unfold lenAfterDel
    rw [← h2, ← h3]
    by_cases hc : shrinkCond m1.maxIdx ((m1.objSlice.length : Int) - m1.maxIdx) = true
    · rw [if_pos hc, if_pos hc]
      simp only [List.length_take]; omega
    · rw [if_neg hc, if_neg hc]
  · intro i hi
    have : sliceGet (if shrinkCond m1.maxIdx ((m1.objSlice.length : Int) - m1.maxIdx) = true
        then { m1 with objSlice := m1.objSlice.take m1.maxIdx.toNat } else m1).objSlice i =
        sliceGet m1.objSlice i := by
      split
      · exact sliceGet_take _ (by omega)
      · rfl
    rw [this, h4, if_neg (by omega)]
  · split <;> exact h5
  · intro key hk
    rw [← h6 key hk]
    split <;> rfl

/-- After `Del` no identity sits at a higher position than before. -/
theorem del_pos_le {lmap lmap1 : LMap} (h : Inv lmap) {id : Int}
    (hdel : lmap.Del id = some lmap1) {key q1 : Int}
    (hq1 : mapGet lmap1.idxMap key = some q1) :
    ∃ q, mapGet lmap.idxMap key = some q ∧ q1 ≤ q := by
  cases hget : mapGet lmap.idxMap id with
  | none =>
    have : lmap1 = lmap := by
      simp only [LMap.Del, hget] at hdel
      exact (Option.some.inj hdel).symm
    subst this
    exact ⟨q1, hq1, le_refl _⟩
  | some p =>
    obtain ⟨m1, h1, _, _, _, _, h6, h7⟩ := del_layout h hget
    rw [hdel] at h1
    cases h1
    obtain ⟨_, hp1, _⟩ := h.pos id p hget
    by_cases hk : key = id
    · rw [hk, h6] at hq1; cases hq1
    · rw [h7 key hk] at hq1
      by_cases hq : mapGet lmap.idxMap key = some (lmap.maxIdx - 1)
      · rw [if_pos hq] at hq1
        have : p = q1 := by simpa using hq1
        exact ⟨_, hq, by omega⟩
      · rw [if_neg hq] at hq1
        exact ⟨q1, hq1, le_refl _⟩

/-! ## `Del` during `Iter` -/

theorem DelRel.refl (lmap : LMap) : DelRel lmap lmap :=
  ⟨le_refl _, fun _ => rfl, fun _ q1 h => ⟨q1, h, le_refl _⟩, fun _ _ h => h⟩

theorem DelRel.trans {a b c : LMap} (h1 : DelRel a b) (h2 : DelRel b c) : DelRel a c := by
  refine ⟨le_trans h2.maxIdx_le h1.maxIdx_le, ?_, ?_, ?_⟩
  · intro h
    have hb : b.maxIdx = a.maxIdx := le_antisymm h1.maxIdx_le (h ▸ h2.maxIdx_le)
    have hc : c.maxIdx = b.maxIdx := by rw [h, hb]
    rw [h2.same hc, h1.same hb]
  · intro key q2 hq2
    obtain ⟨q1, hq1, hle1⟩ := h2.pos_le key q2 hq2
    obtain ⟨q, hq, hle⟩ := h1.pos_le key q1 hq1
    exact ⟨q, hq, le_trans hle1 hle⟩
  · intro key e he
    exact h1.get_sub key e (h2.get_sub key e he)

theorem del_rel {lmap lmap1 : LMap} (h : Inv lmap) {id : Int}
    (hdel : lmap.Del id = some lmap1) : DelRel lmap lmap1 := by
  obtain ⟨m1, h1, _, h3, _, h5⟩ := del_spec h id
  rw [hdel] at h1
  cases h1
  refine ⟨?_, ?_, ?_, ?_⟩
  · rw [h5]; split <;> omega
  · intro hsame
    rw [h5] at hsame
    by_cases hget : mapGet lmap.idxMap id = none
    · simp only [LMap.Del, hget] at hdel
      exact (Option.some.inj hdel).symm
    · rw [if_neg hget] at hsame; omega
  · intro key q1 hq1
    exact del_pos_le h hdel hq1
  · intro key e he
    rw [h3] at he
    by_cases hk : key = id
    · rw [if_pos hk] at he; cases he
    · rw [if_neg hk] at he; exact he

theorem Reachable.step {lmap lmap1 : LMap} (h : Reachable lmap) (op : Op)
    (hs : step lmap op = some lmap1) : Reachable lmap1 := by
  obtain ⟨ops, hops⟩ := h
  exact ⟨ops ++ [op], by rw [run_append, hops]; exact hs⟩

/-- Under the invariant the slots of the store from the live count on are all empty. -/
theorem Inv.split_take {lmap : LMap} (h : Inv lmap) :
    lmap.objSlice = lmap.objSlice.take lmap.maxIdx.toNat ++
      List.replicate (lmap.objSlice.length - lmap.maxIdx.toNat) none := by
  have hnn := h.nonneg
  conv_lhs => rw [← List.take_append_drop lmap.maxIdx.toNat lmap.objSlice]
  congr 1
  rw [List.eq_replicate_iff]
  refine ⟨by simp, ?_⟩
  intro b hb
  obtain ⟨i, hi, hib⟩ := List.getElem_of_mem hb
  rw [List.getElem_drop] at hib
  have hi2 : lmap.maxIdx.toNat + i < lmap.objSlice.length := by
    simp only [List.length_drop] at hi; omega
  have := h.free ((lmap.maxIdx.toNat + i : Nat) : Int) (by omega) (by omega)
  rw [sliceGet_of_nat, List.getElem?_eq_getElem hi2] at this
  rw [← hib]
  simpa using this

/-- What a `Del` call made while `Iter` runs does, under the invariant: to the container
the same as `Del`, and the slots seen by the `range` loop stay those of the store followed
by empty ones. -/
theorem delView_spec {lmap : LMap} (h : Inv lmap) {view : List (Option Obj)}
    (hv : ViewOk lmap view) (id : Int) :
    ∃ lmap1 view1, delView lmap view id = some (lmap1, view1) ∧ lmap.Del id = some lmap1 ∧
      Inv lmap1 ∧ ViewOk lmap1 view1 ∧ view1.length = view.length := by
  cases hget : mapGet lmap.idxMap id with
  | none =>
    exact ⟨lmap, view, by simp [delView, hget], by simp [LMap.Del, hget], h, hv, rfl⟩
  | some p =>
    obtain ⟨m1, h1, h2, _, _, _, hlen⟩ := delAt_spec h hget
    obtain ⟨j, hj⟩ := hv
    have hview : m1.objSlice ++ view.drop m1.objSlice.length =
        m1.objSlice ++ List.replicate j none := by
      rw [hlen, hj, List.drop_left]
    have hd := delShrink_eq h2
    refine ⟨if shrinkCond m1.maxIdx ((m1.objSlice.length : Int) - m1.maxIdx) = true then
        { m1 with objSlice := m1.objSlice.take m1.maxIdx.toNat } else m1,
      m1.objSlice ++ view.drop m1.objSlice.length,
      by simp only [delView, hget, h1, hd], by simp only [LMap.Del, hget, h1, hd], ?_, ?_, ?_⟩
    · split
      · exact (inv_take h2).1
      · exact h2
    · rw [hview]
      split
      · refine ⟨m1.objSlice.length - m1.maxIdx.toNat + j, ?_⟩
        simp only
        conv_lhs => rw [h2.split_take]
        rw [List.append_assoc, List.replicate_add]
      · exact ⟨j, rfl⟩
    · rw [hview, hj]; simp [hlen]

/-- What the `Del` calls of one call of the visit function do, on a well-formed
container. -/
theorem delsView_spec {lmap : LMap} (hr : Reachable lmap) {view : List (Option Obj)}
    (hv : ViewOk lmap view) (ids : List Int) :
    ∃ lmap1 view1, delsView lmap view ids = some (lmap1, view1) ∧ Reachable lmap1 ∧
      DelRel lmap lmap1 ∧ ViewOk lmap1 view1 ∧ view1.length = view.length := by
  induction ids generalizing lmap view with
  | nil => exact ⟨lmap, view, rfl, hr, DelRel.refl _, hv, rfl⟩
  | cons id rest ih =>
    obtain ⟨m1, v1, h1, h2, _, h4, h5⟩ := delView_spec hr.inv hv id
    obtain ⟨m2, v2, g1, g2, g3, g4, g5⟩ := ih (hr.step (Op.del id) h2) h4
    refine ⟨m2, v2, by simp only [delsView, h1]; exact g1, g2,
      (del_rel hr.inv h2).trans g3, g4, by rw [g5, h5]⟩

/-! ## The loops of `Iter` -/

/-- An element found in a slot of a container that satisfies the invariant is live: the
slot is below the live count, the index map sends its identity there, and `Get` returns
it. -/
theorem Inv.slot_live {lmap : LMap} (h : Inv lmap) {i : Int} {c : Obj}
    (hs : sliceGet lmap.objSlice i = some (some c)) :
    i < lmap.maxIdx ∧ mapGet lmap.idxMap c.id = some i ∧ lmap.Get c.id = some (some c) := by
  obtain ⟨h0, h1⟩ := sliceGet_eq_some hs
  have hlt : i < lmap.maxIdx := by
    by_contra hge
    have := h.free i (by omega) h1
    rw [hs] at this
    cases this
  have hown := h.owner hs hlt
  exact ⟨hlt, hown, by simp only [LMap.Get, hown]; exact hs⟩

theorem ViewOk.slot {lmap : LMap} {view : List (Option Obj)} (hv : ViewOk lmap view)
    {i : Nat} {c : Obj} (hc : view[i]? = some (some c)) :
    sliceGet lmap.objSlice i = some (some c) := by
  obtain ⟨j, hj⟩ := hv
  rw [sliceGet_of_nat]
  rw [hj] at hc
  by_cases hi : i < lmap.objSlice.length
  · rwa [List.getElem?_append_left hi] at hc
  · rw [List.getElem?_append_right (by omega)] at hc
    have h1 := List.getElem?_mem hc
    have h2 := List.eq_of_mem_replicate h1
    cases h2

/-- What one call of the visit function does, on an element found in slot `i` of the store
and not visited before. -/
theorem callVisit_spec {σ : Type} (f : Visit σ) {lmap0 : LMap} {st : IterState σ}
    (hok : IterOk lmap0 st) {c : Obj} {i : Int}
    (hslot : sliceGet st.lmap.objSlice i = some (some c))
    (hnew : c.id ∉ st.trace.map Obj.id) :
    ∃ st1, callVisit f st c = some st1 ∧ IterOk lmap0 st1 ∧ DelRel st.lmap st1.lmap ∧
      st1.trace = st.trace ++ [c] := by
  obtain ⟨m1, v1, h1, h2, h3, h4, h5⟩ :=
    delsView_spec hok.reach hok.view (f c st.user st.lmap).2
  refine ⟨{ lmap := m1, view := v1, user := (f c st.user st.lmap).1,
            trace := st.trace ++ [c] }, by simp only [callVisit, h1], ?_, h3, rfl⟩
  refine ⟨h2, h4, by rw [← hok.viewLen]; exact h5, hok.rel.trans h3, ?_, ?_⟩
  · intro x hx
    simp only [List.mem_append, List.mem_singleton] at hx
    rcases hx with hx | hx
    · exact hok.traceLive x hx
    · rw [hx]
      exact hok.rel.get_sub _ _ (hok.reach.inv.slot_live hslot).2.2
  · simp only [List.map_append, List.map_singleton]
    rw [List.nodup_append]
    refine ⟨hok.nodup, List.nodup_singleton _, ?_⟩
    intro a ha hb
    rw [List.mem_singleton] at hb
    exact hnew (hb ▸ ha)

/-- The inner loop of `Iter` at index `i`, on a run started on a well-formed container: with
fuel for as many passes as there are live elements it ends normally.  `Q` is any further
property kept by the calls of the visit function. -/
theorem iterInner_spec {σ : Type} (f : Visit σ) (lmap0 : LMap) (Q : IterState σ → Prop)
    (hQ : ∀ (st : IterState σ) (c : Obj) (st1 : IterState σ), IterOk lmap0 st →
      st.lmap.Get c.id = some (some c) → Q st → callVisit f st c = some st1 → Q st1)
    (i : Nat) (fuel : Nat) :
    ∀ (c : Obj) (newC : Option Obj) (st : IterState σ),
      IterOk lmap0 st → Q st → Passed st ((i : Int) + 1) →
      (∀ x ∈ st.trace, mapGet st.lmap.idxMap x.id = some (i : Int) → x.id = c.id) →
      st.trace.getLast? = some c →
      (sliceGet st.lmap.objSlice i = some newC ∨
        (newC = some c ∧ sliceGet st.lmap.objSlice i = none)) →
      ((∃ nc, newC = some nc ∧ nc.id ≠ c.id) → st.lmap.maxIdx ≤ (fuel : Int)) →
      ∃ st1, iterInner f i fuel c newC st = IterResult.finished st1 ∧ IterOk lmap0 st1 ∧
        Q st1 ∧ Passed st1 ((i : Int) + 1) ∧ ExitAt st1 i ∧ DelRel st.lmap st1.lmap := by
  induction fuel with
  | zero =>
    intro c newC st hok hq hpass hcur hlast hread hfuel
    cases newC with
    | none =>
      refine ⟨st, by simp [iterInner], hok, hq, hpass, ?_, DelRel.refl _⟩
      intro x hx
      rcases hread with hr | hr
      · rw [hx] at hr; cases hr
      · cases hr.1
    | some nc =>
      by_cases hid : nc.id = c.id
      · refine ⟨st, by simp [iterInner, hid], hok, hq, hpass, ?_, DelRel.refl _⟩
        intro x hx
        rcases hread with hr | hr
        · rw [hx] at hr
          have : x = nc := by simpa using hr
          exact ⟨c, hlast, by rw [this, hid]⟩
        · rw [hx] at hr; cases hr.2
      · exfalso
        have hslot : sliceGet st.lmap.objSlice i = some (some nc) := by
          rcases hread with hr | hr
          · exact hr
          · exact absurd (by rw [Option.some.inj hr.1]) hid
        have h1 := (hok.reach.inv.slot_live hslot).1
        have h2 := hfuel ⟨nc, rfl, hid⟩
        simp only [Nat.cast_zero] at h2
        omega
  | succ fuel1 ih =>
    intro c newC st hok hq hpass hcur hlast hread hfuel
    cases newC with
    | none =>
      refine ⟨st, by simp [iterInner], hok, hq, hpass, ?_, DelRel.refl _⟩
      intro x hx
      rcases hread with hr | hr
      · rw [hx] at hr; cases hr
      · cases hr.1
    | some nc =>
      by_cases hid : nc.id = c.id
      · refine ⟨st, by simp [iterInner, hid], hok, hq, hpass, ?_, DelRel.refl _⟩
        intro x hx
        rcases hread with hr | hr
        · rw [hx] at hr
          have : x = nc := by simpa using hr
          exact ⟨c, hlast, by rw [this, hid]⟩
        · rw [hx] at hr; cases hr.2
      · have hslot : sliceGet st.lmap.objSlice i = some (some nc) := by
          rcases hread with hr | hr
          · exact hr
          · exact absurd (by rw [Option.some.inj hr.1]) hid
        obtain ⟨hlt, hown, hgetnc⟩ := hok.reach.inv.slot_live hslot
        have hnew : nc.id ∉ st.trace.map Obj.id := by
          intro hmem
          obtain ⟨x, hx, hxid⟩ := List.mem_map.1 hmem
          exact hid (hxid ▸ hcur x hx (by rw [hxid]; exact hown))
        obtain ⟨st1, h1, h2, h3, h4⟩ := callVisit_spec f hok hslot hnew
        have hq1 : Q st1 := hQ st nc st1 hok hgetnc hq h1
        have hpass1 : Passed st1 ((i : Int) + 1) := by
          intro x hx p hp
          obtain ⟨q, hq0, hle⟩ := h3.pos_le x.id p hp
          rw [h4, List.mem_append, List.mem_singleton] at hx
          rcases hx with hx | hx
          · have := hpass x hx q hq0; omega
          · rw [hx, hown] at hq0
            have : (i : Int) = q := by simpa using hq0
            omega
        have hcur1 : ∀ x ∈ st1.trace,
            mapGet st1.lmap.idxMap x.id = some (i : Int) → x.id = nc.id := by
          intro x hx hp
          obtain ⟨q, hq0, hle⟩ := h3.pos_le x.id i hp
          rw [h4, List.mem_append, List.mem_singleton] at hx
          rcases hx with hx | hx
          · have := hpass x hx q hq0
            have hqi : q = (i : Int) := by omega
            rw [hqi] at hq0
            exact hok.reach.inv.pos_inj hq0 hown
          · rw [hx]
        have hlast1 : st1.trace.getLast? = some nc := by
          rw [h4]; simp
        have hfuel1 : ∀ newC1 : Option Obj,
            (sliceGet st1.lmap.objSlice i = some newC1 ∨
              (newC1 = some nc ∧ sliceGet st1.lmap.objSlice i = none)) →
            (∃ x, newC1 = some x ∧ x.id ≠ nc.id) → st1.lmap.maxIdx ≤ (fuel1 : Int) := by
          intro newC1 hread1 hcont
          obtain ⟨x, hx, hxid⟩ := hcont
          by_cases hsame : st1.lmap.maxIdx = st.lmap.maxIdx
          · exfalso
            have heq := h3.same hsame
            rcases hread1 with hr | hr
            · rw [heq, hslot, hx] at hr
              have : nc = x := by simpa using hr
              exact hxid (this ▸ rfl)
            · rw [hx] at hr
              exact hxid (by rw [Option.some.inj hr.1])
          · have hle1 := h3.maxIdx_le
            have hle2 := hfuel ⟨nc, rfl, hid⟩
            push_cast at hle2
            omega
        by_cases hlen : (i : Int) < st1.lmap.objSlice.length
        · obtain ⟨v, hv⟩ := sliceGet_isSome (Int.natCast_nonneg i) hlen
          obtain ⟨st2, g1, g2, g3, g4, g5, g6⟩ :=
            ih nc v st1 h2 hq1 hpass1 hcur1 hlast1 (Or.inl hv) (hfuel1 v (Or.inl hv))
          refine ⟨st2, ?_, g2, g3, g4, g5, h3.trans g6⟩
          simp only [iterInner, hid, ne_eq, not_false_eq_true, if_true, h1, hlen, hv]
          exact g1
        · have hnone : sliceGet st1.lmap.objSlice i = none := by
            rw [sliceGet_of_nat]
            exact List.getElem?_eq_none (by omega)
          obtain ⟨st2, g1, g2, g3, g4, g5, g6⟩ :=
            ih nc (some nc) st1 h2 hq1 hpass1 hcur1 hlast1 (Or.inr ⟨rfl, hnone⟩)
              (hfuel1 (some nc) (Or.inr ⟨rfl, hnone⟩))
          refine ⟨st2, ?_, g2, g3, g4, g5, h3.trans g6⟩
          simp only [iterInner, hid, ne_eq, not_false_eq_true, if_true, h1, hlen, if_false]
          exact g1

/-- The body of the loop of `Iter` at index `i`, entered with the element of slot `i`. -/
theorem iterBody_spec {σ : Type} (f : Visit σ) (lmap0 : LMap) (Q : IterState σ → Prop)
    (hQ : ∀ (st : IterState σ) (c : Obj) (st1 : IterState σ), IterOk lmap0 st →
      st.lmap.Get c.id = some (some c) → Q st → callVisit f st c = some st1 → Q st1)
    (i : Nat) (fuel : Nat) (c : Obj) (st : IterState σ)
    (hok : IterOk lmap0 st) (hq : Q st) (hpass : Passed st (i : Int))
    (hslot : sliceGet st.lmap.objSlice i = some (some c))
    (hfuel : st.lmap.maxIdx ≤ (fuel : Int)) :
    ∃ st1, iterBody f fuel i c st = IterResult.finished st1 ∧ IterOk lmap0 st1 ∧
      Q st1 ∧ Passed st1 ((i : Int) + 1) ∧ ExitAt st1 i ∧ DelRel st.lmap st1.lmap := by
  obtain ⟨hlt, hown, hgetc⟩ := hok.reach.inv.slot_live hslot
  have hnew : c.id ∉ st.trace.map Obj.id := by
    intro hmem
    obtain ⟨x, hx, hxid⟩ := List.mem_map.1 hmem
    have := hpass x hx i (by rw [hxid]; exact hown)
    omega
  obtain ⟨st1, h1, h2, h3, h4⟩ := callVisit_spec f hok hslot hnew
  have hq1 : Q st1 := hQ st c st1 hok hgetc hq h1
  have hpos : ∀ x ∈ st1.trace, ∀ p : Int, mapGet st1.lmap.idxMap x.id = some p →
      p < (i : Int) ∨ (p ≤ (i : Int) ∧ x = c) := by
    intro x hx p hp
    obtain ⟨q, hq0, hle⟩ := h3.pos_le x.id p hp
    rw [h4, List.mem_append, List.mem_singleton] at hx
    rcases hx with hx | hx
    · have := hpass x hx q hq0
      exact Or.inl (by omega)
    · rw [hx, hown] at hq0
      have : (i : Int) = q := by simpa using hq0
      exact Or.inr ⟨by omega, hx⟩
  have hpass1 : Passed st1 ((i : Int) + 1) := by
    intro x hx p hp
    rcases hpos x hx p hp with h | h
    · omega
    · omega
  have hcur1 : ∀ x ∈ st1.trace, mapGet st1.lmap.idxMap x.id = some (i : Int) → x.id = c.id := by
    intro x hx hp
    rcases hpos x hx i hp with h | h
    · omega
    · rw [h.2]
  have hlast1 : st1.trace.getLast? = some c := by
    rw [h4]; simp
  by_cases hlen : (i : Int) < st1.lmap.objSlice.length
  · obtain ⟨v, hv⟩ := sliceGet_isSome (Int.natCast_nonneg i) hlen
    obtain ⟨st2, g1, g2, g3, g4, g5, g6⟩ :=
      iterInner_spec f lmap0 Q hQ i fuel c v st1 h2 hq1 hpass1 hcur1 hlast1 (Or.inl hv)
        (fun _ => le_trans h3.maxIdx_le hfuel)
    refine ⟨st2, ?_, g2, g3, g4, g5, h3.trans g6⟩
    simp only [iterBody, h1, hlen, if_true, hv]
    exact g1
  · refine ⟨st1, by simp only [iterBody, h1, hlen, if_false], h2, hq1, hpass1, ?_, h3⟩
    intro x hx
    have := (sliceGet_eq_some hx).2
    omega

/-- The `range` loop of `Iter` from index `i` on. -/
theorem iterOuter_spec {σ : Type} (f : Visit σ) (lmap0 : LMap) (Q : IterState σ → Prop)
    (hQ : ∀ (st : IterState σ) (c : Obj) (st1 : IterState σ), IterOk lmap0 st →
      st.lmap.Get c.id = some (some c) → Q st → callVisit f st c = some st1 → Q st1)
    (fuel : Nat) (n : Nat) :
    ∀ (i : Nat) (st : IterState σ), IterOk lmap0 st → Q st → Passed st (i : Int) →
      i + n = st.view.length → st.lmap.maxIdx ≤ (fuel : Int) →
      ∃ st1, iterOuter f fuel n i st = IterResult.finished st1 ∧ IterOk lmap0 st1 ∧
        Q st1 ∧ DelRel st.lmap st1.lmap := by
  induction n with
  | zero =>
    intro i st hok hq _ _ _
    exact ⟨st, rfl, hok, hq, DelRel.refl _⟩
  | succ n1 ih =>
    intro i st hok hq hpass hlen hfuel
    have hi : i < st.view.length := by omega
    cases hv : st.view[i] with
    | none =>
      refine ⟨st, ?_, hok, hq, DelRel.refl _⟩
      simp only [iterOuter, List.getElem?_eq_getElem hi, hv]
    | some c =>
      have hvc : st.view[i]? = some (some c) := by
        rw [List.getElem?_eq_getElem hi, hv]
      have hslot := hok.view.slot hvc
      obtain ⟨st1, h1, h2, h3, h4, _, h6⟩ :=
        iterBody_spec f lmap0 Q hQ i fuel c st hok hq hpass hslot hfuel
      have hlen1 : i + 1 + n1 = st1.view.length := by
        rw [h2.viewLen, ← hok.viewLen]; omega
      obtain ⟨st2, g1, g2, g3, g4⟩ :=
        ih (i + 1) st1 h2 h3 (by push_cast; exact h4) hlen1 (le_trans h6.maxIdx_le hfuel)
      refine ⟨st2, ?_, g2, g3, h6.trans g4⟩
      simp only [iterOuter, hvc, h1]
      exact g1

/-- The state in which `Iter` starts. -/
theorem iterOk_start {σ : Type} {lmap : LMap} (h : Reachable lmap) (s : σ) :
    IterOk lmap ({ lmap := lmap, view := lmap.objSlice, user := s, trace := [] } :
      IterState σ) :=
  ⟨h, ⟨0, by simp⟩, rfl, DelRel.refl _, fun _ hx => by simp at hx, by simp⟩

/-- A run of `Iter` on a well-formed container, with a visit function that only calls
`Del`: with fuel for as many passes as there are live elements it ends normally, in a state
that keeps the facts of `IterOk` and any further property `Q` kept by the calls of the visit
function. -/
theorem iter_spec {σ : Type} (f : Visit σ) (lmap : LMap) (h : Reachable lmap) (s : σ)
    (Q : IterState σ → Prop)
    (hQ : ∀ (st : IterState σ) (c : Obj) (st1 : IterState σ), IterOk lmap st →
      st.lmap.Get c.id = some (some c) → Q st → callVisit f st c = some st1 → Q st1)
    (hq : Q { lmap := lmap, view := lmap.objSlice, user := s, trace := [] })
    (fuel : Nat) (hfuel : lmap.maxIdx ≤ (fuel : Int)) :
    ∃ st, lmap.Iter f s fuel = IterResult.finished st ∧ IterOk lmap st ∧ Q st := by
  obtain ⟨st, h1, h2, h3, _⟩ :=
    iterOuter_spec f lmap Q hQ fuel lmap.objSlice.length 0
      { lmap := lmap, view := lmap.objSlice, user := s, trace := [] }
      (iterOk_start h s) hq (fun _ hx => by simp at hx) (by simp) hfuel
  exact ⟨st, h1, h2, h3⟩

/-! ### Fuel -/

theorem iterInner_mono {σ : Type} (f : Visit σ) (i : Nat) (fuel : Nat) :
    ∀ (c : Obj) (newC : Option Obj) (st st1 : IterState σ),
      iterInner f i fuel c newC st = IterResult.finished st1 →
      iterInner f i (fuel + 1) c newC st = IterResult.finished st1 := by
  induction fuel with
  | zero =>
    intro c newC st st1 h
    cases newC with
    | none => simpa [iterInner] using h
    | some nc =>
      by_cases hid : nc.id = c.id
      · simpa [iterInner, hid] using h
      · simp [iterInner, hid] at h
  | succ fuel1 ih =>
    intro c newC st st1 h
    cases newC with
    | none => simpa [iterInner] using h
    | some nc =>
      by_cases hid : nc.id = c.id
      · simpa [iterInner, hid] using h
      · rw [iterInner] at h ⊢
        rw [if_pos hid] at h ⊢
        cases hc : callVisit f st nc with
        | none => rw [hc] at h; cases h
        | some st2 =>
          rw [hc] at h
          simp only at h ⊢
          by_cases hlen : (i : Int) < st2.lmap.objSlice.length
          · rw [if_pos hlen] at h ⊢
            cases hv : sliceGet st2.lmap.objSlice i with
            | none => rw [hv] at h; cases h
            | some v =>
              rw [hv] at h
              exact ih nc v st2 st1 h
          · rw [if_neg hlen] at h ⊢
            exact ih nc (some nc) st2 st1 h

theorem iterBody_mono {σ : Type} (f : Visit σ) (i fuel : Nat) (c : Obj)
    (st st1 : IterState σ) (h : iterBody f fuel i c st = IterResult.finished st1) :
    iterBody f (fuel + 1) i c st = IterResult.finished st1 := by
  unfold iterBody at h ⊢
  cases hc : callVisit f st c with
  | none => rw [hc] at h; cases h
  | some st2 =>
    rw [hc] at h
    simp only at h ⊢
    by_cases hlen : (i : Int) < st2.lmap.objSlice.length
    · rw [if_pos hlen] at h ⊢
      cases hv : sliceGet st2.lmap.objSlice i with
      | none => rw [hv] at h; cases h
      | some v =>
        rw [hv] at h
        exact iterInner_mono f i fuel c v st2 st1 h
    · rw [if_neg hlen] at h ⊢
      exact h

theorem iterOuter_mono {σ : Type} (f : Visit σ) (fuel : Nat) (n : Nat) :
    ∀ (i : Nat) (st st1 : IterState σ),
      iterOuter f fuel n i st = IterResult.finished st1 →
      iterOuter f (fuel + 1) n i st = IterResult.finished st1 := by
  induction n with
  | zero => intro i st st1 h; exact h
  | succ n1 ih =>
    intro i st st1 h
    rw [iterOuter] at h ⊢
    cases hv : st.view[i]? with
    | none => rw [hv] at h; cases h
    | some v =>
      rw [hv] at h
      cases v with
      | none => exact h
      | some c =>
        simp only at h ⊢
        cases hb : iterBody f fuel i c st with
        | finished st2 =>
          rw [hb] at h
          rw [iterBody_mono f i fuel c st st2 hb]
          exact ih (i + 1) st2 st1 h
        | panicked => rw [hb] at h; cases h
        | outOfFuel => rw [hb] at h; cases h

/-- A run of `Iter` that ends normally ends in the same state with any larger fuel. -/
theorem iter_mono {σ : Type} (lmap : LMap) (f : Visit σ) (s : σ) {fuel : Nat}
    {st : IterState σ} (h : lmap.Iter f s fuel = IterResult.finished st) (k : Nat) :
    lmap.Iter f s (fuel + k) = IterResult.finished st := by
  induction k with
  | zero => exact h
  | succ k1 ih => exact iterOuter_mono f (fuel + k1) _ 0 _ st ih

/-- Every run of `Iter` on a well-formed container that ends normally, whatever the fuel,
ends in a state with the facts of `IterOk`. -/
theorem iter_finished_ok {σ : Type} {lmap : LMap} (h : Reachable lmap) (f : Visit σ) (s : σ)
    {fuel : Nat} {st : IterState σ} (hrun : lmap.Iter f s fuel = IterResult.finished st) :
    IterOk lmap st := by
  obtain ⟨st1, h1, h2, _⟩ := iter_spec f lmap h s (fun _ => True)
    (fun _ _ _ _ _ _ _ => trivial) trivial (fuel + lmap.maxIdx.toNat) (by omega)
  rw [iter_mono lmap f s hrun lmap.maxIdx.toNat] at h1
  cases h1
  exact h2

/-! ### `Iter` with a visit function that leaves the container alone -/

theorem iterOuter_pure {σ : Type} (g : Obj → σ → σ) (lmap : LMap) (fuel : Nat) (n : Nat) :
    ∀ (i : Nat) (u : σ) (tr : List Obj), i + n = lmap.objSlice.length →
      iterOuter (pureVisit g) fuel n i
          { lmap := lmap, view := lmap.objSlice, user := u, trace := tr } =
        IterResult.finished
          { lmap := lmap, view := lmap.objSlice,
            user := LMap.fastIterLoop g (lmap.objSlice.drop i) u,
            trace := tr ++ leadingObjs (lmap.objSlice.drop i) } := by
  induction n with
  | zero =>
    intro i u tr hi
    have : lmap.objSlice.drop i = [] := List.drop_eq_nil_of_le (by omega)
    simp [iterOuter, this, LMap.fastIterLoop, leadingObjs]
  | succ n1 ih =>
    intro i u tr hi
    have hlt : i < lmap.objSlice.length := by omega
    have hdrop : lmap.objSlice.drop i = lmap.objSlice[i] :: lmap.objSlice.drop (i + 1) :=
      List.drop_eq_getElem_cons hlt
    cases hv : lmap.objSlice[i] with
    | none =>
      rw [hdrop, hv]
      simp [iterOuter, List.getElem?_eq_getElem hlt, hv, LMap.fastIterLoop, leadingObjs]
    | some c =>
      rw [hdrop, hv]
      have hget : sliceGet lmap.objSlice (i : Int) = some (some c) := by
        rw [sliceGet_of_nat, List.getElem?_eq_getElem hlt, hv]
      have hbody : iterBody (pureVisit g) fuel i c
          { lmap := lmap, view := lmap.objSlice, user := u, trace := tr } =
          IterResult.finished
            { lmap := lmap, view := lmap.objSlice, user := g c u, trace := tr ++ [c] } := by
        have hlt2 : (i : Int) < lmap.objSlice.length := by omega
        cases fuel <;>
          simp [iterBody, callVisit, pureVisit, delsView, hlt2, hget, iterInner]
      rw [iterOuter]
      simp only [List.getElem?_eq_getElem hlt, hv, hbody]
      rw [ih (i + 1) (g c u) (tr ++ [c]) (by omega)]
      simp [LMap.fastIterLoop, leadingObjs]

/-! ### `Iter` with a visit function that deletes the element it is given -/

theorem callVisit_drain {σ : Type} (g : Obj → σ → σ) {lmap0 : LMap} {st st1 : IterState σ}
    (hok : IterOk lmap0 st) {c : Obj}
    (hcall : callVisit (drainVisit g) st c = some st1) :
    st.lmap.Del c.id = some st1.lmap ∧ st1.trace = st.trace ++ [c] := by
  obtain ⟨m1, v1, h1, h2, _⟩ := delView_spec hok.reach.inv hok.view c.id
  simp only [callVisit, drainVisit, delsView, h1] at hcall
  cases hcall
  exact ⟨h2, rfl⟩

theorem shrinkCond_gt {a b : Int} (h : shrinkCond a b = true) : 1024 < a := by
  unfold shrinkCond at h
  rw [Bool.and_eq_true] at h
  simpa [BASE_NO_SHRINK_SIZE] using h.1

theorem drainInv_step {σ : Type} (g : Obj → σ → σ) (lmap0 : LMap)
    (st : IterState σ) (c : Obj) (st1 : IterState σ) (hok : IterOk lmap0 st)
    (hget : st.lmap.Get c.id = some (some c)) (hq : DrainInv lmap0 st)
    (hcall : callVisit (drainVisit g) st c = some st1) : DrainInv lmap0 st1 := by
  obtain ⟨hdel, htr⟩ := callVisit_drain g hok hcall
  have hinv := hok.reach.inv
  obtain ⟨m1, h1, _, h3, h4, _⟩ := del_spec hinv c.id
  rw [hdel] at h1
  cases h1
  refine ⟨?_, ?_, ?_⟩
  · intro key e he
    rw [htr]
    rcases hq.1 key e he with h | h
    · by_cases hk : key = c.id
      · rw [hk, hget] at h
        have : c = e := by simpa using h
        exact Or.inr (by simp [this])
      · exact Or.inl (by rw [h3, if_neg hk]; exact h)
    · exact Or.inr (List.mem_append_left _ h)
  · intro y hy
    rw [htr] at hy
    have : c = y := by simpa using hy
    rw [← this]
    by_contra hne
    exact ((h4 c.id).1 hne).1 rfl
  · intro h0
    have hpos := hq.2.2 h0
    cases hp : mapGet st.lmap.idxMap c.id with
    | none =>
      simp only [LMap.Del, hp] at hdel
      rw [← Option.some.inj hdel]; exact hpos
    | some p =>
      obtain ⟨m2, g1, _, _, g4, _⟩ := del_layout hinv hp
      rw [hdel] at g1
      cases g1
      have : (0 : Int) < st1.lmap.objSlice.length := by
        rw [g4]
        unfold lenAfterDel
        split
        · next hc => have := shrinkCond_gt hc; omega
        · omega
      omega

/-- A container that satisfies the invariant and has no live element returns `nil` on every
`Get`. -/
theorem Inv.get_of_empty {lmap : LMap} (h : Inv lmap) (h0 : lmap.maxIdx = 0) (key : Int) :
    lmap.Get key = some none := by
  cases hp : mapGet lmap.idxMap key with
  | none => exact get_absent hp
  | some p =>
    obtain ⟨hp0, hp1, _⟩ := h.pos key p hp
    omega

/-- The end of a draining run of `Iter` that has left the container empty. -/
theorem drain_final {σ : Type} {lmap0 : LMap} {st : IterState σ} (hok : IterOk lmap0 st)
    (hq : DrainInv lmap0 st) (h0 : st.lmap.maxIdx = 0) :
    st.lmap.Len = 0 ∧ st.trace.Nodup ∧
      ∀ e, e ∈ st.trace ↔ lmap0.Get e.id = some (some e) := by
  refine ⟨h0, List.Nodup.of_map _ hok.nodup, ?_⟩
  intro e
  constructor
  · exact hok.traceLive e
  · intro he
    rcases hq.1 e.id e he with h | h
    · rw [hok.reach.inv.get_of_empty h0] at h; cases h
    · exact h

/-- A draining run of `Iter` on a well-formed container. -/
theorem iter_drain {σ : Type} (g : Obj → σ → σ) (lmap : LMap) (h : Reachable lmap) (s : σ)
    (fuel : Nat) (hfuel : lmap.maxIdx ≤ (fuel : Int)) :
    ∃ st, lmap.Iter (drainVisit g) s fuel = IterResult.finished st ∧ st.lmap.Len = 0 ∧
      st.trace.Nodup ∧ ∀ e, e ∈ st.trace ↔ lmap.Get e.id = some (some e) := by
  have hinv := h.inv
  have hnn := hinv.nonneg
  have hle := hinv.le_len
  have hok0 := iterOk_start h s
  have hq0 : DrainInv lmap
      ({ lmap := lmap, view := lmap.objSlice, user := s, trace := [] } : IterState σ) :=
    ⟨fun _ _ he => Or.inl he, fun y hy => by simp at hy, fun h0 => h0⟩
  have hQ := drainInv_step g lmap
  cases hlen : lmap.objSlice.length with
  | zero =>
    refine ⟨{ lmap := lmap, view := lmap.objSlice, user := s, trace := [] },
      by simp only [LMap.Iter, hlen, iterOuter], ?_⟩
    exact drain_final hok0 hq0 (by simp only; omega)
  | succ n =>
    have hlt : 0 < lmap.objSlice.length := by omega
    cases hv : lmap.objSlice[0] with
    | none =>
      refine ⟨{ lmap := lmap, view := lmap.objSlice, user := s, trace := [] },
        by simp only [LMap.Iter, hlen, iterOuter, List.getElem?_eq_getElem hlt, hv], ?_⟩
      refine drain_final hok0 hq0 ?_
      simp only
      by_contra hne
      obtain ⟨e, he⟩ := hinv.live 0 (le_refl 0) (by omega)
      have h1 : sliceGet lmap.objSlice ((0 : Nat) : Int) = some (some e) := by simpa using he
      rw [sliceGet_of_nat, List.getElem?_eq_getElem hlt, hv] at h1
      cases h1
    | some c =>
      have hslot : sliceGet lmap.objSlice ((0 : Nat) : Int) = some (some c) := by
        rw [sliceGet_of_nat, List.getElem?_eq_getElem hlt, hv]
      obtain ⟨st1, h1, h2, h3, _, h5, _⟩ :=
        iterBody_spec (drainVisit g) lmap (DrainInv lmap) hQ 0 fuel c _ hok0 hq0
          (fun _ hx => by simp at hx) hslot hfuel
      have hzero : st1.lmap.maxIdx = 0 := by
        have hnn1 := h2.reach.inv.nonneg
        by_contra hne
        obtain ⟨x, hx⟩ := h2.reach.inv.live 0 (le_refl 0) (by omega)
        have hx1 : sliceGet st1.lmap.objSlice ((0 : Nat) : Int) = some (some x) := by
          simpa using hx
        obtain ⟨y, hy, hyx⟩ := h5 x hx1
        have habs := h3.2.1 y hy
        have hpres := (h2.reach.inv.slot_live hx).2.1
        rw [hyx, hpres] at habs
        cases habs
      have hlen1 : 0 + 1 + n = st1.view.length := by
        rw [h2.viewLen]; omega
      obtain ⟨st2, g1, g2, g3, g4⟩ :=
        iterOuter_spec (drainVisit g) lmap (DrainInv lmap) hQ fuel n (0 + 1) st1 h2 h3
          (fun x hx p hp => by
            have := (h2.reach.inv.pos x.id p hp).2.1
            omega)
          hlen1 (by rw [hzero]; omega)
      refine ⟨st2, ?_, ?_⟩
      · simp only [LMap.Iter, hlen, iterOuter, List.getElem?_eq_getElem hlt, hv, h1]
        exact g1
      · refine drain_final g2 g3 ?_
        have := g4.maxIdx_le
        have := g2.reach.inv.nonneg
        omega

theorem leadingObjs_take (l : List (Option Obj)) (n : Nat)
    (hfree : ∀ i : Nat, n ≤ i → i < l.length → l[i]? = some none) :
    leadingObjs (l.take n) = leadingObjs l := by
  induction l generalizing n with
  | nil => simp
  | cons x rest ih =>
    cases n with
    | zero =>
      have h0 := hfree 0 (le_refl 0) (by simp)
      simp only [List.getElem?_cons_zero, Option.some.injEq] at h0
      subst h0
      simp [leadingObjs]
    | succ k =>
      cases x with
      | none => simp [leadingObjs]
      | some c =>
        simp only [List.take_succ_cons, leadingObjs, List.cons.injEq, true_and]
        refine ih k ?_
        intro i hi1 hi2
        simpa using hfree (i + 1) (by omega) (by simp; omega)

/-! ## The float32 test of the shrink policy -/

theorem bitLenAux_spec (fuel : Nat) : ∀ n : Nat, 0 < n → n ≤ fuel →
    0 < bitLenAux fuel n ∧ 2 ^ (bitLenAux fuel n - 1) ≤ n ∧ n < 2 ^ bitLenAux fuel n := by
  induction fuel with
  | zero => intro n h0 h1; omega
  | succ fuel1 ih =>
    intro n h0 h1
    have hn : n ≠ 0 := by omega
    rw [bitLenAux, if_neg hn]
    by_cases h2 : n / 2 = 0
    · have h3 : bitLenAux fuel1 (n / 2) = 0 := by
        rw [h2]; cases fuel1 <;> simp [bitLenAux]
      have hn1 : n = 1 := by omega
      rw [h3, hn1]; simp
    · obtain ⟨g1, g2, g3⟩ := ih (n / 2) (by omega) (by omega)
      refine ⟨by omega, ?_, ?_⟩
      · have : bitLenAux fuel1 (n / 2) + 1 - 1 = (bitLenAux fuel1 (n / 2) - 1) + 1 := by omega
        rw [this, pow_succ]; omega
      · rw [pow_succ]; omega

theorem bitLen_spec {n : Nat} (h : 0 < n) :
    0 < bitLen n ∧ 2 ^ (bitLen n - 1) ≤ n ∧ n < 2 ^ bitLen n :=
  bitLenAux_spec n n h (le_refl n)

/-- The bounds of `bitLen` read in the rationals, with integer exponents. -/
theorem bitLen_bounds {n : Nat} (h : 0 < n) :
    (2 : ℚ) ^ ((bitLen n : Int) - 1) ≤ n ∧ (n : ℚ) < (2 : ℚ) ^ (bitLen n : Int) := by
  obtain ⟨h0, h1, h2⟩ := bitLen_spec h
  constructor
  · have : ((bitLen n : Int) - 1) = ((bitLen n - 1 : Nat) : Int) := by omega
    rw [this, zpow_natCast]
    exact_mod_cast h1
  · rw [zpow_natCast]
    exact_mod_cast h2

/-- The two ways in which `F32.round` compares `a * 2 ^ e` with `b`, by the sign of `e`. -/
theorem scaled_le_iff (a b : Nat) (e : Int) :
    (if 0 ≤ e then decide (a * 2 ^ e.toNat ≤ b) else decide (a ≤ b * 2 ^ (-e).toNat)) = true ↔
      (a : ℚ) * (2 : ℚ) ^ e ≤ b := by
  by_cases he : 0 ≤ e
  · rw [if_pos he, decide_eq_true_iff]
    have h1 : (2 : ℚ) ^ e = ((2 ^ e.toNat : Nat) : ℚ) := by
      conv_lhs => rw [← Int.toNat_of_nonneg he]
      rw [zpow_natCast]; norm_cast
    rw [h1]
    exact_mod_cast Iff.rfl
  · rw [if_neg he, decide_eq_true_iff]
    have hpos : (0 : ℚ) < ((2 ^ (-e).toNat : Nat) : ℚ) := by positivity
    have h1 : (2 : ℚ) ^ e = (((2 ^ (-e).toNat : Nat) : ℚ))⁻¹ := by
      have : e = -(((-e).toNat : Nat) : Int) := by omega
      conv_lhs => rw [this]
      rw [zpow_neg, zpow_natCast]; norm_cast
    rw [h1, ← div_eq_mul_inv, div_le_iff₀ hpos]
    exact_mod_cast Iff.rfl

/-- The exponent computed by `F32.round` is the binary exponent of `p / q`. -/
theorem roundExp_spec {p q : Nat} (hp : 0 < p) (hq : 0 < q) :
    (2 : ℚ) ^ roundExp p q ≤ (p : ℚ) / q ∧ (p : ℚ) / q < (2 : ℚ) ^ (roundExp p q + 1) := by
  obtain ⟨p1, p2⟩ := bitLen_bounds hp
  obtain ⟨q1, q2⟩ := bitLen_bounds hq
  have hq0 : (0 : ℚ) < q := by exact_mod_cast hq
  have hp0 : (0 : ℚ) < p := by exact_mod_cast hp
  have h2 : (2 : ℚ) ≠ 0 := by norm_num
  have hlow : (2 : ℚ) ^ ((bitLen p : Int) - (bitLen q : Int) - 1) < (p : ℚ) / q := by
    rw [lt_div_iff₀ hq0]
    have : (bitLen p : Int) - (bitLen q : Int) - 1 = ((bitLen p : Int) - 1) - (bitLen q : Int) := by
      omega
    rw [this, zpow_sub₀ h2, div_mul_eq_mul_div, div_lt_iff₀ (zpow_pos (by norm_num) _)]
    calc (2 : ℚ) ^ ((bitLen p : Int) - 1) * q < (2 : ℚ) ^ ((bitLen p : Int) - 1) * 2 ^ (bitLen q : Int) :=
          mul_lt_mul_of_pos_left q2 (zpow_pos (by norm_num) _)
      _ ≤ p * 2 ^ (bitLen q : Int) :=
          mul_le_mul_of_nonneg_right p1 (le_of_lt (zpow_pos (by norm_num) _))
  have hhigh : (p : ℚ) / q < (2 : ℚ) ^ ((bitLen p : Int) - (bitLen q : Int) + 1) := by
    rw [div_lt_iff₀ hq0]
    have : (bitLen p : Int) - (bitLen q : Int) + 1 = (bitLen p : Int) - ((bitLen q : Int) - 1) := by
      omega
    rw [this, zpow_sub₀ h2, div_mul_eq_mul_div, lt_div_iff₀ (zpow_pos (by norm_num) _)]
    calc (p : ℚ) * 2 ^ ((bitLen q : Int) - 1) < 2 ^ (bitLen p : Int) * 2 ^ ((bitLen q : Int) - 1) :=
          mul_lt_mul_of_pos_right p2 (zpow_pos (by norm_num) _)
      _ ≤ 2 ^ (bitLen p : Int) * q :=
          mul_le_mul_of_nonneg_left q1 (le_of_lt (zpow_pos (by norm_num) _))
  unfold roundExp
  by_cases hge : (q : ℚ) * (2 : ℚ) ^ ((bitLen p : Int) - (bitLen q : Int)) ≤ p
  · rw [if_pos ((scaled_le_iff q p _).2 hge)]
    refine ⟨?_, hhigh⟩
    rw [le_div_iff₀ hq0, mul_comm]; exact hge
  · rw [if_neg (fun h => hge ((scaled_le_iff q p _).1 h))]
    refine ⟨le_of_lt hlow, ?_⟩
    rw [sub_add_cancel, div_lt_iff₀ hq0, mul_comm]
    exact lt_of_not_le hge

theorem roundHalfEven_ge {a P Q : Nat} (hQ : 0 < Q) (h : a * Q ≤ P) : a ≤ roundHalfEven P Q := by
  have hf : a ≤ P / Q := (Nat.le_div_iff_mul_le hQ).2 h
  unfold roundHalfEven
  simp only
  split
  · exact hf
  · split
    · omega
    · split <;> omega

theorem roundHalfEven_le {a P Q : Nat} (hQ : 0 < Q) (h : P ≤ a * Q) : roundHalfEven P Q ≤ a := by
  have hdm := Nat.div_add_mod P Q
  have hr := Nat.mod_lt P hQ
  have hf : P / Q ≤ a := by
    calc P / Q ≤ a * Q / Q := Nat.div_le_div_right h
      _ = a := Nat.mul_div_cancel a hQ
  have hstep : P % Q ≠ 0 → P / Q < a := by
    intro hne
    by_contra hnot
    have heq : P / Q = a := by omega
    rw [heq, mul_comm] at hdm
    omega
  unfold roundHalfEven
  simp only
  split
  · exact hf
  · have hne : P % Q ≠ 0 := by omega
    have := hstep hne
    split
    · omega
    · split <;> omega

/-- When `n` is odd, `roundHalfEven P Q` exceeds `n` exactly from the midpoint `n + 1/2`
on. -/
theorem roundHalfEven_gt_iff {n P Q : Nat} (hQ : 0 < Q) (hn : n % 2 = 1) :
    n < roundHalfEven P Q ↔ (2 * n + 1) * Q ≤ 2 * P := by
  have hdm := Nat.div_add_mod P Q
  have hr := Nat.mod_lt P hQ
  rcases Nat.lt_trichotomy (P / Q) n with hlt | heq | hgt
  · have h1 : roundHalfEven P Q ≤ n := by
      unfold roundHalfEven
      simp only
      split
      · omega
      · split
        · omega
        · split <;> omega
    have h2 : Q * (P / Q + 1) ≤ Q * n := Nat.mul_le_mul_left Q hlt
    constructor
    · intro h; omega
    · intro h
      exfalso
      have h3 : (2 * n + 1) * Q = 2 * (Q * n) + Q := by ring
      have h4 : Q * (P / Q + 1) = Q * (P / Q) + Q := by ring
      omega
  · have h3 : (2 * n + 1) * Q = 2 * (Q * n) + Q := by ring
    rw [heq] at hdm
    unfold roundHalfEven
    simp only
    rw [heq]
    constructor
    · intro h
      split at h
      · omega
      · omega
    · intro h
      split
      · omega
      · split
        · omega
        · split <;> omega
  · have h1 : n < roundHalfEven P Q := by
      unfold roundHalfEven
      simp only
      split
      · omega
      · split
        · omega
        · split <;> omega
    have h2 : Q * (n + 1) ≤ Q * (P / Q) := Nat.mul_le_mul_left Q hgt
    have h3 : (2 * n + 1) * Q = 2 * (Q * n) + Q := by ring
    have h4 : Q * (n + 1) = Q * n + Q := by ring
    constructor
    · intro _; omega
    · intro _; exact h1

theorem roundHalfEven_one (P : Nat) : roundHalfEven P 1 = P := by
  unfold roundHalfEven
  simp [Nat.mod_one]

/-- The significand computed by `F32.round` is `roundHalfEven P Q` for a pair with
`P / Q = (p / q) * 2 ^ (23 - e)`. -/
theorem round_eq (p q : Nat) :
    F32.round p q =
      ⟨if 0 ≤ 23 - roundExp p q then roundHalfEven (p * 2 ^ (23 - roundExp p q).toNat) q
        else roundHalfEven p (q * 2 ^ (-(23 - roundExp p q)).toNat),
       roundExp p q - 23⟩ := rfl

theorem scaled_pair (p q : Nat) (hq : 0 < q) (s : Int) :
    ∃ P Q : Nat, 0 < Q ∧
      (if 0 ≤ s then roundHalfEven (p * 2 ^ s.toNat) q
        else roundHalfEven p (q * 2 ^ (-s).toNat)) = roundHalfEven P Q ∧
      (P : ℚ) / Q = (p : ℚ) / q * (2 : ℚ) ^ s := by
  have hq0 : (q : ℚ) ≠ 0 := by exact_mod_cast (Nat.pos_iff_ne_zero.1 hq)
  by_cases hs : 0 ≤ s
  · refine ⟨p * 2 ^ s.toNat, q, hq, by rw [if_pos hs], ?_⟩
    have h1 : (2 : ℚ) ^ s = ((2 ^ s.toNat : Nat) : ℚ) := by
      conv_lhs => rw [← Int.toNat_of_nonneg hs]
      rw [zpow_natCast]; norm_cast
    rw [h1]; push_cast; ring
  · refine ⟨p, q * 2 ^ (-s).toNat, by positivity, by rw [if_neg hs], ?_⟩
    have h1 : (2 : ℚ) ^ s = (((2 ^ (-s).toNat : Nat) : ℚ))⁻¹ := by
      have : s = -(((-s).toNat : Nat) : Int) := by omega
      conv_lhs => rw [this]
      rw [zpow_neg, zpow_natCast]; norm_cast
    rw [h1]; push_cast
    field_simp

/-- The comparison of two float32 values is the comparison of their rational values. -/
theorem F32.gt_iff (a b : F32) : F32.gt a b = true ↔ b.val < a.val := by
  unfold F32.gt F32.val
  simp only [decide_eq_true_iff]
  have hk1 : 0 ≤ a.exp - min a.exp b.exp := by
    have := min_le_left a.exp b.exp; omega
  have hk2 : 0 ≤ b.exp - min a.exp b.exp := by
    have := min_le_right a.exp b.exp; omega
  have h2 : (2 : ℚ) ≠ 0 := by norm_num
  have e1 : ((2 ^ (a.exp - min a.exp b.exp).toNat : Nat) : ℚ) =
      (2 : ℚ) ^ a.exp / 2 ^ (min a.exp b.exp) := by
    rw [← zpow_sub₀ h2]
    conv_rhs => rw [← Int.toNat_of_nonneg hk1]
    rw [zpow_natCast]; norm_cast
  have e2 : ((2 ^ (b.exp - min a.exp b.exp).toNat : Nat) : ℚ) =
      (2 : ℚ) ^ b.exp / 2 ^ (min a.exp b.exp) := by
    rw [← zpow_sub₀ h2]
    conv_rhs => rw [← Int.toNat_of_nonneg hk2]
    rw [zpow_natCast]; norm_cast
  have hpos : (0 : ℚ) < 2 ^ (min a.exp b.exp) := zpow_pos (by norm_num) _
  have cast : (b.mant * 2 ^ (b.exp - min a.exp b.exp).toNat <
      a.mant * 2 ^ (a.exp - min a.exp b.exp).toNat) ↔
      ((b.mant : ℚ) * ((2 ^ (b.exp - min a.exp b.exp).toNat : Nat) : ℚ) <
        (a.mant : ℚ) * ((2 ^ (a.exp - min a.exp b.exp).toNat : Nat) : ℚ)) := by
    exact_mod_cast Iff.rfl
  rw [cast, e1, e2, ← mul_div_assoc, ← mul_div_assoc, div_lt_div_iff_of_pos_right hpos]

theorem oneTenth_eq : F32.oneTenth = ⟨13421773, -27⟩ := by decide

/-- The significand and the value of `F32.round p q`: the significand lies between `2 ^ 23`
and `2 ^ 24`, and is the rounding of `(p / q) * 2 ^ (23 - e)`. -/
theorem round_spec {p q : Nat} (hp : 0 < p) (hq : 0 < q) :
    ∃ P Q : Nat, 0 < Q ∧ (F32.round p q).mant = roundHalfEven P Q ∧
      (F32.round p q).exp = roundExp p q - 23 ∧
      (P : ℚ) / Q = (p : ℚ) / q * (2 : ℚ) ^ (23 - roundExp p q) ∧
      2 ^ 23 ≤ roundHalfEven P Q ∧ roundHalfEven P Q ≤ 2 ^ 24 := by
  obtain ⟨P, Q, hQ, hm, hPQ⟩ := scaled_pair p q hq (23 - roundExp p q)
  obtain ⟨h1, h2⟩ := roundExp_spec hp hq
  have hQ0 : (0 : ℚ) < Q := by exact_mod_cast hQ
  have h2ne : (2 : ℚ) ≠ 0 := by norm_num
  have hspos : (0 : ℚ) < (2 : ℚ) ^ (23 - roundExp p q) := zpow_pos (by norm_num) _
  have hlo : ((2 ^ 23 : Nat) : ℚ) ≤ (P : ℚ) / Q := by
    rw [hPQ]
    have : ((2 ^ 23 : Nat) : ℚ) = (2 : ℚ) ^ roundExp p q * (2 : ℚ) ^ (23 - roundExp p q) := by
      rw [← zpow_add₀ h2ne]
      have : roundExp p q + (23 - roundExp p q) = ((23 : Nat) : Int) := by omega
      rw [this, zpow_natCast]; norm_cast
    rw [this]
    exact mul_le_mul_of_nonneg_right h1 (le_of_lt hspos)
  have hhi : (P : ℚ) / Q ≤ ((2 ^ 24 : Nat) : ℚ) := by
    rw [hPQ]
    have : ((2 ^ 24 : Nat) : ℚ) =
        (2 : ℚ) ^ (roundExp p q + 1) * (2 : ℚ) ^ (23 - roundExp p q) := by
      rw [← zpow_add₀ h2ne]
      have : roundExp p q + 1 + (23 - roundExp p q) = ((24 : Nat) : Int) := by omega
      rw [this, zpow_natCast]; norm_cast
    rw [this]
    exact mul_le_mul_of_nonneg_right (le_of_lt h2) (le_of_lt hspos)
  refine ⟨P, Q, hQ, by rw [round_eq]; exact hm, by rw [round_eq], hPQ, ?_, ?_⟩
  · apply roundHalfEven_ge hQ
    rw [le_div_iff₀ hQ0] at hlo
    exact_mod_cast hlo
  · apply roundHalfEven_le hQ
    rw [div_le_iff₀ hQ0] at hhi
    exact_mod_cast hhi

/-- The float32 nearest to `p / q` exceeds the float32 constant `0.1` exactly when `p / q`
is at least the midpoint `26843547 / 2 ^ 28` between that constant and the next float32. -/
theorem round_gt_oneTenth {p q : Nat} (hp : 0 < p) (hq : 0 < q) :
    F32.gt (F32.round p q) F32.oneTenth = true ↔ (26843547 : ℚ) / 2 ^ 28 ≤ (p : ℚ) / q := by
  obtain ⟨P, Q, hQ, hm, he, hPQ, hlo, hhi⟩ := round_spec hp hq
  obtain ⟨h1, h2⟩ := roundExp_spec hp hq
  have hQ0 : (0 : ℚ) < Q := by exact_mod_cast hQ
  have h2ne : (2 : ℚ) ≠ 0 := by norm_num
  have hlo' : (8388608 : ℚ) ≤ (roundHalfEven P Q : ℚ) := by exact_mod_cast hlo
  have hhi' : (roundHalfEven P Q : ℚ) ≤ 16777216 := by exact_mod_cast hhi
  rw [F32.gt_iff, oneTenth_eq]
  unfold F32.val
  rw [hm, he]
  simp only
  rcases lt_trichotomy (roundExp p q) (-4) with hlt | heq | hgt
  · -- the quotient is below `2 ^ (-4)`
    have hle : roundExp p q + 1 ≤ -4 := by omega
    have hx : (p : ℚ) / q < (2 : ℚ) ^ (-4 : Int) :=
      lt_of_lt_of_le h2 (zpow_le_zpow_right₀ (by norm_num) hle)
    have hv : (roundHalfEven P Q : ℚ) * (2 : ℚ) ^ (roundExp p q - 23) ≤ (2 : ℚ) ^ (-4 : Int) := by
      calc (roundHalfEven P Q : ℚ) * (2 : ℚ) ^ (roundExp p q - 23)
          ≤ 16777216 * (2 : ℚ) ^ (roundExp p q - 23) :=
            mul_le_mul_of_nonneg_right hhi' (le_of_lt (zpow_pos (by norm_num) _))
        _ = (2 : ℚ) ^ (24 : Int) * (2 : ℚ) ^ (roundExp p q - 23) := by norm_num
        _ = (2 : ℚ) ^ (roundExp p q + 1) := by
            rw [← zpow_add₀ h2ne]; congr 1; omega
        _ ≤ (2 : ℚ) ^ (-4 : Int) := zpow_le_zpow_right₀ (by norm_num) hle
    have c1 : (2 : ℚ) ^ (-4 : Int) < (13421773 : ℚ) * (2 : ℚ) ^ (-27 : Int) := by norm_num
    have c2 : (2 : ℚ) ^ (-4 : Int) < (26843547 : ℚ) / 2 ^ 28 := by norm_num
    constructor
    · intro h
      push_cast at h
      linarith
    · intro h; linarith
  · -- the quotient is between `2 ^ (-4)` and `2 ^ (-3)`, as `0.1` is
    rw [heq]
    have hexp : (-4 : Int) - 23 = -27 := by norm_num
    rw [hexp]
    have hpos : (0 : ℚ) < (2 : ℚ) ^ (-27 : Int) := zpow_pos (by norm_num) _
    have c27 : (2 : ℚ) ^ (23 - (-4 : Int)) = 134217728 := by norm_num
    rw [heq, c27] at hPQ
    have step1 : ((13421773 : Nat) : ℚ) * (2 : ℚ) ^ (-27 : Int) <
        (roundHalfEven P Q : ℚ) * (2 : ℚ) ^ (-27 : Int) ↔ 13421773 < roundHalfEven P Q := by
      rw [mul_lt_mul_right hpos]; exact_mod_cast Iff.rfl
    rw [step1, roundHalfEven_gt_iff hQ (by norm_num)]
    have step2 : ((2 * 13421773 + 1) * Q ≤ 2 * P) ↔ (26843547 : ℚ) / 2 ≤ (P : ℚ) / Q := by
      rw [le_div_iff₀ hQ0, div_mul_eq_mul_div, div_le_iff₀ (by norm_num : (0 : ℚ) < 2)]
      constructor
      · intro h
        have : (((2 * 13421773 + 1) * Q : Nat) : ℚ) ≤ ((2 * P : Nat) : ℚ) := by exact_mod_cast h
        push_cast at this
        linarith
      · intro h
        have : (((2 * 13421773 + 1) * Q : Nat) : ℚ) ≤ ((2 * P : Nat) : ℚ) := by
          push_cast; linarith
        exact_mod_cast this
    rw [step2, hPQ]
    constructor
    · intro h; linarith
    · intro h; linarith
  · -- the quotient is at least `2 ^ (-3)`
    have hle : (-3 : Int) ≤ roundExp p q := by omega
    have hx : (2 : ℚ) ^ (-3 : Int) ≤ (p : ℚ) / q :=
      le_trans (zpow_le_zpow_right₀ (by norm_num) hle) h1
    have hv : (2 : ℚ) ^ (-3 : Int) ≤ (roundHalfEven P Q : ℚ) * (2 : ℚ) ^ (roundExp p q - 23) := by
      calc (2 : ℚ) ^ (-3 : Int) ≤ (2 : ℚ) ^ roundExp p q := zpow_le_zpow_right₀ (by norm_num) hle
        _ = (2 : ℚ) ^ (23 : Int) * (2 : ℚ) ^ (roundExp p q - 23) := by
            rw [← zpow_add₀ h2ne]; congr 1; omega
        _ = 8388608 * (2 : ℚ) ^ (roundExp p q - 23) := by norm_num
        _ ≤ (roundHalfEven P Q : ℚ) * (2 : ℚ) ^ (roundExp p q - 23) :=
            mul_le_mul_of_nonneg_right hlo' (le_of_lt (zpow_pos (by norm_num) _))
    have c1 : (13421773 : ℚ) * (2 : ℚ) ^ (-27 : Int) < (2 : ℚ) ^ (-3 : Int) := by norm_num
    have c2 : (26843547 : ℚ) / 2 ^ 28 < (2 : ℚ) ^ (-3 : Int) := by norm_num
    constructor
    · intro _; linarith
    · intro _
      push_cast
      linarith

theorem round_mant_pos {p q : Nat} (hp : 0 < p) (hq : 0 < q) : 0 < (F32.round p q).mant := by
  obtain ⟨P, Q, _, hm, _, _, hlo, _⟩ := round_spec hp hq
  rw [hm]
  have : 0 < 2 ^ 23 := by norm_num
  omega

/-- The float32 quotient is the rounding of the quotient of the values. -/
theorem div_eq_round (a b : F32) (ha : 0 < a.mant) (hb : 0 < b.mant) :
    ∃ P Q : Nat, 0 < P ∧ 0 < Q ∧ F32.div a b = F32.round P Q ∧
      (P : ℚ) / Q = a.val / b.val := by
  have hk1 : 0 ≤ a.exp - min a.exp b.exp := by
    have := min_le_left a.exp b.exp; omega
  have hk2 : 0 ≤ b.exp - min a.exp b.exp := by
    have := min_le_right a.exp b.exp; omega
  have h2 : (2 : ℚ) ≠ 0 := by norm_num
  have e1 : ((2 ^ (a.exp - min a.exp b.exp).toNat : Nat) : ℚ) =
      (2 : ℚ) ^ a.exp / 2 ^ (min a.exp b.exp) := by
    rw [← zpow_sub₀ h2]
    conv_rhs => rw [← Int.toNat_of_nonneg hk1]
    rw [zpow_natCast]; norm_cast
  have e2 : ((2 ^ (b.exp - min a.exp b.exp).toNat : Nat) : ℚ) =
      (2 : ℚ) ^ b.exp / 2 ^ (min a.exp b.exp) := by
    rw [← zpow_sub₀ h2]
    conv_rhs => rw [← Int.toNat_of_nonneg hk2]
    rw [zpow_natCast]; norm_cast
  have hpos : (0 : ℚ) < 2 ^ (min a.exp b.exp) := zpow_pos (by norm_num) _
  have hbpos : (0 : ℚ) < 2 ^ b.exp := zpow_pos (by norm_num) _
  have hb0 : (b.mant : ℚ) ≠ 0 := by exact_mod_cast (Nat.pos_iff_ne_zero.1 hb)
  refine ⟨a.mant * 2 ^ (a.exp - min a.exp b.exp).toNat,
    b.mant * 2 ^ (b.exp - min a.exp b.exp).toNat, by positivity, by positivity, rfl, ?_⟩
  unfold F32.val
  push_cast
  have e1' : (2 : ℚ) ^ (a.exp - min a.exp b.exp).toNat = (2 : ℚ) ^ a.exp / 2 ^ (min a.exp b.exp) := by
    rw [← e1]; norm_cast
  have e2' : (2 : ℚ) ^ (b.exp - min a.exp b.exp).toNat = (2 : ℚ) ^ b.exp / 2 ^ (min a.exp b.exp) := by
    rw [← e2]; norm_cast
  rw [e1', e2']
  field_simp

/-- The test of line 69 in terms of the values of the two conversions. -/
theorem shrinkCond_iff {m f : Int} (hm : 0 < m) (hf : 0 < f) :
    shrinkCond m f = true ↔
      1024 < m ∧ (26843547 : ℚ) / 2 ^ 28 ≤ (F32.ofInt f).val / (F32.ofInt m).val := by
  have hfn : 0 < f.toNat := by omega
  have hmn : 0 < m.toNat := by omega
  obtain ⟨P, Q, hP, hQ, hdiv, hPQ⟩ := div_eq_round (F32.ofInt f) (F32.ofInt m)
    (round_mant_pos hfn Nat.one_pos) (round_mant_pos hmn Nat.one_pos)
  unfold shrinkCond
  rw [Bool.and_eq_true, Bool.and_eq_true, decide_eq_true_iff, decide_eq_true_iff, hdiv,
    round_gt_oneTenth hP hQ, hPQ]
  constructor
  · rintro ⟨h1, _, h3⟩
    exact ⟨by simpa [BASE_NO_SHRINK_SIZE] using h1, h3⟩
  · rintro ⟨h1, h3⟩
    exact ⟨by simpa [BASE_NO_SHRINK_SIZE] using h1, hf, h3⟩

/-- An `int` below `2 ^ 24` converts to float32 exactly. -/
theorem val_ofInt_exact {n : Int} (h0 : 0 < n) (h1 : n < 2 ^ 24) : (F32.ofInt n).val = n := by
  have hn : 0 < n.toNat := by omega
  obtain ⟨g1, g2⟩ := roundExp_spec hn Nat.one_pos
  have hcast : ((n.toNat : Nat) : ℚ) = (n : ℚ) := by
    have : ((n.toNat : Nat) : Int) = n := Int.toNat_of_nonneg (le_of_lt h0)
    exact_mod_cast this
  have hlt : ((n.toNat : Nat) : ℚ) < (2 : ℚ) ^ (24 : Int) := by
    rw [hcast]
    have : (n : ℚ) < ((2 ^ 24 : Int) : ℚ) := by exact_mod_cast h1
    norm_num at this ⊢
    exact this
  have he : roundExp n.toNat 1 < 24 := by
    by_contra hge
    have hge' : (24 : Int) ≤ roundExp n.toNat 1 := by omega
    have h3 := zpow_le_zpow_right₀ (by norm_num : (1 : ℚ) ≤ 2) hge'
    simp only [Nat.cast_one, div_one] at g1
    linarith
  have hs : 0 ≤ 23 - roundExp n.toNat 1 := by omega
  have h2 : (2 : ℚ) ≠ 0 := by norm_num
  unfold F32.ofInt F32.val
  rw [round_eq]
  simp only [if_pos hs, roundHalfEven_one]
  push_cast
  have hpow : (2 : ℚ) ^ (23 - roundExp n.toNat 1).toNat = (2 : ℚ) ^ (23 - roundExp n.toNat 1) := by
    conv_rhs => rw [← Int.toNat_of_nonneg hs]
    rw [zpow_natCast]
  rw [hpow, mul_assoc, ← zpow_add₀ h2, hcast]
  have : 23 - roundExp n.toNat 1 + (roundExp n.toNat 1 - 23) = 0 := by omega
  rw [this, zpow_zero, mul_one]

/-- An `int` below `2 ^ 25` converts to a float32 that is less by one at most. -/
theorem val_ofInt_lower {n : Int} (h0 : 0 < n) (h1 : n < 2 ^ 25) :
    (n : ℚ) - 1 ≤ (F32.ofInt n).val := by
  by_cases hsmall : n < 2 ^ 24
  · rw [val_ofInt_exact h0 hsmall]; linarith
  · have hn : 0 < n.toNat := by omega
    obtain ⟨g1, g2⟩ := roundExp_spec hn Nat.one_pos
    simp only [Nat.cast_one, div_one] at g1 g2
    have hcast : ((n.toNat : Nat) : ℚ) = (n : ℚ) := by
      have : ((n.toNat : Nat) : Int) = n := Int.toNat_of_nonneg (le_of_lt h0)
      exact_mod_cast this
    have hlt : (n : ℚ) < (2 : ℚ) ^ (25 : Int) := by
      have : (n : ℚ) < ((2 ^ 25 : Int) : ℚ) := by exact_mod_cast h1
      norm_num at this ⊢
      exact this
    have hge : (2 : ℚ) ^ (24 : Int) ≤ (n : ℚ) := by
      have : ((2 ^ 24 : Int) : ℚ) ≤ (n : ℚ) := by exact_mod_cast (not_lt.1 hsmall)
      norm_num at this ⊢
      exact this
    have he1 : roundExp n.toNat 1 < 25 := by
      by_contra hc
      have hc' : (25 : Int) ≤ roundExp n.toNat 1 := by omega
      have h3 := zpow_le_zpow_right₀ (by norm_num : (1 : ℚ) ≤ 2) hc'
      rw [hcast] at g1
      linarith
    have he2 : 23 < roundExp n.toNat 1 := by
      by_contra hc
      have hc' : roundExp n.toNat 1 + 1 ≤ 24 := by omega
      have h3 := zpow_le_zpow_right₀ (by norm_num : (1 : ℚ) ≤ 2) hc'
      rw [hcast] at g2
      linarith
    have he : roundExp n.toNat 1 = 24 := by omega
    unfold F32.ofInt F32.val
    rw [round_eq, he]
    have hs : ¬ (0 : Int) ≤ 23 - 24 := by norm_num
    simp only [if_neg hs]
    generalize hM : roundHalfEven n.toNat (1 * 2 ^ (-((23 : Int) - 24)).toNat) = M
    have hr : n.toNat / 2 ≤ M := by
      rw [← hM]
      apply roundHalfEven_ge (by positivity)
      have : (-((23 : Int) - 24)).toNat = 1 := by decide
      rw [this]
      omega
    have hr' : ((n.toNat / 2 : Nat) : ℚ) ≤ (M : ℚ) := by exact_mod_cast hr
    have hhalf : (n : ℚ) - 1 ≤ 2 * ((n.toNat / 2 : Nat) : ℚ) := by
      have h5 : n.toNat ≤ 2 * (n.toNat / 2) + 1 := by omega
      have h6 : ((n.toNat : Nat) : ℚ) ≤ ((2 * (n.toNat / 2) + 1 : Nat) : ℚ) := by
        exact_mod_cast h5
      push_cast at h6
      rw [hcast] at h6
      linarith
    have hexp : (2 : ℚ) ^ ((24 : Int) - 23) = 2 := by norm_num
    rw [hexp]
    linarith

/-- Below `2 ^ 24` the float32 test of line 69 is the comparison `10 * free > live`. -/
theorem shrinkCond_small {m f : Int} (hf0 : 0 < f) (hf1 : f < 2 ^ 24) (hm0 : 1024 < m)
    (hm1 : m < 2 ^ 24) : shrinkCond m f = true ↔ 10 * f > m := by
  have hmpos : (0 : ℚ) < m := by exact_mod_cast (by omega : 0 < m)
  rw [shrinkCond_iff (by omega) hf0, val_ofInt_exact hf0 hf1, val_ofInt_exact (by omega) hm1,
    le_div_iff₀ hmpos, div_mul_eq_mul_div, div_le_iff₀ (by norm_num : (0 : ℚ) < 2 ^ 28)]
  constructor
  · rintro ⟨_, h⟩
    have h' : ((26843547 * m : Int) : ℚ) ≤ ((f * 2 ^ 28 : Int) : ℚ) := by
      push_cast; linarith
    have h'' : 26843547 * m ≤ f * 2 ^ 28 := by exact_mod_cast h'
    omega
  · intro h
    refine ⟨hm0, ?_⟩
    have h'' : 26843547 * m ≤ f * 2 ^ 28 := by omega
    have h' : ((26843547 * m : Int) : ℚ) ≤ ((f * 2 ^ 28 : Int) : ℚ) := by exact_mod_cast h''
    push_cast at h'
    linarith

/-- The float32 test of line 69 fails whenever `10 * free < live`, for a live count below
`2 ^ 25` and a free count below `2 ^ 24`. -/
theorem shrinkCond_false_of_le {m f : Int} (hf0 : 0 < f) (hf1 : f < 2 ^ 24)
    (hm1 : m < 2 ^ 25) (h : 10 * f ≤ m - 1) : shrinkCond m f = false := by
  by_cases hm0 : 1024 < m
  · have hmpos : 0 < m := by omega
    have hlow := val_ofInt_lower hmpos hm1
    have hvpos : (0 : ℚ) < (F32.ofInt m).val := by
      have : (1024 : ℚ) < m := by exact_mod_cast hm0
      linarith
    have hcast : (10 : ℚ) * f ≤ (m : ℚ) - 1 := by exact_mod_cast h
    have hfpos : (0 : ℚ) < f := by exact_mod_cast hf0
    by_contra hne
    have htrue : shrinkCond m f = true := by
      cases hc : shrinkCond m f
      · exact absurd hc hne
      · rfl
    obtain ⟨_, h3⟩ := (shrinkCond_iff hmpos hf0).1 htrue
    rw [val_ofInt_exact hf0 hf1, le_div_iff₀ hvpos] at h3
    have c : (26843547 : ℚ) / 2 ^ 28 > 1 / 10 := by norm_num
    nlinarith
  · by_contra hne
    have htrue : shrinkCond m f = true := by
      cases hc : shrinkCond m f
      · exact absurd hc hne
      · rfl
    exact hm0 (shrinkCond_gt htrue)

/-! ## Runs of `Del` calls and the physical length -/

theorem run_append_list (lmap : LMap) (ops1 ops2 : List Op) :
    run lmap (ops1 ++ ops2) =
      match run lmap ops1 with
      | none => none
      | some lmap1 => run lmap1 ops2 := by
  induction ops1 generalizing lmap with
  | nil => rfl
  | cons o rest ih =>
    simp only [List.cons_append, run]
    cases step lmap o with
    | none => rfl
    | some m1 => exact ih m1

/-- A series of `Del` calls on pairwise distinct identities that are all present. -/
theorem run_dels (ds : List Int) : ∀ {lmap : LMap}, Inv lmap → ds.Nodup →
    (∀ d ∈ ds, mapGet lmap.idxMap d ≠ none) →
    ∃ lmap1, run lmap (ds.map Op.del) = some lmap1 ∧ Inv lmap1 ∧
      ((lmap1.objSlice.length : Int), lmap1.maxIdx) =
        lenAfterDels ds.length lmap.objSlice.length lmap.maxIdx ∧
      ∀ key, mapGet lmap1.idxMap key ≠ none ↔ (key ∉ ds ∧ mapGet lmap.idxMap key ≠ none) := by
  induction ds with
  | nil =>
    intro lmap h _ _
    exact ⟨lmap, rfl, h, rfl, fun key => by simp⟩
  | cons d rest ih =>
    intro lmap h hnd hpres
    rw [List.nodup_cons] at hnd
    cases hp : mapGet lmap.idxMap d with
    | none => exact absurd hp (hpres d (List.mem_cons_self _ _))
    | some p =>
      obtain ⟨m1, h1, h2, h3, h4, _⟩ := del_layout h hp
      obtain ⟨m1', g1, _, _, g4, _⟩ := del_spec h d
      rw [h1] at g1
      cases g1
      have hpres1 : ∀ x ∈ rest, mapGet m1.idxMap x ≠ none := by
        intro x hx
        rw [g4]
        exact ⟨fun hxd => hnd.1 (hxd ▸ hx), hpres x (List.mem_cons_of_mem _ hx)⟩
      obtain ⟨m2, k1, k2, k3, k4⟩ := ih h2 hnd.2 hpres1
      refine ⟨m2, ?_, k2, ?_, ?_⟩
      · simp only [List.map_cons, run, step, h1]
        exact k1
      · rw [k3, h3, h4]
        rfl
      · intro key
        rw [k4, g4, List.mem_cons]
        constructor
        · rintro ⟨a, b, c⟩
          exact ⟨fun hor => hor.elim b a, c⟩
        · rintro ⟨a, c⟩
          exact ⟨fun hx => a (Or.inr hx), fun hx => a (Or.inl hx), c⟩

theorem lenAfterDels_add (a b : Nat) : ∀ l m : Int,
    lenAfterDels (a + b) l m = lenAfterDels b (lenAfterDels a l m).1 (lenAfterDels a l m).2 := by
  induction a with
  | zero => intro l m; simp [lenAfterDels]
  | succ a1 ih =>
    intro l m
    rw [Nat.succ_add]
    simp only [lenAfterDels]
    exact ih _ _

/-- As long as the test of line 69 fails, `Del` leaves the physical length as it is. -/
theorem lenAfterDels_noshrink (k : Nat) : ∀ l m : Int,
    (∀ j : Nat, 1 ≤ j → j ≤ k → shrinkCond (m - j) (l - (m - j)) = false) →
    lenAfterDels k l m = (l, m - k) := by
  induction k with
  | zero => intro l m _; simp [lenAfterDels]
  | succ k1 ih =>
    intro l m hno
    have h1 := hno 1 (le_refl 1) (by omega)
    simp only [Nat.cast_one] at h1
    have hl : lenAfterDel l m = l := by
      unfold lenAfterDel
      rw [h1]; simp
    rw [lenAfterDels, hl, ih l (m - 1)]
    · congr 1
      push_cast
      omega
    · intro j hj1 hj2
      have := hno (j + 1) (by omega) (by omega)
      have e : m - ((j + 1 : Nat) : Int) = m - 1 - (j : Int) := by push_cast; omega
      rw [e] at this
      exact this

theorem shrinkCond_eq_false {m f : Int} (h : ¬ shrinkCond m f = true) : shrinkCond m f = false := by
  cases hc : shrinkCond m f
  · rfl
  · exact absurd hc h

/-- A stretch of `Del` calls below `2 ^ 24` slots during which the free slots stay within a
tenth of the live count, or the live count is at most 1024. -/
theorem lenAfterDels_quiet (k : Nat) (l m : Int) (hl : l < 2 ^ 24) (hml : m ≤ l)
    (hno : ∀ j : Nat, 1 ≤ j → j ≤ k → m - j ≤ 1024 ∨ 10 * (l - (m - j)) ≤ m - j) :
    lenAfterDels k l m = (l, m - k) := by
  apply lenAfterDels_noshrink
  intro j hj1 hj2
  apply shrinkCond_eq_false
  intro htrue
  have hgt := shrinkCond_gt htrue
  rcases hno j hj1 hj2 with h | h
  · omega
  · have := (shrinkCond_small (by omega) (by omega) hgt (by omega)).1 htrue
    omega

/-- A `Del` call below `2 ^ 24` slots that leaves more than 1024 live elements and more free
slots than a tenth of them truncates the store. -/
theorem lenAfterDels_one (l m : Int) (hl : l < 2 ^ 24) (hml : m ≤ l) (hm : 1024 < m - 1)
    (h : 10 * (l - (m - 1)) > m - 1) : lenAfterDels 1 l m = (m - 1, m - 1) := by
  have : shrinkCond (m - 1) (l - (m - 1)) = true :=
    (shrinkCond_small (by omega) (by omega) hm (by omega)).2 h
  simp [lenAfterDels, lenAfterDel, this]

/-- The call sequence `addDelOps n k` runs to completion from `NewLMap()`. -/
theorem run_addDel (n k : Nat) (hk : k ≤ n) :
    ∃ lmap, run NewLMap (addDelOps n k) = some lmap ∧ Reachable lmap ∧
      ((lmap.objSlice.length : Int), lmap.maxIdx) = lenAfterDels k n n ∧
      ∀ key : Int, mapGet lmap.idxMap key ≠ none ↔ ((k : Int) ≤ key ∧ key < n) := by
  have hids : ((List.range n).map (fun (i : Nat) => (⟨(i : Int), 0⟩ : Obj))).map Obj.id =
      (List.range n).map (fun (i : Nat) => (i : Int)) := by
    rw [List.map_map]; rfl
  have hnd : (((List.range n).map (fun (i : Nat) => (⟨(i : Int), 0⟩ : Obj))).map Obj.id).Nodup := by
    rw [hids]
    exact (List.nodup_range n).map (fun a b hab => by exact_mod_cast hab)
  obtain ⟨m0, h1, h2, h3, h4⟩ := run_adds _ hnd
  have hops : ((List.range n).map (fun (i : Nat) => (⟨(i : Int), 0⟩ : Obj))).map Op.add =
      (List.range n).map (fun (i : Nat) => Op.add ⟨(i : Int), 0⟩) := by
    rw [List.map_map]; rfl
  rw [hops] at h1
  have hreach0 : Reachable m0 := ⟨_, h1⟩
  have hinv0 := hreach0.inv
  have hlen0 : m0.objSlice.length = n := by rw [h2]; simp
  have hmax0 : m0.maxIdx = n := by rw [h3]; simp
  have hpres0 : ∀ key : Int, mapGet m0.idxMap key ≠ none ↔ (0 ≤ key ∧ key < n) := by
    intro key
    constructor
    · intro hkey
      cases hp : mapGet m0.idxMap key with
      | none => exact absurd hp hkey
      | some p =>
        by_contra hout
        have : key ∉ ((List.range n).map (fun (i : Nat) => (⟨(i : Int), 0⟩ : Obj))).map Obj.id := by
          rw [hids]
          intro hmem
          obtain ⟨i, hi, hik⟩ := List.mem_map.1 hmem
          rw [List.mem_range] at hi
          apply hout
          rw [← hik]
          exact ⟨Int.natCast_nonneg i, by exact_mod_cast hi⟩
        rw [h4 key this] at hp
        cases hp
    · rintro ⟨hk0, hk1⟩
      have hi : key.toNat < n := by omega
      have hslot : sliceGet m0.objSlice (key.toNat : Int) = some (some ⟨key, 0⟩) := by
        rw [sliceGet_of_nat, h2, List.getElem?_map, List.getElem?_map,
          List.getElem?_range hi]
        simp only [Option.map_some']
        rw [Int.toNat_of_nonneg hk0]
      have := (hinv0.slot_live hslot).2.1
      simp only at this
      rw [this]
      simp
  have hnd2 : ((List.range k).map (fun (i : Nat) => (i : Int))).Nodup :=
    (List.nodup_range k).map (fun a b hab => by exact_mod_cast hab)
  have hdels : (List.range k).map (fun (i : Nat) => Op.del (i : Int)) =
      ((List.range k).map (fun (i : Nat) => (i : Int))).map Op.del := by
    rw [List.map_map]; rfl
  obtain ⟨m1, g1, g2, g3, g4⟩ := run_dels _ hinv0 hnd2 (by
    intro d hd
    obtain ⟨i, hi, hid⟩ := List.mem_map.1 hd
    rw [List.mem_range] at hi
    rw [hpres0, ← hid]
    exact ⟨Int.natCast_nonneg i, by exact_mod_cast (lt_of_lt_of_le hi hk)⟩)
  have hrun : run NewLMap (addDelOps n k) = some m1 := by
    unfold addDelOps
    rw [run_append_list, h1, hdels]
    exact g1
  refine ⟨m1, hrun, ⟨_, hrun⟩, ?_, ?_⟩
  · rw [g3, hlen0, hmax0]; simp
  · intro key
    rw [g4, hpres0]
    constructor
    · rintro ⟨hnot, h0, hn⟩
      refine ⟨?_, hn⟩
      by_contra hlt
      apply hnot
      refine List.mem_map.2 ⟨key.toNat, ?_, Int.toNat_of_nonneg h0⟩
      rw [List.mem_range]; omega
    · rintro ⟨hk0, hn⟩
      refine ⟨?_, by omega, hn⟩
      intro hmem
      obtain ⟨i, hi, hik⟩ := List.mem_map.1 hmem
      rw [List.mem_range] at hi
      omega

/-- The lengths after 2000 `Add` calls and 1900 `Del` calls: the shrink policy truncates the
store six times, the last time to 1126 slots. -/
theorem lenAfterDels_scenario : lenAfterDels 1900 2000 2000 = (1126, 100) := by
  have p1 : lenAfterDels 181 2000 2000 = (2000, 1819) := by
    rw [lenAfterDels_quiet 181 2000 2000 (by norm_num) (by norm_num)
      (fun j h1 h2 => by right; omega)]
    norm_num
  have s1 : lenAfterDels 1 2000 1819 = (1818, 1818) := by
    rw [lenAfterDels_one 2000 1819 (by norm_num) (by norm_num) (by norm_num) (by norm_num)]
    norm_num
  have p2 : lenAfterDels 165 1818 1818 = (1818, 1653) := by
    rw [lenAfterDels_quiet 165 1818 1818 (by norm_num) (by norm_num)
      (fun j h1 h2 => by right; omega)]
    norm_num
  have s2 : lenAfterDels 1 1818 1653 = (1652, 1652) := by
    rw [lenAfterDels_one 1818 1653 (by norm_num) (by norm_num) (by norm_num) (by norm_num)]
    norm_num
  have p3 : lenAfterDels 150 1652 1652 = (1652, 1502) := by
    rw [lenAfterDels_quiet 150 1652 1652 (by norm_num) (by norm_num)
      (fun j h1 h2 => by right; omega)]
    norm_num
  have s3 : lenAfterDels 1 1652 1502 = (1501, 1501) := by
    rw [lenAfterDels_one 1652 1502 (by norm_num) (by norm_num) (by norm_num) (by norm_num)]
    norm_num
  have p4 : lenAfterDels 136 1501 1501 = (1501, 1365) := by
    rw [lenAfterDels_quiet 136 1501 1501 (by norm_num) (by norm_num)
      (fun j h1 h2 => by right; omega)]
    norm_num
  have s4 : lenAfterDels 1 1501 1365 = (1364, 1364) := by
    rw [lenAfterDels_one 1501 1365 (by norm_num) (by norm_num) (by norm_num) (by norm_num)]
    norm_num
  have p5 : lenAfterDels 124 1364 1364 = (1364, 1240) := by
    rw [lenAfterDels_quiet 124 1364 1364 (by norm_num) (by norm_num)
      (fun j h1 h2 => by right; omega)]
    norm_num
  have s5 : lenAfterDels 1 1364 1240 = (1239, 1239) := by
    rw [lenAfterDels_one 1364 1240 (by norm_num) (by norm_num) (by norm_num) (by norm_num)]
    norm_num
  have p6 : lenAfterDels 112 1239 1239 = (1239, 1127) := by
    rw [lenAfterDels_quiet 112 1239 1239 (by norm_num) (by norm_num)
      (fun j h1 h2 => by right; omega)]
    norm_num
  have s6 : lenAfterDels 1 1239 1127 = (1126, 1126) := by
    rw [lenAfterDels_one 1239 1127 (by norm_num) (by norm_num) (by norm_num) (by norm_num)]
    norm_num
  have p7 : lenAfterDels 1026 1126 1126 = (1126, 100) := by
    rw [lenAfterDels_quiet 1026 1126 1126 (by norm_num) (by norm_num)
      (fun j h1 h2 => by omega)]
    norm_num
  have e : (1900 : Nat) =
      181 + (1 + (165 + (1 + (150 + (1 + (136 + (1 + (124 + (1 + (112 + (1 + 1026))))))))))) := by
    norm_num
  rw [e]
  simp only [lenAfterDels_add, p1, s1, p2, s2, p3, s3, p4, s4, p5, s5, p6, s6, p7]

/-- The scenario of 2000 `Add` calls followed by 1900 `Del` calls. -/
theorem scenario_run :
    ∃ lmap, run NewLMap (addDelOps 2000 1900) = some lmap ∧ lmap.maxIdx = 100 ∧
      (lmap.objSlice.length : Int) = 1126 := by
  obtain ⟨m, h1, _, h3, _⟩ := run_addDel 2000 1900 (by norm_num)
  have h4 : ((m.objSlice.length : Int), m.maxIdx) = (1126, 100) := by
    rw [h3]; exact_mod_cast lenAfterDels_scenario
  have h5 := congrArg Prod.fst h4
  have h6 := congrArg Prod.snd h4
  exact ⟨m, h1, h6, h5⟩

/-- The float32 test of line 69 spelled out. -/
theorem shrinkCond_unfold (m f : Int) :
    shrinkCond m f = true ↔
      1024 < m ∧ 0 < f ∧ F32.gt (F32.div (F32.ofInt f) (F32.ofInt m)) F32.oneTenth = true := by
  unfold shrinkCond
  rw [Bool.and_eq_true, Bool.and_eq_true, decide_eq_true_iff, decide_eq_true_iff]
  simp [BASE_NO_SHRINK_SIZE]

/-- A well-formed container with 20000000 live elements in a store of 21999999 slots, in
which the identity 1999999 is present. -/
theorem big_run :
    ∃ lmap, run NewLMap (addDelOps 21999999 1999999) = some lmap ∧ Reachable lmap ∧
      lmap.maxIdx = 20000000 ∧ (lmap.objSlice.length : Int) = 21999999 ∧
      mapGet lmap.idxMap 1999999 ≠ none := by
  obtain ⟨m, h1, h2, h3, h4⟩ := run_addDel 21999999 1999999 (by norm_num)
  have hq : lenAfterDels 1999999 (21999999 : Int) 21999999 = (21999999, 21999999 - 1999999) := by
    have := lenAfterDels_noshrink 1999999 21999999 21999999 (by
      intro j hj1 hj2
      exact shrinkCond_false_of_le (by omega) (by omega) (by omega) (by omega))
    exact_mod_cast this
  have h5 : ((m.objSlice.length : Int), m.maxIdx) = (21999999, 21999999 - 1999999) := by
    rw [h3]; exact_mod_cast hq
  have h6 := congrArg Prod.fst h5
  have h7 := congrArg Prod.snd h5
  simp only at h6 h7
  refine ⟨m, h1, h2, by rw [h7]; norm_num, h6, ?_⟩
  rw [h4]
  constructor <;> norm_num

/-! ## The claims -/

/-- Claim C1 (map-model refinement): every finite sequence of `Add` (of non-nil elements),
`Del` and `Shrink` calls runs to completion from `NewLMap()`, and afterwards, for every
integer `id`, `Get(id)` returns the element passed to the most recent `Add` with identity
`id` if no `Del(id)` came after that `Add`, and `nil` otherwise. -/
theorem C1_get_refines_map_model (ops : List Op) (id : Int) :
    ∃ lmap, run NewLMap ops = some lmap ∧ lmap.Get id = some (specGet ops id) := by
  obtain ⟨m, h1, _, h3⟩ := run_spec ops
  exact ⟨m, h1, h3 id⟩

/-- Claim C2 (size invariant): after any finite sequence of `Add` and `Del` calls on
`NewLMap()` (with `Shrink` calls in between or not), `Len()` is the number of distinct
identities that have been added and not deleted since their last `Add`. -/
theorem C2_len_counts_live_identities (ops : List Op) :
    ∃ lmap, run NewLMap ops = some lmap ∧ lmap.Len = (specLen ops : Int) := by
  obtain ⟨m, h1, h2, h3⟩ := run_spec ops
  exact ⟨m, h1, len_eq_specLen h2 ops h3⟩

/-- Claim C3 (round trip): on a well-formed container, after `Add(e)` the call
`Get(e.LMapId())` returns `e`, and after a following `Del(e.LMapId())` it returns `nil`. -/
theorem C3_add_get_del_round_trip (lmap : LMap) (e : Obj) (h : Reachable lmap) :
    ∃ lmap1, lmap.Add (some e) = some lmap1 ∧ lmap1.Get e.id = some (some e) ∧
      ∃ lmap2, lmap1.Del e.id = some lmap2 ∧ lmap2.Get e.id = some none := by
  obtain ⟨m1, h1, h2, h3, _⟩ := add_spec h.inv e
  obtain ⟨m2, g1, _, g3, _⟩ := del_spec h2 e.id
  exact ⟨m1, h1, by rw [h3, if_pos rfl], m2, g1, by rw [g3, if_pos rfl]⟩

theorem C3_add_get_del_round_trip_witness :
    Reachable sample ∧
    ∃ lmap1, sample.Add (some ⟨7, 1⟩) = some lmap1 ∧ lmap1.Get 7 = some (some ⟨7, 1⟩) ∧
      ∃ lmap2, lmap1.Del 7 = some lmap2 ∧ lmap2.Get 7 = some none :=
  ⟨sample_reachable, C3_add_get_del_round_trip sample ⟨7, 1⟩ sample_reachable⟩

/-- Claim C4 (swap-delete correctness): on a well-formed container, for every identity `x`
in the index map and every `id` other than `x` (present or not, at the tail or not), `Del(id)`
completes and `Get(x)` returns afterwards the same element as before, whether or not the
delete ran `shrink`. -/
theorem C4_del_keeps_other_elements (lmap : LMap) (id x : Int) (h : Reachable lmap)
    (hx : mapGet lmap.idxMap x ≠ none) (hne : x ≠ id) :
    ∃ lmap1 e, lmap.Del id = some lmap1 ∧ e.id = x ∧
      lmap.Get x = some (some e) ∧ lmap1.Get x = some (some e) := by
  obtain ⟨m1, h1, _, h3, _⟩ := del_spec h.inv id
  cases hp : mapGet lmap.idxMap x with
  | none => exact absurd hp hx
  | some p =>
    obtain ⟨e, he, hid, _⟩ := h.inv.get_present hp
    exact ⟨m1, e, h1, hid, he, by rw [h3, if_neg hne, he]⟩

theorem C4_del_keeps_other_elements_witness :
    Reachable sample ∧ mapGet sample.idxMap 3 ≠ none ∧ (3 : Int) ≠ 1 ∧
    ∃ lmap1 e, sample.Del 1 = some lmap1 ∧ e.id = 3 ∧
      sample.Get 3 = some (some e) ∧ lmap1.Get 3 = some (some e) :=
  ⟨sample_reachable, by decide, by decide,
    C4_del_keeps_other_elements sample 1 3 sample_reachable (by decide) (by decide)⟩

/-- Claim C5 (overwrite): on a well-formed container, for two elements `e1` and `e2` of the
same identity, `Add(e1)` followed by `Add(e2)` gives the same `Len()` as `Add(e1)` alone, and
`Get` of that identity returns `e2`. -/
theorem C5_add_twice_overwrites (lmap : LMap) (e1 e2 : Obj) (h : Reachable lmap)
    (hid : e1.id = e2.id) :
    ∃ lmap1 lmap2, lmap.Add (some e1) = some lmap1 ∧ lmap1.Add (some e2) = some lmap2 ∧
      lmap2.Len = lmap1.Len ∧ lmap2.Get e1.id = some (some e2) := by
  obtain ⟨m1, h1, h2, _, h4, _⟩ := add_spec h.inv e1
  obtain ⟨m2, g1, _, g3, _, g5⟩ := add_spec h2 e2
  have hpres : mapGet m1.idxMap e2.id ≠ none := (h4 e2.id).2 (Or.inl hid.symm)
  refine ⟨m1, m2, h1, g1, ?_, by rw [g3, if_pos hid]⟩
  unfold LMap.Len
  rw [g5, if_neg hpres]

theorem C5_add_twice_overwrites_witness :
    Reachable sample ∧ (Obj.mk 7 1).id = (Obj.mk 7 2).id ∧
    ∃ lmap1 lmap2, sample.Add (some ⟨7, 1⟩) = some lmap1 ∧
      lmap1.Add (some ⟨7, 2⟩) = some lmap2 ∧
      lmap2.Len = lmap1.Len ∧ lmap2.Get 7 = some (some ⟨7, 2⟩) :=
  ⟨sample_reachable, rfl, C5_add_twice_overwrites sample ⟨7, 1⟩ ⟨7, 2⟩ sample_reachable rfl⟩

/-- Claim C6 (`Del` of an absent id): for every container, well-formed or not, and every id
that is not in the index map, `Del(id)` completes and leaves the whole state as it was: the
store with its contents and physical length, the index map and the live count; the shrink
policy is not run, so that free trailing slots stay. -/
theorem C6_del_absent_is_noop (lmap : LMap) (id : Int) (h : mapGet lmap.idxMap id = none) :
    lmap.Del id = some lmap := by
  simp [LMap.Del, h]

theorem C6_del_absent_is_noop_witness :
    mapGet sampleFree.idxMap 9 = none ∧ sampleFree.Del 9 = some sampleFree :=
  ⟨by decide, C6_del_absent_is_noop sampleFree 9 (by decide)⟩

/-- Claim C7 (`FastIter` completeness): on a well-formed container, with a visit function
that does not touch the container, `FastIter` makes exactly the calls listed in
`fastIterVisits`; there are `Len()` of them, the `i`-th being on the element of store
position `i`; no element is visited twice, and the elements visited are exactly those that
`Get` returns for the identities of the index map. -/
theorem C7_fastIter_visits_live_elements (lmap : LMap) (h : Reachable lmap) :
    (∀ (σ : Type) (f : Obj → σ → σ) (s : σ),
        lmap.FastIter f s = lmap.fastIterVisits.foldl (fun acc c => f c acc) s) ∧
    (lmap.fastIterVisits.length : Int) = lmap.Len ∧
    (∀ i : Nat, i < lmap.fastIterVisits.length →
        sliceGet lmap.objSlice i = some (lmap.fastIterVisits[i]?)) ∧
    lmap.fastIterVisits.Nodup ∧
    (∀ e, e ∈ lmap.fastIterVisits ↔
        ∃ id, mapGet lmap.idxMap id ≠ none ∧ lmap.Get id = some (some e)) := by
  refine ⟨?_, h.inv.visits_length, ?_, h.inv.visits_nodup, h.inv.mem_visits⟩
  · intro σ f s
    rw [fastIterVisits_eq]; exact fastIterLoop_eq_foldl f _ s
  · intro i hi
    have h1 : lmap.fastIterVisits[i]? = some (lmap.fastIterVisits[i]) :=
      List.getElem?_eq_getElem hi
    rw [h1]; exact visits_slot h1

theorem C7_fastIter_visits_live_elements_witness :
    Reachable sampleFree ∧
    ((∀ (σ : Type) (f : Obj → σ → σ) (s : σ),
        sampleFree.FastIter f s = sampleFree.fastIterVisits.foldl (fun acc c => f c acc) s) ∧
    (sampleFree.fastIterVisits.length : Int) = sampleFree.Len ∧
    (∀ i : Nat, i < sampleFree.fastIterVisits.length →
        sliceGet sampleFree.objSlice i = some (sampleFree.fastIterVisits[i]?)) ∧
    sampleFree.fastIterVisits.Nodup ∧
    (∀ e, e ∈ sampleFree.fastIterVisits ↔
        ∃ id, mapGet sampleFree.idxMap id ≠ none ∧ sampleFree.Get id = some (some e))) :=
  ⟨sampleFree_reachable, C7_fastIter_visits_live_elements sampleFree sampleFree_reachable⟩

/-- Claim C8 (insertion order without deletes): adding the elements of a list with pairwise
distinct identities, in order, to `NewLMap()` completes, and `FastIter` then visits them in
exactly the order in which they were added. -/
theorem C8_fastIter_insertion_order (es : List Obj) (hnd : (es.map Obj.id).Nodup) :
    ∃ lmap, run NewLMap (es.map Op.add) = some lmap ∧ lmap.fastIterVisits = es ∧
      ∀ (σ : Type) (f : Obj → σ → σ) (s : σ),
        lmap.FastIter f s = es.foldl (fun acc c => f c acc) s := by
  obtain ⟨m, h1, h2, _⟩ := run_adds es hnd
  refine ⟨m, h1, by rw [fastIterVisits_eq, h2, leadingObjs_map_some], ?_⟩
  intro σ f s
  unfold LMap.FastIter
  rw [fastIterLoop_eq_foldl, h2, leadingObjs_map_some]

theorem C8_fastIter_insertion_order_witness :
    (([⟨3, 0⟩, ⟨1, 0⟩, ⟨2, 0⟩] : List Obj).map Obj.id).Nodup ∧
    ∃ lmap, run NewLMap (([⟨3, 0⟩, ⟨1, 0⟩, ⟨2, 0⟩] : List Obj).map Op.add) = some lmap ∧
      lmap.fastIterVisits = [⟨3, 0⟩, ⟨1, 0⟩, ⟨2, 0⟩] ∧
      ∀ (σ : Type) (f : Obj → σ → σ) (s : σ),
        lmap.FastIter f s =
          ([⟨3, 0⟩, ⟨1, 0⟩, ⟨2, 0⟩] : List Obj).foldl (fun acc c => f c acc) s :=
  ⟨by decide, C8_fastIter_insertion_order [⟨3, 0⟩, ⟨1, 0⟩, ⟨2, 0⟩] (by decide)⟩

/-- Claim C9 (`Shrink` postcondition and idempotence): on a well-formed container `Shrink()`
completes, the physical length of the store is then `Len()`, and a second `Shrink()` leaves
the state exactly as the first one did. -/
theorem C9_shrink_postcondition_idempotent (lmap : LMap) (h : Reachable lmap) :
    ∃ lmap1, lmap.Shrink = some lmap1 ∧ (lmap1.objSlice.length : Int) = lmap1.Len ∧
      lmap1.Shrink = some lmap1 := by
  obtain ⟨m1, h1, _, _, _, h5, h6⟩ := shrink_spec h.inv
  refine ⟨m1, h1, by unfold LMap.Len; rw [h6, h5], ?_⟩
  have hlen : ¬ m1.maxIdx < m1.objSlice.length := by rw [h6, h5]; exact lt_irrefl _
  unfold LMap.Shrink LMap.shrink
  rw [if_neg hlen]

theorem C9_shrink_postcondition_idempotent_witness :
    Reachable sampleFree ∧
    ∃ lmap1, sampleFree.Shrink = some lmap1 ∧ (lmap1.objSlice.length : Int) = lmap1.Len ∧
      lmap1.Shrink = some lmap1 :=
  ⟨sampleFree_reachable, C9_shrink_postcondition_idempotent sampleFree sampleFree_reachable⟩

/-- Claim C10 (representation invariant): the predicate `Inv` (live count at most the
physical length; slots below the live count non-empty, slots from the live count on empty;
the index map has exactly live-count many entries; each of its entries points below the live
count at an element of that identity, so that no two entries share a position) holds for
`NewLMap()`, and on a container where it holds `Add` of a non-nil element, `Del` and
`Shrink` complete and leave a container where it holds. -/
theorem C10_representation_invariant (lmap : LMap) (h : Inv lmap) :
    Inv NewLMap ∧
    (∀ e : Obj, ∃ lmap1, lmap.Add (some e) = some lmap1 ∧ Inv lmap1) ∧
    (∀ id : Int, ∃ lmap1, lmap.Del id = some lmap1 ∧ Inv lmap1) ∧
    (∃ lmap1, lmap.Shrink = some lmap1 ∧ Inv lmap1) ∧
    (∀ id1 id2 p : Int, mapGet lmap.idxMap id1 = some p → mapGet lmap.idxMap id2 = some p →
      id1 = id2) := by
  refine ⟨inv_NewLMap, ?_, ?_, ?_, ?_⟩
  · intro e
    obtain ⟨m1, h1, h2, _⟩ := add_spec h e
    exact ⟨m1, h1, h2⟩
  · intro id
    obtain ⟨m1, h1, h2, _⟩ := del_spec h id
    exact ⟨m1, h1, h2⟩
  · obtain ⟨m1, h1, h2, _⟩ := shrink_spec h
    exact ⟨m1, h1, h2⟩
  · intro id1 id2 p h1 h2
    exact h.pos_inj h1 h2

theorem C10_representation_invariant_witness :
    Inv sample ∧
    (Inv NewLMap ∧
    (∀ e : Obj, ∃ lmap1, sample.Add (some e) = some lmap1 ∧ Inv lmap1) ∧
    (∀ id : Int, ∃ lmap1, sample.Del id = some lmap1 ∧ Inv lmap1) ∧
    (∃ lmap1, sample.Shrink = some lmap1 ∧ Inv lmap1) ∧
    (∀ id1 id2 p : Int, mapGet sample.idxMap id1 = some p → mapGet sample.idxMap id2 = some p →
      id1 = id2)) :=
  ⟨sample_reachable.inv, C10_representation_invariant sample sample_reachable.inv⟩

/-- Claim C11 (`Iter` under deletion): on a well-formed container, with a visit function
whose only effect on the container is `Del` calls on any identities, `Iter` ends normally as
soon as the model is given fuel for `Len()` passes of the inner loop: there is no index out
of range and no call of `LMapId` on an empty slot, in `Iter` or in the `Del` calls, and the
container left is well-formed. -/
theorem C11_iter_terminates_without_panic {σ : Type} (lmap : LMap) (f : Visit σ) (s : σ)
    (fuel : Nat) (h : Reachable lmap) (hfuel : lmap.Len ≤ (fuel : Int)) :
    ∃ st, lmap.Iter f s fuel = IterResult.finished st ∧ Reachable st.lmap ∧ Inv st.lmap := by
  obtain ⟨st, h1, h2, _⟩ := iter_spec f lmap h s (fun _ => True)
    (fun _ _ _ _ _ _ _ => trivial) trivial fuel hfuel
  exact ⟨st, h1, h2.reach, h2.reach.inv⟩

theorem C11_iter_terminates_without_panic_witness :
    Reachable sample ∧ sample.Len ≤ ((3 : Nat) : Int) ∧
    ∃ st, sample.Iter skipVisit () 3 = IterResult.finished st ∧ Reachable st.lmap ∧
      Inv st.lmap :=
  ⟨sample_reachable, by decide,
    C11_iter_terminates_without_panic sample skipVisit () 3 sample_reachable (by decide)⟩

/-- Claim C12, as the code has it: after `Add` of 2000 elements with the identities 0..1999
in increasing order and `Del` of the identities 0..1899 in increasing order, `Len()` is 100
and the store has 1126 slots, 1026 of them unused: the shrink policy of `Del` truncates the
store six times while more than 1024 elements are live, the last time to 1126 slots. -/
theorem C12_scenario_len_and_free :
    ∃ lmap, run NewLMap (addDelOps 2000 1900) = some lmap ∧ lmap.Len = 100 ∧
      (lmap.objSlice.length : Int) - lmap.Len = 1026 := by
  obtain ⟨m, h1, h2, h3⟩ := scenario_run
  refine ⟨m, h1, h2, ?_⟩
  unfold LMap.Len
  rw [h2, h3]; norm_num

/-- Claim C12 as stated fails: the run of the scenario does not end with 100 live elements
and 1900 unused trailing slots. -/
theorem C12_scenario_free_is_not_1900 :
    ¬ ∃ lmap, run NewLMap (addDelOps 2000 1900) = some lmap ∧ lmap.Len = 100 ∧
      (lmap.objSlice.length : Int) - lmap.Len = 1900 := by
  rintro ⟨m, h1, h2, h3⟩
  obtain ⟨m', g1, g2, g3⟩ := scenario_run
  rw [h1] at g1
  cases g1
  unfold LMap.Len at h2 h3
  omega

/-- Claim C13, as the code has it: on a well-formed container, `Del` of a present identity,
with `live` the live count after the removal and `free` the physical length less `live`,
truncates the store to `live` slots when the test of line 69 holds and leaves the physical
length as it is otherwise; the test is `live > 1024`, `free > 0` and
`float32(free)/float32(live) > 0.1` evaluated in float32 arithmetic, which for a store of
fewer than `2 ^ 24` slots is the same as `10 * free > live`. -/
theorem C13_del_shrink_policy (lmap : LMap) (id : Int) (h : Reachable lmap)
    (hid : mapGet lmap.idxMap id ≠ none) :
    ∃ lmap1, lmap.Del id = some lmap1 ∧
      (shrinkCond lmap1.Len ((lmap.objSlice.length : Int) - lmap1.Len) = true →
        (lmap1.objSlice.length : Int) = lmap1.Len) ∧
      (shrinkCond lmap1.Len ((lmap.objSlice.length : Int) - lmap1.Len) = false →
        lmap1.objSlice.length = lmap.objSlice.length) ∧
      (shrinkCond lmap1.Len ((lmap.objSlice.length : Int) - lmap1.Len) = true ↔
        1024 < lmap1.Len ∧ 0 < (lmap.objSlice.length : Int) - lmap1.Len ∧
          F32.gt (F32.div (F32.ofInt ((lmap.objSlice.length : Int) - lmap1.Len))
            (F32.ofInt lmap1.Len)) F32.oneTenth = true) ∧
      ((lmap.objSlice.length : Int) < 2 ^ 24 →
        (shrinkCond lmap1.Len ((lmap.objSlice.length : Int) - lmap1.Len) = true ↔
          1024 < lmap1.Len ∧ 0 < (lmap.objSlice.length : Int) - lmap1.Len ∧
            10 * ((lmap.objSlice.length : Int) - lmap1.Len) > lmap1.Len)) := by
  cases hp : mapGet lmap.idxMap id with
  | none => exact absurd hp hid
  | some p =>
    obtain ⟨m1, h1, h2, h3, h4, _⟩ := del_layout h.inv hp
    have hle := h.inv.le_len
    have hnn := h2.nonneg
    refine ⟨m1, h1, ?_, ?_, shrinkCond_unfold _ _, ?_⟩
    · intro hc
      unfold LMap.Len at hc ⊢
      rw [h4]; unfold lenAfterDel
      rw [h3] at hc ⊢
      rw [if_pos hc]
    · intro hc
      unfold LMap.Len at hc
      have : (m1.objSlice.length : Int) = lmap.objSlice.length := by
        rw [h4]; unfold lenAfterDel
        rw [h3] at hc
        rw [hc]; simp
      exact_mod_cast this
    · intro hsmall
      unfold LMap.Len
      constructor
      · intro hc
        have hgt := shrinkCond_gt hc
        have hf := ((shrinkCond_unfold _ _).1 hc).2.1
        exact ⟨hgt, hf, (shrinkCond_small hf (by omega) hgt (by omega)).1 hc⟩
      · rintro ⟨hgt, hf, h10⟩
        exact (shrinkCond_small hf (by omega) hgt (by omega)).2 h10

theorem C13_del_shrink_policy_witness :
    Reachable sample ∧ mapGet sample.idxMap 1 ≠ none ∧
    ∃ lmap1, sample.Del 1 = some lmap1 ∧
      (shrinkCond lmap1.Len ((sample.objSlice.length : Int) - lmap1.Len) = true →
        (lmap1.objSlice.length : Int) = lmap1.Len) ∧
      (shrinkCond lmap1.Len ((sample.objSlice.length : Int) - lmap1.Len) = false →
        lmap1.objSlice.length = sample.objSlice.length) ∧
      (shrinkCond lmap1.Len ((sample.objSlice.length : Int) - lmap1.Len) = true ↔
        1024 < lmap1.Len ∧ 0 < (sample.objSlice.length : Int) - lmap1.Len ∧
          F32.gt (F32.div (F32.ofInt ((sample.objSlice.length : Int) - lmap1.Len))
            (F32.ofInt lmap1.Len)) F32.oneTenth = true) ∧
      ((sample.objSlice.length : Int) < 2 ^ 24 →
        (shrinkCond lmap1.Len ((sample.objSlice.length : Int) - lmap1.Len) = true ↔
          1024 < lmap1.Len ∧ 0 < (sample.objSlice.length : Int) - lmap1.Len ∧
            10 * ((sample.objSlice.length : Int) - lmap1.Len) > lmap1.Len)) :=
  ⟨sample_reachable, by decide,
    C13_del_shrink_policy sample 1 sample_reachable (by decide)⟩

/-- Claim C13 as stated fails: on the well-formed container obtained by `Add` of the
identities 0..21999998 and `Del` of the identities 0..1999998, in which the identity 1999999
is present, `Del(1999999)` leaves `live = 19999999` elements and `free = 2000000` unused
slots, so that `live > 1024`, `free > 0` and `10 * free > live`; yet the store is not
truncated: its physical length stays 21999999, because the float32 quotient is rounded to
the float32 constant `0.1`. -/
theorem C13_rational_reading_fails :
    ∃ lmap lmap1 : LMap, run NewLMap (addDelOps 21999999 1999999) = some lmap ∧
      mapGet lmap.idxMap 1999999 ≠ none ∧ lmap.Del 1999999 = some lmap1 ∧
      1024 < lmap1.Len ∧ 0 < (lmap.objSlice.length : Int) - lmap1.Len ∧
      10 * ((lmap.objSlice.length : Int) - lmap1.Len) > lmap1.Len ∧
      lmap1.objSlice.length = lmap.objSlice.length ∧
      (lmap1.objSlice.length : Int) ≠ lmap1.Len := by
  obtain ⟨m, h1, h2, h3, h4, h5⟩ := big_run
  cases hp : mapGet m.idxMap 1999999 with
  | none => exact absurd hp h5
  | some p =>
    obtain ⟨m1, g1, _, g3, g4, _⟩ := del_layout h2.inv hp
    have hc : shrinkCond 19999999 2000000 = false := by decide
    have hlen : (m1.objSlice.length : Int) = 21999999 := by
      rw [g4, h3, h4]
      unfold lenAfterDel
      norm_num
      exact hc
    have hmax : m1.maxIdx = 19999999 := by rw [g3, h3]; norm_num
    refine ⟨m, m1, h1, h5, g1, ?_, ?_, ?_, ?_, ?_⟩
    · unfold LMap.Len; rw [hmax]; norm_num
    · unfold LMap.Len; rw [hmax, h4]; norm_num
    · unfold LMap.Len; rw [hmax, h4]; norm_num
    · have : (m1.objSlice.length : Int) = m.objSlice.length := by rw [hlen, h4]
      exact_mod_cast this
    · unfold LMap.Len; rw [hmax, hlen]; norm_num

/-- Claim C14 (`Iter` can skip a live element): on the well-formed container holding the
identities 1, 2, 3 in that order, with the visit function that calls `Del(1)` when given
the element 2, `Iter` visits 1 and 2 only; the element 3, which is in the container before
and after the run, moves from the last position to position 0, already passed, and is never
passed to the visit function. -/
theorem C14_iter_can_skip_live_element :
    ∃ (lmap : LMap) (f : Visit Unit) (st : IterState Unit) (e : Obj),
      Reachable lmap ∧ lmap.Iter f () 0 = IterResult.finished st ∧
      lmap.Get e.id = some (some e) ∧ st.lmap.Get e.id = some (some e) ∧
      mapGet lmap.idxMap e.id = some (lmap.Len - 1) ∧ mapGet st.lmap.idxMap e.id = some 0 ∧
      e ∉ st.trace :=
  ⟨sample, skipVisit,
    { lmap := sampleFree, view := sampleFree.objSlice, user := (),
      trace := [⟨1, 0⟩, ⟨2, 0⟩] },
    ⟨3, 0⟩, sample_reachable, by decide, by decide, by decide, by decide, by decide, by decide⟩

/-- Claim C15, as the code has it: on a well-formed container, with a visit function whose
only effect on the container is `Del` calls, `Iter` ends normally and the elements it has
passed to the visit function have pairwise distinct identities: no element is visited
twice. -/
theorem C15_iter_visits_no_identity_twice {σ : Type} (lmap : LMap) (f : Visit σ) (s : σ)
    (fuel : Nat) (h : Reachable lmap) (hfuel : lmap.Len ≤ (fuel : Int)) :
    ∃ st, lmap.Iter f s fuel = IterResult.finished st ∧ (st.trace.map Obj.id).Nodup := by
  obtain ⟨st, h1, h2, _⟩ := iter_spec f lmap h s (fun _ => True)
    (fun _ _ _ _ _ _ _ => trivial) trivial fuel hfuel
  exact ⟨st, h1, h2.nodup⟩

theorem C15_iter_visits_no_identity_twice_witness :
    Reachable sample ∧ sample.Len ≤ ((3 : Nat) : Int) ∧
    ∃ st, sample.Iter (drainVisit (fun _ (u : Unit) => u)) () 3 = IterResult.finished st ∧
      (st.trace.map Obj.id).Nodup :=
  ⟨sample_reachable, by decide,
    C15_iter_visits_no_identity_twice sample (drainVisit (fun _ (u : Unit) => u)) () 3
      sample_reachable (by decide)⟩

/-- Claim C15 as stated fails: there is no well-formed container, visit function that only
calls `Del`, and run of `Iter` ending normally (with whatever fuel) in which an identity has
been passed to the visit function twice. -/
theorem C15_no_run_visits_twice :
    ¬ ∃ (σ : Type) (lmap : LMap) (f : Visit σ) (s : σ) (fuel : Nat) (st : IterState σ),
      Reachable lmap ∧ lmap.Iter f s fuel = IterResult.finished st ∧
      ¬ (st.trace.map Obj.id).Nodup := by
  rintro ⟨σ, lmap, f, s, fuel, st, h, hrun, hdup⟩
  exact hdup (iter_finished_ok h f s hrun).nodup

/-- Claim C16 (swap-with-tail layout): on a well-formed container, `Del` of an identity found
at position `p` leaves `Len() - 1` live elements in the slots below `Len() - 1`, the slots
from there on being empty; if `p` is not the last live position, the element that was last
is now at `p`; every other remaining element is at the position it had, and when `p` is the
last live position that is every remaining element. -/
theorem C16_del_swaps_tail_into_hole (lmap : LMap) (id p : Int) (h : Reachable lmap)
    (hp : mapGet lmap.idxMap id = some p) :
    ∃ lmap1, lmap.Del id = some lmap1 ∧ lmap1.Len = lmap.Len - 1 ∧
      (∀ i : Int, 0 ≤ i → i < lmap1.Len → ∃ e, sliceGet lmap1.objSlice i = some (some e)) ∧
      (∀ i : Int, lmap1.Len ≤ i → i < lmap1.objSlice.length →
        sliceGet lmap1.objSlice i = some none) ∧
      (p ≠ lmap.Len - 1 → ∃ o, sliceGet lmap.objSlice (lmap.Len - 1) = some (some o) ∧
        sliceGet lmap1.objSlice p = some (some o) ∧ mapGet lmap1.idxMap o.id = some p) ∧
      (∀ key q : Int, key ≠ id → mapGet lmap.idxMap key = some q → q ≠ lmap.Len - 1 →
        mapGet lmap1.idxMap key = some q ∧
          sliceGet lmap1.objSlice q = sliceGet lmap.objSlice q) ∧
      (p = lmap.Len - 1 → ∀ key q : Int, key ≠ id → mapGet lmap.idxMap key = some q →
        mapGet lmap1.idxMap key = some q ∧
          sliceGet lmap1.objSlice q = sliceGet lmap.objSlice q) := by
  have hinv := h.inv
  obtain ⟨hp0, hp1, _⟩ := hinv.pos id p hp
  obtain ⟨m1, h1, h2, h3, _, h5, h6, h7⟩ := del_layout hinv hp
  have hkeep : ∀ key q : Int, key ≠ id → mapGet lmap.idxMap key = some q →
      q ≠ lmap.maxIdx - 1 → mapGet m1.idxMap key = some q ∧
        sliceGet m1.objSlice q = sliceGet lmap.objSlice q := by
    intro key q hk hq hne
    obtain ⟨_, hq1, _⟩ := hinv.pos key q hq
    have hqp : q ≠ p := fun hqp => hk (hinv.pos_inj (hqp ▸ hq) hp)
    have hnot : mapGet lmap.idxMap key ≠ some (lmap.maxIdx - 1) := by
      rw [hq]; intro hc; exact hne (Option.some.inj hc)
    exact ⟨by rw [h7 key hk, if_neg hnot, hq], by rw [h5 q (by omega), if_neg hqp]⟩
  refine ⟨m1, h1, h3, ?_, ?_, ?_, hkeep, ?_⟩
  · intro i hi0 hi1; exact h2.live i hi0 hi1
  · intro i hi0 hi1; exact h2.free i hi0 hi1
  · intro hne
    obtain ⟨o, ho⟩ := hinv.live (lmap.maxIdx - 1) (by omega) (by omega)
    have hown := hinv.owner ho (by omega)
    have hoid : o.id ≠ id := by
      intro heq; rw [heq, hp] at hown
      exact hne (Option.some.inj hown)
    have hlt : p < lmap.maxIdx - 1 := by
      have : p ≠ lmap.maxIdx - 1 := hne
      omega
    exact ⟨o, ho, by rw [h5 p hlt, if_pos rfl, ho], by rw [h7 o.id hoid, if_pos hown]⟩
  · intro heq key q hk hq
    refine hkeep key q hk hq ?_
    intro hq2
    have hq3 : q = p := by rw [hq2]; exact heq.symm
    exact hk (hinv.pos_inj (hq3 ▸ hq) hp)

theorem C16_del_swaps_tail_into_hole_witness :
    Reachable sample ∧ mapGet sample.idxMap 1 = some 0 ∧
    ∃ lmap1, sample.Del 1 = some lmap1 ∧ lmap1.Len = sample.Len - 1 ∧
      (∀ i : Int, 0 ≤ i → i < lmap1.Len → ∃ e, sliceGet lmap1.objSlice i = some (some e)) ∧
      (∀ i : Int, lmap1.Len ≤ i → i < lmap1.objSlice.length →
        sliceGet lmap1.objSlice i = some none) ∧
      ((0 : Int) ≠ sample.Len - 1 → ∃ o, sliceGet sample.objSlice (sample.Len - 1) = some (some o) ∧
        sliceGet lmap1.objSlice 0 = some (some o) ∧ mapGet lmap1.idxMap o.id = some 0) ∧
      (∀ key q : Int, key ≠ 1 → mapGet sample.idxMap key = some q → q ≠ sample.Len - 1 →
        mapGet lmap1.idxMap key = some q ∧
          sliceGet lmap1.objSlice q = sliceGet sample.objSlice q) ∧
      ((0 : Int) = sample.Len - 1 → ∀ key q : Int, key ≠ 1 → mapGet sample.idxMap key = some q →
        mapGet lmap1.idxMap key = some q ∧
          sliceGet lmap1.objSlice q = sliceGet sample.objSlice q) :=
  ⟨sample_reachable, by decide,
    C16_del_swaps_tail_into_hole sample 1 0 sample_reachable (by decide)⟩

/-- Claim C17 (operations never fail on well-formed containers): on a container obtained
from `NewLMap()` by `Add` of non-nil elements, `Del` and `Shrink`, each of `Get(id)`,
`Add(e)` for a non-nil `e` and `Del(id)` completes without a panic, that is without an index
out of range and without a call of `LMapId` on an empty slot; in the swap branch of `Del`
the slot read at the decremented live count holds an element. -/
theorem C17_operations_never_panic (lmap : LMap) (h : Reachable lmap) :
    (∀ id : Int, ∃ r, lmap.Get id = some r) ∧
    (∀ e : Obj, ∃ lmap1, lmap.Add (some e) = some lmap1) ∧
    (∀ id : Int, ∃ lmap1, lmap.Del id = some lmap1) ∧
    (∀ id p : Int, mapGet lmap.idxMap id = some p → p ≠ lmap.maxIdx - 1 →
      ∃ o, sliceGet lmap.objSlice (lmap.maxIdx - 1) = some (some o)) := by
  have hinv := h.inv
  refine ⟨?_, ?_, ?_, ?_⟩
  · intro id
    cases hp : mapGet lmap.idxMap id with
    | none => exact ⟨none, get_absent hp⟩
    | some p =>
      obtain ⟨e, he, _⟩ := hinv.get_present hp
      exact ⟨some e, he⟩
  · intro e
    obtain ⟨m1, h1, _⟩ := add_spec hinv e
    exact ⟨m1, h1⟩
  · intro id
    obtain ⟨m1, h1, _⟩ := del_spec hinv id
    exact ⟨m1, h1⟩
  · intro id p hp hne
    obtain ⟨hp0, hp1, _⟩ := hinv.pos id p hp
    exact hinv.live (lmap.maxIdx - 1) (by omega) (by omega)

theorem C17_operations_never_panic_witness :
    Reachable sample ∧
    ((∀ id : Int, ∃ r, sample.Get id = some r) ∧
    (∀ e : Obj, ∃ lmap1, sample.Add (some e) = some lmap1) ∧
    (∀ id : Int, ∃ lmap1, sample.Del id = some lmap1) ∧
    (∀ id p : Int, mapGet sample.idxMap id = some p → p ≠ sample.maxIdx - 1 →
      ∃ o, sliceGet sample.objSlice (sample.maxIdx - 1) = some (some o))) :=
  ⟨sample_reachable, C17_operations_never_panic sample sample_reachable⟩

/-- Claim C18 (`Iter` agrees with `FastIter` when nothing is mutated): for every container,
well-formed or not, with a visit function that leaves the container alone, `Iter` ends
normally whatever the fuel (the inner loop makes no pass), leaves the container as it was,
has called the visit function on the very sequence of elements `FastIter` calls it on, and
leaves the visit function in the state `FastIter` leaves it in. -/
theorem C18_iter_agrees_with_fastIter {σ : Type} (lmap : LMap) (g : Obj → σ → σ) (s : σ)
    (fuel : Nat) :
    lmap.Iter (pureVisit g) s fuel =
      IterResult.finished
        { lmap := lmap, view := lmap.objSlice, user := lmap.FastIter g s,
          trace := lmap.fastIterVisits } := by
  unfold LMap.Iter
  rw [iterOuter_pure g lmap fuel lmap.objSlice.length 0 s [] (by simp), fastIterVisits_eq]
  simp [LMap.FastIter]

/-- Claim C19 (drain by `Iter`): on a well-formed container, with a visit function whose
only effect on the container is to `Del` the identity of the element it is given, `Iter`
ends normally (given fuel for `Len()` passes of the inner loop), the container is then empty,
and the elements passed to the visit function are exactly the elements that were in the
container at the start, each passed once. -/
theorem C19_iter_drains {σ : Type} (lmap : LMap) (g : Obj → σ → σ) (s : σ) (fuel : Nat)
    (h : Reachable lmap) (hfuel : lmap.Len ≤ (fuel : Int)) :
    ∃ st, lmap.Iter (drainVisit g) s fuel = IterResult.finished st ∧ st.lmap.Len = 0 ∧
      st.trace.Nodup ∧ (∀ e, e ∈ st.trace ↔ lmap.Get e.id = some (some e)) ∧
      st.trace.Perm lmap.fastIterVisits := by
  obtain ⟨st, h1, h2, h3, h4⟩ := iter_drain g lmap h s fuel hfuel
  refine ⟨st, h1, h2, h3, h4, ?_⟩
  rw [List.perm_ext_iff_of_nodup h3 h.inv.visits_nodup]
  intro e
  rw [h4, h.inv.mem_visits]
  constructor
  · intro he
    refine ⟨e.id, ?_, he⟩
    rw [h.inv.present_iff, he]; simp
  · rintro ⟨id, hid, hget⟩
    cases hp : mapGet lmap.idxMap id with
    | none => exact absurd hp hid
    | some p =>
      obtain ⟨e1, he1, hid1, _⟩ := h.inv.get_present hp
      rw [hget] at he1
      have : e = e1 := by simpa using he1
      rw [this, hid1, ← this]; exact hget

theorem C19_iter_drains_witness :
    Reachable sample ∧ sample.Len ≤ ((3 : Nat) : Int) ∧
    ∃ st, sample.Iter (drainVisit (fun _ (n : Nat) => n + 1)) 0 3 = IterResult.finished st ∧
      st.lmap.Len = 0 ∧ st.trace.Nodup ∧
      (∀ e, e ∈ st.trace ↔ sample.Get e.id = some (some e)) ∧
      st.trace.Perm sample.fastIterVisits :=
  ⟨sample_reachable, by decide,
    C19_iter_drains sample (fun _ (n : Nat) => n + 1) 0 3 sample_reachable (by decide)⟩

/-- Claim C20 (`Shrink` preserves contents): on a well-formed container `Shrink()` completes
and leaves `Len()`, the index map, the result of `Get(id)` for every `id`, and the sequence
of elements visited by `FastIter` as they were; only the physical length of the store may
change. -/
theorem C20_shrink_preserves_contents (lmap : LMap) (h : Reachable lmap) :
    ∃ lmap1, lmap.Shrink = some lmap1 ∧ lmap1.Len = lmap.Len ∧ lmap1.idxMap = lmap.idxMap ∧
      (∀ id, lmap1.Get id = lmap.Get id) ∧ lmap1.fastIterVisits = lmap.fastIterVisits ∧
      (∀ (σ : Type) (g : Obj → σ → σ) (s : σ), lmap1.FastIter g s = lmap.FastIter g s) := by
  have hinv := h.inv
  have hnn := hinv.nonneg
  have hvis : leadingObjs (lmap.objSlice.take lmap.maxIdx.toNat) = leadingObjs lmap.objSlice := by
    refine leadingObjs_take _ _ ?_
    intro i hi1 hi2
    have := hinv.free i (by omega) (by omega)
    rwa [sliceGet_of_nat] at this
  refine ⟨_, shrink_eq hinv, rfl, rfl, (inv_take hinv).2, ?_, ?_⟩
  · rw [fastIterVisits_eq, fastIterVisits_eq]; exact hvis
  · intro σ g s
    unfold LMap.FastIter
    rw [fastIterLoop_eq_foldl, fastIterLoop_eq_foldl]
    simp only [hvis]

theorem C20_shrink_preserves_contents_witness :
    Reachable sampleFree ∧
    ∃ lmap1, sampleFree.Shrink = some lmap1 ∧ lmap1.Len = sampleFree.Len ∧
      lmap1.idxMap = sampleFree.idxMap ∧
      (∀ id, lmap1.Get id = sampleFree.Get id) ∧
      lmap1.fastIterVisits = sampleFree.fastIterVisits ∧
      (∀ (σ : Type) (g : Obj → σ → σ) (s : σ),
        lmap1.FastIter g s = sampleFree.FastIter g s) :=
  ⟨sampleFree_reachable, C20_shrink_preserves_contents sampleFree sampleFree_reachable⟩

end SliceMap
